import Mathlib

/-! Fooyin: script engine, player controller, library scanner, identifiers, library
thread handler and sorting model.

`src/include/core/scripting/scriptparser.h` declares `ScriptError`, `ParsedScript` (with
`isValid`) and the interface of `ScriptParser`.  The bodies of the parser and of the
evaluator, and the headers `expression.h` and `scriptregistry.h`, are not part of the
sources at hand; what they do is taken from the design document (`spec.md`), and every
definition that is so obtained says it in its doc comment.

Next to the parser the file gives the grammar of well-formed scripts (`Script`), which is
stated on the text alone, and next to the evaluator the same recursion with a bound on
its depth (`evalExpressionWithin`).

`src/src/core/player/playercontroller.cpp` and `src/src/core/library/libraryscanner.cpp`
are at hand; the types they use and that are declared elsewhere (`PlaylistTrack`,
`PlaybackQueue`, `Track`, `TrackFieldMap`) enter as parameters.

`src/src/plugins/utils/id.cpp`, `src/src/core/library/librarythreadhandler.cpp` and
`src/src/gui/settings/library/sortingmodel.cpp` are at hand too.  A function that writes
to its object gives the object that it leaves; `std::hash<QString>` and the class
`SortingRegistry` enter as parameters, and the scanner of the handler and the signals of
the model are kept as the list of the calls made so far.
-/

namespace Fooyin

/-! ## Data model -/

/-- Modelled from the spec: `expression.h` is missing.  An expression is a tagged node
(§3): `Literal(text)`, `QuotedLiteral(text)`, `Variable(name)`, `VariableList(name)`,
`Function(name, args)` with an ordered sequence of argument sub-scripts, and
`Conditional(branches)`.  Every node carries the character offset where it began. -/
inductive Expression where
  | Literal (pos : Nat) (text : String)
  | QuotedLiteral (pos : Nat) (text : String)
  | Variable (pos : Nat) (name : String)
  | VariableList (pos : Nat) (name : String)
  | Function (pos : Nat) (name : String) (args : List (List Expression))
  | Conditional (pos : Nat) (branches : List (List Expression))

/-- Modelled from the spec: `expression.h` is missing.  The `ExpressionList` that
`ParsedScript` holds: an ordered sequence of expressions (§2: "a script is a sequence,
not a single root"). -/
abbrev ExpressionList := List Expression

/-- The struct `ScriptError` of `scriptparser.h`: `int position; QString value; QString message;`. -/
structure ScriptError where
  position : Int
  value : String
  message : String
deriving DecidableEq

/-- The alias `ErrorList` of `scriptparser.h`: `std::vector<ScriptError>`. -/
abbrev ErrorList := List ScriptError

/-- The struct `ParsedScript` of `scriptparser.h`: `QString input; ExpressionList expressions;
`ErrorList errors;`. -/
structure ParsedScript where
  input : String
  expressions : ExpressionList
  errors : ErrorList

/-- The method `ParsedScript::isValid` of `scriptparser.h`: `return errors.empty();`. -/
def ParsedScript.isValid (self : ParsedScript) : Bool :=
  self.errors.isEmpty

/-! ## Lexer -/

/-- Modelled from the spec: the scanner is missing.  §4.1 names the structural signals:
the variable delimiter `%`, the function marker `$`, quoting, and the conditional-group
brackets `[` and `]`.  The spec does not name the quote character; the double quote of
fooyin scripts is taken. -/
def isMarker (c : Char) : Bool :=
  c == '%' || c == '$' || c == '"' || c == '[' || c == ']'

/-- Modelled from the spec: the scanner is missing.  A delimiter is a marker or one of the
characters of a function call `$name(...)` with its comma-separated argument list. -/
def isDelimiter (c : Char) : Bool :=
  isMarker c || c == '(' || c == ')' || c == ','

/-- Modelled from the spec: the scanner is missing.  §4.1: "a cursor abstraction supporting
peek/advance/consume-until with offset tracking": the absolute character offset and the
text that is still to be read. -/
structure Cursor where
  pos : Nat
  rest : List Char

/-- Modelled from the spec: the scanner is missing.  The next character, if any. -/
def Cursor.peek (cur : Cursor) : Option Char :=
  cur.rest.head?

/-- Modelled from the spec: the scanner is missing.  Step over one character. -/
def Cursor.advance (cur : Cursor) : Cursor :=
  { pos := cur.pos + 1, rest := cur.rest.tail }

/-- Modelled from the spec: the scanner is missing.  Consume the maximal run of characters
before the first one at which `stop` holds. -/
def Cursor.consumeUntil (stop : Char → Bool) (cur : Cursor) : String × Cursor :=
  let run := cur.rest.takeWhile (fun c => !stop c)
  (String.mk run, { pos := cur.pos + run.length, rest := cur.rest.dropWhile (fun c => !stop c) })

/-- Modelled from the spec: the scanner is missing.  Consume everything that is left. -/
def Cursor.consumeAll (cur : Cursor) : String × Cursor :=
  (String.mk cur.rest, { pos := cur.pos + cur.rest.length, rest := [] })

/-! ## Parser -/

/-- Modelled from the spec: the parser body is missing.  The innermost construct whose
content is being read: the top level, a conditional group, or the argument list of a
function call. -/
inductive Context where
  | Top
  | Group
  | Args
deriving DecidableEq

/-- Modelled from the spec: the parser body is missing.  The characters that end a run of
plain text: the markers everywhere, and the comma and the closing parenthesis directly
inside an argument list (§4.2 `functionArgs`: only top-level commas split). -/
def Context.stops (ctx : Context) (c : Char) : Bool :=
  isMarker c || (ctx == Context.Args && (c == ',' || c == ')'))

/-- Modelled from the spec: the parser body is missing.  Why a sequence ended. -/
inductive Stop where
  | EndOfInput
  | GroupClose
  | ArgSeparator
  | ArgsClose
deriving DecidableEq

/-- Modelled from the spec: the parser body is missing.  §9: a parse step returns
"(node, sequence-of-errors)", merged upward; the cursor after the node comes with it. -/
structure Node where
  expr : Expression
  errors : ErrorList
  cursor : Cursor

/-- Modelled from the spec: the parser body is missing.  An expression sequence with its
errors, the reason it ended and the cursor after it. -/
structure Sequence where
  exprs : ExpressionList
  errors : ErrorList
  stop : Stop
  cursor : Cursor

/-- Modelled from the spec: the parser body is missing.  The arguments of a call, whether
the closing parenthesis was found, and the cursor after them. -/
structure Arguments where
  args : List ExpressionList
  errors : ErrorList
  closed : Bool
  cursor : Cursor

/-- Modelled from the spec: the parser body is missing.  Put a parsed node in front of the
sequence that follows it, merging the errors in source order. -/
def Sequence.push (n : Node) (s : Sequence) : Sequence :=
  { s with exprs := n.expr :: s.exprs, errors := n.errors ++ s.errors }

/-- Modelled from the spec: the parser body is missing.  §4.2 `literal()`: "consumes a
maximal run of plain text up to the next delimiter". -/
def literal (ctx : Context) (cur : Cursor) : Node :=
  let run := cur.consumeUntil ctx.stops
  { expr := Expression.Literal cur.pos run.1, errors := [], cursor := run.2 }

/-- Modelled from the spec: the parser body is missing.  §4.1/§7: an unexpected delimiter
"degrades to literal text, with an error recorded by the caller (the parser)". -/
def unexpected (cur : Cursor) (c : Char) : Node :=
  { expr := Expression.Literal cur.pos (String.mk [c]),
    errors := [{ position := cur.pos, value := String.mk [c], message := "Unexpected delimiter" }],
    cursor := cur.advance }

/-- Modelled from the spec: the parser body is missing.  §4.2 `quote()`: "consumes text
between quote delimiters, treating contained delimiter characters as literal;
unterminated quotes produce a `ScriptError` at the opening position and fall back to
treating the rest as literal text".  The cursor stands on the opening quote. -/
def quote (cur : Cursor) : Node :=
  let run := cur.advance.consumeUntil (fun c => c == '"')
  if run.2.peek == some '"' then
    { expr := Expression.QuotedLiteral cur.pos run.1, errors := [], cursor := run.2.advance }
  else
    { expr := Expression.Literal (cur.pos + 1) run.1,
      errors := [{ position := cur.pos, value := "\"", message := "Unterminated quote" }],
      cursor := run.2 }

/-- Modelled from the spec: the parser body is missing.  §4.2 `variable()` (a reserved word
here, hence the longer name): "consumes a name between variable delimiters; on a
delimiter with empty or invalid name content, records an error and treats the span as
literal text".  The name is the run of plain text after the opening `%`; the cursor
stands on the opening `%`. -/
def variableExpr (cur : Cursor) : Node :=
  let run := cur.advance.consumeUntil isDelimiter
  if run.2.peek == some '%' then
    if run.1 == "" then
      { expr := Expression.Literal cur.pos "%%",
        errors := [{ position := cur.pos, value := "%%", message := "Empty variable name" }],
        cursor := run.2.advance }
    else
      { expr := Expression.Variable cur.pos run.1, errors := [], cursor := run.2.advance }
  else
    { expr := Expression.Literal cur.pos ("%" ++ run.1),
      errors := [{ position := cur.pos, value := "%" ++ run.1, message := "Unterminated variable" }],
      cursor := run.2 }

/-- Modelled from the spec: the parser body is missing.  §4.2 `conditional()`: "consumes
content between bracket delimiters as a nested expression sequence; unterminated
brackets are a recorded error with the same literal-fallback recovery" (that of
`quote()`: an error at the opening position, the rest as literal text).  `cur` stands on
the opening bracket and `body` is the nested sequence read after it. -/
def conditional (cur : Cursor) (body : Sequence) : Node :=
  if body.stop == Stop.GroupClose then
    { expr := Expression.Conditional cur.pos [body.exprs], errors := body.errors,
      cursor := body.cursor }
  else
    { expr := Expression.Literal (cur.pos + 1) cur.advance.consumeAll.1,
      errors := [{ position := cur.pos, value := "[", message := "Unterminated conditional" }],
      cursor := cur.advance.consumeAll.2 }

/-- Modelled from the spec: the parser body is missing.  §4.2 `function()`: "consumes a
function name followed by a parenthesized, comma-separated argument list"; "missing
closing parenthesis is a recorded error with best-effort recovery (treat remaining text
as a final unterminated argument)".  The arguments of a call without its closing
parenthesis are thus read to the end of the text, where the cursor stays.  §8 puts the
error at the position of the opening `$` and has "the unterminated call degraded to
literal/partial content" with a "non-empty best-effort rendered string", and §4.2
converts every malformed construct "to the most literal interpretation possible plus one
`ScriptError`": the node of such a call is its text, from the `$` on, as a literal.
`cur` stands on the `$`, `name` is the name read after it and `args` the argument list
read after the opening parenthesis. -/
def function (cur : Cursor) (name : String) (args : Arguments) : Node :=
  if args.closed then
    { expr := Expression.Function cur.pos name args.args, errors := args.errors,
      cursor := args.cursor }
  else
    { expr := Expression.Literal cur.pos cur.consumeAll.1,
      errors := [{ position := cur.pos, value := "$" ++ name,
                   message := "Expected closing parenthesis after function call" }],
      cursor := args.cursor }

/-- Modelled from the spec: the parser body is missing.  §7 counts an empty function name
among the syntax errors; a `$` that is not followed by a name and an opening parenthesis
is recorded and the span read so far is kept as literal text. -/
def functionFallback (cur : Cursor) : Node :=
  let run := cur.advance.consumeUntil isDelimiter
  { expr := Expression.Literal cur.pos ("$" ++ run.1),
    errors := [{ position := cur.pos, value := "$" ++ run.1,
                 message := if run.1 == "" then "Empty function name"
                            else "Expected opening parenthesis after function name" }],
    cursor := run.2 }

mutual
/-- Modelled from the spec: the parser body is missing.  §4.2 `expression()`: "top-level
dispatch — looks at the next structural marker and delegates to `literal`, `quote`,
`variable`, `function`, or `conditional`; loops until end of input, accumulating an
ordered sequence".  The same loop reads the content of a group (up to `]`) and one
argument of a call (up to a top-level `,` or `)`).  `fuel` bounds the recursion depth;
`none` is returned only when it runs out. -/
def expression : Nat → Context → Cursor → Option Sequence
  | 0, _, _ => none
  | fuel + 1, ctx, cur =>
    match cur.rest with
    | [] => some { exprs := [], errors := [], stop := Stop.EndOfInput, cursor := cur }
    | c :: _ =>
      if c == ']' then
        if ctx == Context.Group then
          some { exprs := [], errors := [], stop := Stop.GroupClose, cursor := cur.advance }
        else
          (expression fuel ctx cur.advance).map (Sequence.push (unexpected cur c))
      else if ctx == Context.Args && c == ',' then
        some { exprs := [], errors := [], stop := Stop.ArgSeparator, cursor := cur.advance }
      else if ctx == Context.Args && c == ')' then
        some { exprs := [], errors := [], stop := Stop.ArgsClose, cursor := cur.advance }
      else if c == '%' then
        (expression fuel ctx (variableExpr cur).cursor).map (Sequence.push (variableExpr cur))
      else if c == '"' then
        (expression fuel ctx (quote cur).cursor).map (Sequence.push (quote cur))
      else if c == '[' then
        match expression fuel Context.Group cur.advance with
        | none => none
        | some body =>
          (expression fuel ctx (conditional cur body).cursor).map
            (Sequence.push (conditional cur body))
      else if c == '$' then
        let head := cur.advance.consumeUntil isDelimiter
        if head.1 != "" && head.2.peek == some '(' then
          match functionArgs fuel head.2.advance with
          | none => none
          | some args =>
            (expression fuel ctx (function cur head.1 args).cursor).map
              (Sequence.push (function cur head.1 args))
        else
          (expression fuel ctx (functionFallback cur).cursor).map
            (Sequence.push (functionFallback cur))
      else
        (expression fuel ctx (literal ctx cur).cursor).map (Sequence.push (literal ctx cur))
/-- Modelled from the spec: the parser body is missing.  §4.2 `functionArgs()`: "splits on
top-level commas only"; each argument is a nested expression sequence.  The cursor
stands after the opening parenthesis or after a separating comma. -/
def functionArgs : Nat → Cursor → Option Arguments
  | 0, _ => none
  | fuel + 1, cur =>
    match expression fuel Context.Args cur with
    | none => none
    | some arg =>
      if arg.stop == Stop.ArgSeparator then
        (functionArgs fuel arg.cursor).map
          (fun more => { more with args := arg.exprs :: more.args,
                                   errors := arg.errors ++ more.errors })
      else
        some { args := [arg.exprs], errors := arg.errors,
               closed := arg.stop == Stop.ArgsClose, cursor := arg.cursor }
end

/-- Modelled from the spec: the parser body is missing.  The recursion budget of a parse:
every recursive step has consumed a character, so the length of the text plus one is
enough (`expression_total`). -/
def parseFuel (input : String) : Nat :=
  input.length + 1

/-- Modelled from the spec: the parser body is missing.  §4.2 Output:
`ParsedScript{input, expressions, errors}`, read from the whole text at the top level. -/
def parseInput (input : String) : ParsedScript :=
  match expression (parseFuel input) Context.Top { pos := 0, rest := input.toList } with
  | some s => { input := input, expressions := s.exprs, errors := s.errors }
  | none => { input := input, expressions := [], errors := [] }

/-! ## Collaborators of the evaluator -/

/-- Modelled from the spec: the track type is missing.  §1: the metadata provider "resolves
a field name to zero, one, or many string values"; §6 `resolveField(name)`. -/
structure Track where
  resolveField : String → List String

/-- Modelled from the spec: `scriptregistry.h` is missing.  §6:
`classify(name) -> {Variable | VariableList | Function(arity-checker) | Unknown}`. -/
inductive NameKind where
  | Variable
  | VariableList
  | Function (arity : Nat → Bool)
  | Unknown

/-- Modelled from the spec: `scriptregistry.h` is missing.  §6: the registry classifies a
name and invokes a built-in: `invoke(functionName, args, record) -> string`.  Only
built-ins that take evaluated arguments are covered. -/
structure ScriptRegistry where
  classify : String → NameKind
  invoke : String → List String → Track → String

/-- Modelled from the spec: `expression.h` is missing.  §3 `ScriptResult`:
"{value(s): one or more strings, isEmpty: whether the producing sub-expression resolved
to nothing, success: whether resolution succeeded at all}". -/
structure ScriptResult where
  values : List String
  isEmpty : Bool
  success : Bool

/-- Modelled from the spec: `ScriptParser::Private` is missing.  The state of a
`ScriptParser`: the registry given to the constructor, the last parsed script
(`lastParsedScript`) and the metadata of `setMetadata`; `separator` is the text with
which the result formatter (§2) joins several values into "the final joined string",
for which the spec names no text, so it is left open. -/
structure ScriptParser where
  registry : ScriptRegistry
  separator : String
  parsedScript : ParsedScript
  metadata : Track

/-! ## Evaluator -/

/-- Modelled from the spec: the evaluator body is missing.  A failed resolution:
`ScriptResult{success:false}`, which "renders as empty text". -/
def ScriptResult.failure : ScriptResult :=
  { values := [""], isEmpty := true, success := false }

/-- Modelled from the spec: the evaluator body is missing.  The result of an empty
sequence: one branch with no text. -/
def ScriptResult.nothing : ScriptResult :=
  { values := [""], isEmpty := true, success := true }

/-- Modelled from the spec: the evaluator body is missing.  Every text of `xs` followed by
every text of `ys`: the branches of a sequence after a further node (§4.3: a fan-out
gives "N parallel results (one per value), each carrying the same literal/function
context"). -/
def cross : List String → List String → List String
  | [], _ => []
  | x :: xs, ys => ys.map (fun y => x ++ y) ++ cross xs ys

/-- Modelled from the spec: the evaluator body is missing.  §4.3: "accumulate a growing
result buffer": the result of a node followed by the result of the nodes after it. -/
def ScriptResult.append (a b : ScriptResult) : ScriptResult :=
  { values := cross a.values b.values, isEmpty := a.isEmpty && b.isEmpty,
    success := a.success && b.success }

/-- Modelled from the spec: the evaluator body is missing.  One list of argument texts for
every combination of the values of the arguments (§3: "Cartesian-style expansion"). -/
def combinations : List (List String) → List (List String)
  | [] => [[]]
  | vs :: rest => (vs.map (fun v => (combinations rest).map (fun c => v :: c))).foldr (· ++ ·) []

/-- Modelled from the spec: the evaluator body is missing.  §4.3 `evalLiteral`: "append
text verbatim; always succeeds". -/
def ScriptParser.evalLiteral ( _self : ScriptParser) (text : String) : ScriptResult :=
  { values := [text], isEmpty := text == "", success := true }

/-- Modelled from the spec: the evaluator body is missing.  §4.3 `evalVariableList`: as
`evalVariable` "but may yield N values", one result per value.  A name that the
registry does not know as a variable is a failed resolution; a field without a value,
or with empty values only, is empty. -/
def ScriptParser.evalVariableList (self : ScriptParser) (name : String) : ScriptResult :=
  match self.registry.classify name with
  | NameKind.Variable | NameKind.VariableList =>
    match self.metadata.resolveField name with
    | [] => { values := [""], isEmpty := true, success := true }
    | v :: vs => { values := v :: vs, isEmpty := (v :: vs).all (· == ""), success := true }
  | _ => ScriptResult.failure

/-- Modelled from the spec: the evaluator body is missing.  §4.3 `evalVariable`: "If
resolution fails (unknown field name) → `ScriptResult{success:false}` ... If resolved but
the field has no value for this record → `{success:true, isEmpty:true}`.  If resolved
with a value → `{success:true, isEmpty:false, value}`"; a value that is the empty string
counts as empty (§4.3 `evalConditional`: "exists-but-empty").  The parser does not
classify names (§4.1: that "is deferred to the Expression Registry ... lazily at
evaluation time"), so a name that the registry classifies as `VariableList` fans out
here; a single-valued reference to a field with several values renders them joined. -/
def ScriptParser.evalVariable (self : ScriptParser) (name : String) : ScriptResult :=
  match self.registry.classify name with
  | NameKind.Variable =>
    match self.metadata.resolveField name with
    | [] => { values := [""], isEmpty := true, success := true }
    | v :: vs =>
      { values := [String.intercalate self.separator (v :: vs)],
        isEmpty := (v :: vs).all (· == ""), success := true }
  | NameKind.VariableList => self.evalVariableList name
  | _ => ScriptResult.failure

/-- Modelled from the spec: the evaluator body is missing.  §4.3 `evalFunction`: "resolve
the callable via the registry"; the arguments come evaluated; the built-in is invoked
once for every combination of their values.  "Unknown function name is a resolution
failure rendered as empty text"; so is a call that the arity check refuses. -/
def ScriptParser.evalFunction (self : ScriptParser) (name : String) (args : List ScriptResult) :
    ScriptResult :=
  match self.registry.classify name with
  | NameKind.Function arity =>
    if arity args.length then
      { values := (combinations (args.map (·.values))).map
          (fun a => self.registry.invoke name a self.metadata),
        isEmpty := ((combinations (args.map (·.values))).map
          (fun a => self.registry.invoke name a self.metadata)).all (· == ""),
        success := true }
    else ScriptResult.failure
  | _ => ScriptResult.failure

/-- Modelled from the spec: the evaluator body is missing.  §4.3 `evalConditional`: when
the group is to be suppressed "the conditional's overall contribution to the result is
the empty string"; otherwise "the group's rendered text is included verbatim". -/
def ScriptParser.evalConditional ( _self : ScriptParser) (suppress : Bool) (body : ScriptResult) :
    ScriptResult :=
  if suppress then ScriptResult.nothing else body

mutual
/-- Modelled from the spec: the evaluator body is missing.  §4.3 `evalConditional`: whether
a `Variable`/`VariableList` node, here the node itself or one "directly or transitively
inside it", "resolved with `success:true, isEmpty:true` or `success:false`". -/
def ScriptParser.unresolved (self : ScriptParser) : Expression → Bool
  | Expression.Literal _ _ => false
  | Expression.QuotedLiteral _ _ => false
  | Expression.Variable _ name =>
    (self.evalVariable name).isEmpty || !(self.evalVariable name).success
  | Expression.VariableList _ name =>
    (self.evalVariableList name).isEmpty || !(self.evalVariableList name).success
  | Expression.Function _ _ args => ScriptParser.unresolvedArgs self args
  | Expression.Conditional _ branches => ScriptParser.unresolvedArgs self branches
/-- Modelled from the spec: the evaluator body is missing.  `unresolved` of some node of a
sequence. -/
def ScriptParser.unresolvedSequence (self : ScriptParser) : List Expression → Bool
  | [] => false
  | e :: es => ScriptParser.unresolved self e || ScriptParser.unresolvedSequence self es
/-- Modelled from the spec: the evaluator body is missing.  `unresolved` of some node of
some sequence of a list of sequences. -/
def ScriptParser.unresolvedArgs (self : ScriptParser) : List (List Expression) → Bool
  | [] => false
  | a :: as => ScriptParser.unresolvedSequence self a || ScriptParser.unresolvedArgs self as
end

mutual
/-- Modelled from the spec: the evaluator body is missing.  §4.3: the result of one node,
by the kind of the node. -/
def ScriptParser.evalExpression (self : ScriptParser) : Expression → ScriptResult
  | Expression.Literal _ text => self.evalLiteral text
  | Expression.QuotedLiteral _ text => self.evalLiteral text
  | Expression.Variable _ name => self.evalVariable name
  | Expression.VariableList _ name => self.evalVariableList name
  | Expression.Function _ name args =>
    self.evalFunction name (ScriptParser.evalFunctionArgs self args)
  | Expression.Conditional _ branches =>
    self.evalConditional (self.unresolvedArgs branches) (ScriptParser.evalBranches self branches)
/-- Modelled from the spec: the evaluator body is missing.  §4.3 `evalFunctionArg` and the
"state machine over evaluation of a sequence": the results of the nodes, in order. -/
def ScriptParser.evalFunctionArg (self : ScriptParser) : List Expression → ScriptResult
  | [] => ScriptResult.nothing
  | e :: es =>
    (ScriptParser.evalExpression self e).append (ScriptParser.evalFunctionArg self es)
/-- Modelled from the spec: the evaluator body is missing.  §4.3 `evalFunction`: "evaluate
each argument sub-sequence via `evalFunctionArg`". -/
def ScriptParser.evalFunctionArgs (self : ScriptParser) : List (List Expression) → List ScriptResult
  | [] => []
  | a :: as => ScriptParser.evalFunctionArg self a :: ScriptParser.evalFunctionArgs self as
/-- Modelled from the spec: the evaluator body is missing.  The rendered text of a group:
that of its branches, in order. -/
def ScriptParser.evalBranches (self : ScriptParser) : List (List Expression) → ScriptResult
  | [] => ScriptResult.nothing
  | b :: bs => (ScriptParser.evalFunctionArg self b).append (ScriptParser.evalBranches self bs)
end

/-- Modelled from the spec: the evaluator body is missing.  §2 result formatter: "joins
evaluator output into the final string(s)". -/
def ScriptParser.format (self : ScriptParser) (r : ScriptResult) : String :=
  String.intercalate self.separator r.values

/-! ## The public interface of `ScriptParser` -/

/-- Modelled from the spec: the body is missing.  `ParsedScript parse(const QString& input)`:
parses the text and keeps the result as the last parsed script. -/
def ScriptParser.parse (self : ScriptParser) (input : String) : ParsedScript × ScriptParser :=
  (parseInput input, { self with parsedScript := parseInput input })

/-- Modelled from the spec: the body is missing.  `void setMetadata(const Track& track)`. -/
def ScriptParser.setMetadata (self : ScriptParser) (track : Track) : ScriptParser :=
  { self with metadata := track }

/-- Modelled from the spec: the body is missing.
`QString evaluate(const ParsedScript& input, const Track& track)`. -/
def ScriptParser.evaluateScript (self : ScriptParser) (input : ParsedScript) (track : Track) :
    String :=
  self.format ((self.setMetadata track).evalFunctionArg input.expressions)

/-- Modelled from the spec: the body is missing.  `QString evaluate(const ParsedScript& input)`:
against the metadata that was last set. -/
def ScriptParser.evaluateAmbient (self : ScriptParser) (input : ParsedScript) : String :=
  self.evaluateScript input self.metadata

/-- Modelled from the spec: the body is missing.  `QString evaluate()`: "evaluate against
whatever metadata was last set via `setMetadata`, using the last parsed script". -/
def ScriptParser.evaluate (self : ScriptParser) : String :=
  self.evaluateAmbient self.parsedScript

/-! ## The evaluator with a bound on its recursion -/

/-- Modelled from the spec: the evaluator body is missing.  The results of the nodes of a
sequence, in order (`evalFunctionArg`), when `eval` is what gives the result of a node:
there is none when `eval` gives none for a node. -/
def sequenceWithin (eval : Expression → Option ScriptResult) : List Expression → Option ScriptResult
  | [] => some ScriptResult.nothing
  | e :: es =>
    match eval e, sequenceWithin eval es with
    | some r, some rs => some (r.append rs)
    | _, _ => none

/-- Modelled from the spec: the evaluator body is missing.  The results of the arguments of
a call (`evalFunctionArgs`), when `eval` is what gives the result of a node. -/
def argumentsWithin (eval : Expression → Option ScriptResult) :
    List (List Expression) → Option (List ScriptResult)
  | [] => some []
  | a :: as =>
    match sequenceWithin eval a, argumentsWithin eval as with
    | some r, some rs => some (r :: rs)
    | _, _ => none

/-- Modelled from the spec: the evaluator body is missing.  The rendered text of the
branches of a group (`evalBranches`), when `eval` is what gives the result of a node. -/
def branchesWithin (eval : Expression → Option ScriptResult) :
    List (List Expression) → Option ScriptResult
  | [] => some ScriptResult.nothing
  | b :: bs =>
    match sequenceWithin eval b, branchesWithin eval bs with
    | some r, some rs => some (r.append rs)
    | _, _ => none

/-- Modelled from the spec: the evaluator body is missing.  §4.3 "Termination": "no
unbounded recursion since argument nesting depth is bounded by input length".  The
recursion of `evalExpression` with a bound on how deep it may descend: a node is
evaluated with `budget`, the nodes of its arguments or branches with one less, and
there is no result (`none`) where the bound is used up. -/
def ScriptParser.evalExpressionWithin (self : ScriptParser) :
    Nat → Expression → Option ScriptResult
  | 0, _ => none
  | _ + 1, Expression.Literal _ text => some (self.evalLiteral text)
  | _ + 1, Expression.QuotedLiteral _ text => some (self.evalLiteral text)
  | _ + 1, Expression.Variable _ name => some (self.evalVariable name)
  | _ + 1, Expression.VariableList _ name => some (self.evalVariableList name)
  | budget + 1, Expression.Function _ name args =>
    (argumentsWithin (ScriptParser.evalExpressionWithin self budget) args).map
      (self.evalFunction name)
  | budget + 1, Expression.Conditional _ branches =>
    (branchesWithin (ScriptParser.evalExpressionWithin self budget) branches).map
      (self.evalConditional (self.unresolvedArgs branches))

/-- The expressions that a run of plain text parses to: none when the run is empty, else
one `Literal`. -/
def literalRun (pos : Nat) (run : List Char) : ExpressionList :=
  match run with
  | [] => []
  | c :: cs => [Expression.Literal pos (String.mk (c :: cs))]

mutual
/-- Whether a `Variable` or `VariableList` reference to `name` occurs in the expression,
the node itself or one at any depth inside it. -/
def mentions (name : String) : Expression → Bool
  | Expression.Literal _ _ => false
  | Expression.QuotedLiteral _ _ => false
  | Expression.Variable _ n => n == name
  | Expression.VariableList _ n => n == name
  | Expression.Function _ _ args => mentionsArgs name args
  | Expression.Conditional _ branches => mentionsArgs name branches
/-- Whether a reference to `name` occurs in some expression of the sequence. -/
def mentionsSequence (name : String) : List Expression → Bool
  | [] => false
  | e :: es => mentions name e || mentionsSequence name es
/-- Whether a reference to `name` occurs in some sequence of the list. -/
def mentionsArgs (name : String) : List (List Expression) → Bool
  | [] => false
  | a :: as => mentionsSequence name a || mentionsArgs name as
end

/-- A record with no field at all. -/
def emptyTrack : Track :=
  { resolveField := fun _ => [] }

/-- A record with a title, two genres and a disc number. -/
def sampleTrack : Track :=
  { resolveField := fun name =>
      if name == "title" then ["Song"]
      else if name == "genre" then ["Rock", "Jazz"]
      else if name == "disc" then ["2"]
      else [] }

/-- The number that a text of decimal digits writes. -/
def decimal (s : String) : Nat :=
  s.toList.foldl (fun n c => 10 * n + (c.toNat - 48)) 0

/-- A registry that knows the single-valued fields `title` and `disc`, the multi-valued
field `genre` and the two-argument function `left` (the first characters of a text). -/
def sampleRegistry : ScriptRegistry :=
  { classify := fun name =>
      if name == "title" || name == "disc" then NameKind.Variable
      else if name == "genre" then NameKind.VariableList
      else if name == "left" then NameKind.Function (fun n => n == 2)
      else NameKind.Unknown,
    invoke := fun name args _ =>
      if name == "left" then
        String.mk ((args.headD "").toList.take (decimal (args.getD 1 "")))
      else "" }

/-- A parser over `sampleRegistry`, with nothing parsed and an empty record. -/
def sampleParser : ScriptParser :=
  { registry := sampleRegistry,
    separator := ", ",
    parsedScript := { input := "", expressions := [], errors := [] },
    metadata := emptyTrack }

/-- A parser over a registry that knows no name at all, with nothing parsed and an empty
record. -/
def blankParser : ScriptParser :=
  { registry := { classify := fun _ => NameKind.Unknown, invoke := fun _ _ _ => "" },
    separator := ", ",
    parsedScript := { input := "", expressions := [], errors := [] },
    metadata := emptyTrack }

/-! ## Vocabulary of the statements on argument lists and on evaluation -/

/-- The cursor with further text after what it still has to read. -/
def Cursor.extend (cur : Cursor) (more : List Char) : Cursor :=
  { pos := cur.pos, rest := cur.rest ++ more }

/-- The node with further text after the cursor that follows it. -/
def Node.extend (n : Node) (more : List Char) : Node :=
  { n with cursor := n.cursor.extend more }

/-- The sequence with further text after the cursor that follows it. -/
def Sequence.extend (s : Sequence) (more : List Char) : Sequence :=
  { s with cursor := s.cursor.extend more }

/-- The arguments with further text after the cursor that follows them. -/
def Arguments.extend (a : Arguments) (more : List Char) : Arguments :=
  { a with cursor := a.cursor.extend more }

/-- The way in which a character ends the sequence of a context: `]` ends a group, a comma
and `)` end an argument; nothing ends the top level. -/
def Context.closes (ctx : Context) (c : Char) : Option Stop :=
  match ctx with
  | Context.Top => none
  | Context.Group => if c == ']' then some Stop.GroupClose else none
  | Context.Args =>
    if c == ',' then some Stop.ArgSeparator
    else if c == ')' then some Stop.ArgsClose
    else none

/-- The text of an argument list: the argument texts with a comma between each two. -/
def joinArguments : List (List Char) → List Char
  | [] => []
  | [a] => a
  | a :: b :: rest => a ++ ',' :: joinArguments (b :: rest)

/-- The parses of argument texts, each read on its own as the content of an argument from
the offset at which it stands in the list; `none` unless every text is read to its end
without an error (so it has no comma and no closing parenthesis of its own level). -/
def argumentsAlone (pos : Nat) : List (List Char) → Option (List ExpressionList)
  | [] => some []
  | a :: rest =>
    match expression (a.length + 1) Context.Args { pos := pos, rest := a } with
    | some s =>
      if s.stop == Stop.EndOfInput && s.errors.isEmpty then
        (argumentsAlone (pos + a.length + 1) rest).map (fun more => s.exprs :: more)
      else none
    | none => none

/-- The offset of the end of the text, seen from a cursor. -/
def Cursor.finish (cur : Cursor) : Nat :=
  cur.pos + cur.rest.length

/-- The text of a call: `$`, the name, and the argument texts between parentheses with a
comma between each two. -/
def callText (name : String) (arguments : List String) : String :=
  String.mk ('$' :: (name.toList ++ '(' :: (joinArguments (arguments.map String.toList) ++ [')'])))

mutual
/-- The number of nodes of an expression, those of its arguments or branches included. -/
def Expression.size : Expression → Nat
  | Expression.Literal _ _ => 1
  | Expression.QuotedLiteral _ _ => 1
  | Expression.Variable _ _ => 1
  | Expression.VariableList _ _ => 1
  | Expression.Function _ _ args => sizeOfArgs args + 1
  | Expression.Conditional _ branches => sizeOfArgs branches + 1
/-- The number of nodes of a sequence of expressions. -/
def sizeOfSequence : List Expression → Nat
  | [] => 0
  | e :: es => Expression.size e + sizeOfSequence es
/-- The number of nodes of a list of sequences. -/
def sizeOfArgs : List (List Expression) → Nat
  | [] => 0
  | a :: as => sizeOfSequence a + sizeOfArgs as
end

/-- Modelled from the spec: the body is missing.  The accessor
`const ParsedScript& lastParsedScript() const`: the script that `parse` kept last. -/
def ScriptParser.lastParsedScript (self : ScriptParser) : ParsedScript :=
  self.parsedScript

/-! ## The grammar of well-formed scripts -/

/-- The syntactically well-formed scripts of §4.1 and §4.2, as a grammar on the text that
does not refer to the parser: the content of a context (the top level, a conditional
group, an argument of a call) is a sequence of runs of plain text, quoted texts
`"..."`, variables `%name%`, conditional groups `[...]` whose content is well formed as
that of a group, and calls `$name(a,b,...)` whose arguments are well formed as those of a
call.  Plain text is text without a character that `Context.stops` names for the context,
and a run of it is taken as long as it is; a name is not empty and has no delimiter. -/
inductive Script : Context → List Char → Prop where
  | done (ctx : Context) : Script ctx []
  | text (ctx : Context) (c : Char) (cs rest : List Char) :
      (∀ x ∈ c :: cs, ctx.stops x = false) → (∀ m ∈ rest.head?, ctx.stops m = true) →
      Script ctx rest → Script ctx (c :: cs ++ rest)
  | quoted (ctx : Context) (text rest : List Char) :
      (∀ x ∈ text, x ≠ '"') → Script ctx rest → Script ctx ('"' :: (text ++ '"' :: rest))
  | reference (ctx : Context) (c : Char) (cs rest : List Char) :
      (∀ x ∈ c :: cs, isDelimiter x = false) → Script ctx rest →
      Script ctx ('%' :: (c :: cs ++ '%' :: rest))
  | group (ctx : Context) (body rest : List Char) :
      Script Context.Group body → Script ctx rest → Script ctx ('[' :: (body ++ ']' :: rest))
  | call (ctx : Context) (c : Char) (cs first : List Char) (others : List (List Char))
      (rest : List Char) :
      (∀ x ∈ c :: cs, isDelimiter x = false) →
      (∀ a ∈ first :: others, Script Context.Args a) → Script ctx rest →
      Script ctx ('$' :: (c :: cs ++ '(' :: (joinArguments (first :: others) ++ ')' :: rest)))

/-! ## Player controller (`src/core/player/playercontroller.cpp`) -/

/-- The result of an operation on `uint64_t`: the value modulo `2 ^ 64`. -/
def wrap64 (n : Nat) : Nat :=
  n % 18446744073709551616

/-- The subtraction `a - b` of two `uint64_t` values, which wraps around below zero. -/
def sub64 (a b : Nat) : Nat :=
  wrap64 (a + 18446744073709551616 - b % 18446744073709551616)

/-- The enum `PlayState`, of which the controller names `Stopped`, `Playing` and `Paused`
(its declaration, in `playercontroller.h`, is not at hand). -/
inductive PlayState where
  | Stopped
  | Playing
  | Paused
deriving DecidableEq

/-- The signals that `PlayerController` emits in the functions below, with their
arguments.  `PT` stands for `PlaylistTrack`, whose declaration is not at hand; a signal
that carries `currentTrack.track` is recorded with the playlist track it is taken from. -/
inductive Signal (PT : Type) where
  | playStateChanged (state : PlayState)
  | tracksDequeued (tracks : List PT)
  | nextTrack
  | trackPlayed (track : PT)
  | positionChanged (ms : Nat)
  | positionMoved (ms : Nat)
  | currentTrackChanged (track : PT)
  | playlistTrackChanged (track : PT)
deriving DecidableEq

/-- What the controller uses of the types `PlaylistTrack` (`PT`) and `PlaybackQueue` (`Q`),
whose declarations are not at hand, taken as parameters: `PlaylistTrack::isValid`,
`track.duration()` (a `uint64_t`), the default-constructed `PlaylistTrack{}`,
`PlaybackQueue::empty` and `PlaybackQueue::nextTrack` (the track it returns and the
queue it leaves). -/
structure PlayerEnv (PT Q : Type) where
  isValid : PT → Bool
  duration : PT → Nat
  blank : PT
  queueEmpty : Q → Bool
  nextTrack : Q → PT × Q

/-- The data of `PlayerController::Private` that the functions below read or write, and
`emitted`, the signals emitted so far, the oldest first. -/
structure PlayerController (PT Q : Type) where
  currentTrack : PT
  totalDuration : Nat
  playStatus : PlayState
  playMode : Nat
  position : Nat
  counted : Bool
  isQueueTrack : Bool
  queue : Q
  emitted : List (Signal PT)
deriving DecidableEq

/-- The statement `emit signal(...)`. -/
def PlayerController.emit {PT Q : Type} (p : PlayerController PT Q) (signal : Signal PT) :
    PlayerController PT Q :=
  { p with emitted := p.emitted ++ [signal] }

/-- The function `PlayerController::reset`. -/
def PlayerController.reset {PT Q : Type} (p : PlayerController PT Q) : PlayerController PT Q :=
  { p with playStatus := PlayState.Stopped, position := 0 }

/-- The function `PlayerController::changeCurrentTrack(const PlaylistTrack&)`. -/
def PlayerController.changeCurrentTrack {PT Q : Type} (env : PlayerEnv PT Q) (track : PT)
    (p : PlayerController PT Q) : PlayerController PT Q :=
  (({ p with currentTrack := track, totalDuration := env.duration track, position := 0,
             counted := false } : PlayerController PT Q).emit
    (Signal.currentTrackChanged track)).emit (Signal.playlistTrackChanged track)

/-- The function `PlayerController::play`. -/
def PlayerController.play {PT Q : Type} (env : PlayerEnv PT Q) (p : PlayerController PT Q) :
    PlayerController PT Q :=
  let dequeued : PlayerController PT Q :=
    if !env.isValid p.currentTrack && !env.queueEmpty p.queue then
      let changed := PlayerController.changeCurrentTrack env (env.nextTrack p.queue).1
        { p with queue := (env.nextTrack p.queue).2 }
      changed.emit (Signal.tracksDequeued [changed.currentTrack])
    else p
  if env.isValid dequeued.currentTrack && dequeued.playStatus != PlayState.Playing then
    ({ dequeued with playStatus := PlayState.Playing } : PlayerController PT Q).emit
      (Signal.playStateChanged PlayState.Playing)
  else dequeued

/-- The function `PlayerController::next`. -/
def PlayerController.next {PT Q : Type} (env : PlayerEnv PT Q) (p : PlayerController PT Q) :
    PlayerController PT Q :=
  if env.queueEmpty p.queue then
    ({ p with isQueueTrack := false } : PlayerController PT Q).emit Signal.nextTrack
  else
    PlayerController.play env { p with currentTrack := env.blank, isQueueTrack := true }

/-- The function `PlayerController::stop`.  In its test
`std::exchange(p->playStatus, PlayState::Stopped) != p->playStatus` the operands are taken
from left to right: `std::exchange` stores `Stopped` and returns the old state, which is
compared with the state read after it, `Stopped`. -/
def PlayerController.stop {PT Q : Type} (p : PlayerController PT Q) : PlayerController PT Q :=
  let exchanged : PlayerController PT Q := { p with playStatus := PlayState.Stopped }
  if p.playStatus != exchanged.playStatus then
    exchanged.reset.emit (Signal.playStateChanged exchanged.reset.playStatus)
  else exchanged

/-- The function `PlayerController::setCurrentPosition`. -/
def PlayerController.setCurrentPosition {PT Q : Type} (env : PlayerEnv PT Q) (ms : Nat)
    (p : PlayerController PT Q) : PlayerController PT Q :=
  let moved : PlayerController PT Q := { p with position := ms }
  let played : PlayerController PT Q :=
    if !moved.counted && decide (ms ≥ moved.totalDuration / 2) then
      let flagged : PlayerController PT Q := { moved with counted := true }
      if env.isValid flagged.currentTrack then
        flagged.emit (Signal.trackPlayed flagged.currentTrack)
      else flagged
    else moved
  played.emit (Signal.positionChanged ms)

/-- The function `PlayerController::seek`. -/
def PlayerController.seek {PT Q : Type} (env : PlayerEnv PT Q) (ms : Nat)
    (p : PlayerController PT Q) : PlayerController PT Q :=
  if p.totalDuration < 100 then p
  else if ms ≥ sub64 p.totalDuration 100 then PlayerController.next env p
  else if p.position != ms then
    ({ p with position := ms } : PlayerController PT Q).emit (Signal.positionMoved ms)
  else { p with position := ms }

/-- The function `PlayerController::seekForward`. -/
def PlayerController.seekForward {PT Q : Type} (env : PlayerEnv PT Q) (delta : Nat)
    (p : PlayerController PT Q) : PlayerController PT Q :=
  PlayerController.seek env (wrap64 (p.position + delta)) p

/-- The function `PlayerController::seekBackward`. -/
def PlayerController.seekBackward {PT Q : Type} (env : PlayerEnv PT Q) (delta : Nat)
    (p : PlayerController PT Q) : PlayerController PT Q :=
  if delta > p.position then PlayerController.seek env 0 p
  else PlayerController.seek env (sub64 p.position delta) p

/-- A run of `setCurrentPosition` calls, one for each position, in order. -/
def PlayerController.setCurrentPositions {PT Q : Type} (env : PlayerEnv PT Q)
    (positions : List Nat) (p : PlayerController PT Q) : PlayerController PT Q :=
  positions.foldl (fun state ms => PlayerController.setCurrentPosition env ms state) p

/-- The number of `trackPlayed` signals among the signals. -/
def playedCount {PT : Type} : List (Signal PT) → Nat
  | [] => 0
  | Signal.trackPlayed _ :: rest => playedCount rest + 1
  | _ :: rest => playedCount rest

/-! ## Library scanner (`src/core/library/libraryscanner.cpp`) -/

/-- What `matchMissingTrack` uses of the class `Track` (here `T`), whose declaration is not
at hand, taken as parameters: `filename()`, `generateHash()` (the hash it returns and the
track it leaves, since it is called on a non-const reference), `duration()` and the
default-constructed `Track{}`. -/
structure TrackOps (T : Type) where
  filename : T → String
  generateHash : T → String × T
  duration : T → Nat
  blank : T

/-- The type `TrackFieldMap`, a map from text to tracks, by what `contains` and `at` give
for a key: `none` when the key is not in the map, the entry otherwise. -/
abbrev TrackFieldMap (T : Type) := String → Option T

/-- The test `map.contains(key) && map.at(key).duration() == duration` of
`matchMissingTrack`, with the entry `map.at(key)` when it holds. -/
def matchingEntry {T : Type} (ops : TrackOps T) (map : TrackFieldMap T) (key : String)
    (duration : Nat) : Option T :=
  (map key).filter (fun entry => ops.duration entry == duration)

/-- The function `matchMissingTrack`: the file name is read, then the hash is generated,
then the two maps are tried in turn against the duration of the track. -/
def matchMissingTrack {T : Type} (ops : TrackOps T) (missingFiles missingHashes : TrackFieldMap T)
    (track : T) : T :=
  let filename := ops.filename track
  let hash := (ops.generateHash track).1
  let scanned := (ops.generateHash track).2
  match matchingEntry ops missingFiles filename (ops.duration scanned) with
  | some entry => entry
  | none =>
    match matchingEntry ops missingHashes hash (ops.duration scanned) with
    | some entry => entry
    | none => ops.blank

/-! ## Sample values for the player and the scanner -/

/-- A player environment in which a playlist track is a number, valid unless 0, that lasts
a thousand times its number in milliseconds, and the queue is a list. -/
def sampleEnv : PlayerEnv Nat (List Nat) :=
  { isValid := fun track => track != 0,
    duration := fun track => track * 1000,
    blank := 0,
    queueEmpty := fun queue => queue.isEmpty,
    nextTrack := fun queue => (queue.headD 0, queue.tail) }

/-- A player that plays the track 5, of 5000 ms, at 1200 ms, with an empty queue. -/
def samplePlayer : PlayerController Nat (List Nat) :=
  { currentTrack := 5, totalDuration := 5000, playStatus := PlayState.Playing, playMode := 0,
    position := 1200, counted := false, isQueueTrack := false, queue := [], emitted := [] }

/-- A track of the sample library: its file name, its hash and its duration. -/
structure SampleFile where
  filename : String
  hash : String
  duration : Nat
deriving DecidableEq

/-- The track operations on `SampleFile`; generating the hash leaves the track as it is. -/
def sampleTrackOps : TrackOps SampleFile :=
  { filename := fun track => track.filename,
    generateHash := fun track => (track.hash, track),
    duration := fun track => track.duration,
    blank := { filename := "", hash := "", duration := 0 } }

/-- The map with the single key `key` and the entry `entry`. -/
def singleEntry (key : String) (entry : SampleFile) : TrackFieldMap SampleFile :=
  fun k => if k = key then some entry else none

/-! ## Identifiers (`src/plugins/utils/id.cpp`) -/

/-- The function `idFromString`: 0 for the empty text, and otherwise the value of
`std::hash<QString>` stored in an `unsigned int`, that is modulo `2 ^ 32`.  The hash
function is not at hand and enters as the parameter `hash`. -/
def idFromString (hash : String → Nat) (str : String) : Nat :=
  if str.isEmpty then 0 else hash str % 4294967296

/-- The data of the class `Util::Id`: `unsigned int m_id; QString m_name;`. -/
structure Util.Id where
  m_id : Nat
  m_name : String
deriving DecidableEq

/-- The constructors `Id::Id(const QString&)` and `Id::Id(const char*)`; the second one
converts the C string to a `QString` and is the first one otherwise. -/
def Util.Id.ofString (hash : String → Nat) (str : String) : Util.Id :=
  { m_id := idFromString hash str, m_name := str }

/-- The function `Id::id`. -/
def Util.Id.id (self : Util.Id) : Nat :=
  self.m_id

/-- The function `Id::name`. -/
def Util.Id.name (self : Util.Id) : String :=
  self.m_name

/-- The function `Id::append(const QString&)`.  The statement
`QString name = m_name.append(str);` appends to the member in place and copies the
result, and `Id{name}` is returned: the first component is the returned `Id`, the
second one is the receiver after the call. -/
def Util.Id.append (hash : String → Nat) (self : Util.Id) (str : String) : Util.Id × Util.Id :=
  let receiver : Util.Id := { self with m_name := self.m_name ++ str }
  let name := receiver.m_name
  (Util.Id.ofString hash name, receiver)

/-- The function `Id::append(const char*)`: `return append(QString{str});`. -/
def Util.Id.appendChars (hash : String → Nat) (self : Util.Id) (str : String) :
    Util.Id × Util.Id :=
  self.append hash str

/-- The text `QString::number(num)` of an `int`: its decimal digits, after a minus sign
when it is negative. -/
def number (num : Int) : String :=
  toString num

/-- The function `Id::append(int)`, with the same reading of the result as
`Util.Id.append`. -/
def Util.Id.appendNumber (hash : String → Nat) (self : Util.Id) (num : Int) :
    Util.Id × Util.Id :=
  let receiver : Util.Id := { self with m_name := self.m_name ++ number num }
  let name := receiver.m_name
  (Util.Id.ofString hash name, receiver)

/-- The invariant of `Util::Id` that the constructors establish: `id()` is
`idFromString(name())`. -/
def Util.Id.consistent (hash : String → Nat) (self : Util.Id) : Prop :=
  self.id = idFromString hash self.name

instance (hash : String → Nat) (self : Util.Id) : Decidable (self.consistent hash) :=
  inferInstanceAs (Decidable (self.id = idFromString hash self.name))

/-! ## Library thread handler (`src/core/library/librarythreadhandler.cpp`) -/

/-- The values of the enum `ScanRequest::Type` that the handler names (its declaration is
not at hand). -/
inductive ScanType where
  | Tracks
  | Library
deriving DecidableEq

/-- The struct `LibraryInfo`, declared in `libraryinfo.h`, which is not at hand: the handler
reads its member `id` and hands the rest to the scanner unread. -/
structure LibraryInfo where
  id : Int
deriving DecidableEq

/-- The struct `LibraryScanRequest`: the members `type` and `id` of its base `ScanRequest`
(the third one, `cancel`, is the closure that calls `cancelScanRequest(id)`), and
`LibraryInfo library; QString dir; TrackList tracks;`.  `T` stands for `Track`. -/
structure LibraryScanRequest (T : Type) where
  type : ScanType
  id : Int
  library : LibraryInfo
  dir : String
  tracks : List T
deriving DecidableEq

/-- What the handler asks of its `LibraryScanner`: the three scans that it posts to the
thread of the scanner, and `pauseThread` and `stopThread`. -/
inductive ScannerCall (T : Type) where
  | scanLibrary (library : LibraryInfo)
  | scanTracks (tracks : List T)
  | scanLibraryDirectory (library : LibraryInfo) (dir : String)
  | pauseThread
  | stopThread
deriving DecidableEq

/-- The data of `LibraryThreadHandler::Private` that the functions below read or write:
the deque `scanRequests` with its front first, `currentRequestId`, the static counter
`requestId` of `nextRequestId`, and `scanner`, the calls made on the scanner so far, the
oldest first. -/
structure LibraryThreadHandler (T : Type) where
  scanRequests : List (LibraryScanRequest T)
  currentRequestId : Int
  requestId : Int
  scanner : List (ScannerCall T)
deriving DecidableEq

/-- A call on the scanner. -/
def LibraryThreadHandler.call {T : Type} (p : LibraryThreadHandler T) (c : ScannerCall T) :
    LibraryThreadHandler T :=
  { p with scanner := p.scanner ++ [c] }

/-- The function `nextRequestId`: `return requestId++;`. -/
def LibraryThreadHandler.nextRequestId {T : Type} (p : LibraryThreadHandler T) :
    Int × LibraryThreadHandler T :=
  (p.requestId, { p with requestId := p.requestId + 1 })

/-- The function `Private::scanLibrary`. -/
def LibraryThreadHandler.scanLibrary {T : Type} (p : LibraryThreadHandler T)
    (request : LibraryScanRequest T) : LibraryThreadHandler T :=
  ({ p with currentRequestId := request.id }).call (ScannerCall.scanLibrary request.library)

/-- The function `Private::scanTracks`. -/
def LibraryThreadHandler.scanTracks {T : Type} (p : LibraryThreadHandler T)
    (request : LibraryScanRequest T) : LibraryThreadHandler T :=
  ({ p with currentRequestId := request.id }).call (ScannerCall.scanTracks request.tracks)

/-- The function `Private::scanDirectory`. -/
def LibraryThreadHandler.scanDirectory {T : Type} (p : LibraryThreadHandler T)
    (request : LibraryScanRequest T) : LibraryThreadHandler T :=
  ({ p with currentRequestId := request.id }).call
    (ScannerCall.scanLibraryDirectory request.library request.dir)

/-- The function `Private::addLibraryScanRequest`: the request goes to the back of the
deque and is scanned at once when it is alone there. -/
def LibraryThreadHandler.addLibraryScanRequest {T : Type} (p : LibraryThreadHandler T)
    (library : LibraryInfo) : LibraryThreadHandler T :=
  let request : LibraryScanRequest T :=
    { type := ScanType.Library, id := p.nextRequestId.1, library := library, dir := "",
      tracks := [] }
  let p1 : LibraryThreadHandler T :=
    { p.nextRequestId.2 with scanRequests := p.scanRequests ++ [request] }
  if p1.scanRequests.length = 1 then p1.scanLibrary request else p1

/-- The function `Private::addTracksScanRequest`: the scanner is paused when a request is
queued, the request goes to the front of the deque and is scanned at once.
`blankLibrary` stands for `LibraryInfo{}`. -/
def LibraryThreadHandler.addTracksScanRequest {T : Type} (blankLibrary : LibraryInfo)
    (p : LibraryThreadHandler T) (tracks : List T) : LibraryThreadHandler T :=
  let p1 : LibraryThreadHandler T := if !p.scanRequests.isEmpty then p.call ScannerCall.pauseThread else p
  let request : LibraryScanRequest T :=
    { type := ScanType.Tracks, id := p1.nextRequestId.1, library := blankLibrary, dir := "",
      tracks := tracks }
  let p2 : LibraryThreadHandler T :=
    { p1.nextRequestId.2 with scanRequests := request :: p1.scanRequests }
  p2.scanTracks request

/-- The function `Private::addDirectoryScanRequest`: as `addLibraryScanRequest`, with the
directory to scan. -/
def LibraryThreadHandler.addDirectoryScanRequest {T : Type} (p : LibraryThreadHandler T)
    (library : LibraryInfo) (dir : String) : LibraryThreadHandler T :=
  let request : LibraryScanRequest T :=
    { type := ScanType.Library, id := p.nextRequestId.1, library := library, dir := dir,
      tracks := [] }
  let p1 : LibraryThreadHandler T :=
    { p.nextRequestId.2 with scanRequests := p.scanRequests ++ [request] }
  if p1.scanRequests.length = 1 then p1.scanDirectory request else p1

/-- The function `Private::cancelScanRequest`. -/
def LibraryThreadHandler.cancelScanRequest {T : Type} (p : LibraryThreadHandler T) (id : Int) :
    LibraryThreadHandler T :=
  if p.currentRequestId = id then p.call ScannerCall.stopThread
  else { p with scanRequests := p.scanRequests.filter (fun request => !(request.id == id)) }

/-- The function `LibraryThreadHandler::libraryRemoved`; `std::erase_if` keeps, in their
order, the requests on which the predicate is false. -/
def LibraryThreadHandler.libraryRemoved {T : Type} (p : LibraryThreadHandler T) (id : Int) :
    LibraryThreadHandler T :=
  match p.scanRequests with
  | [] => p
  | request :: _ =>
    if request.type = ScanType.Library ∧ request.library.id = id then
      p.call ScannerCall.stopThread
    else
      { p with
        scanRequests := p.scanRequests.filter (fun request => !(request.library.id == id)) }

/-- The handler before any request: an empty deque, `currentRequestId{-1}`, and the
counter of `nextRequestId` at 0. -/
def LibraryThreadHandler.initial (T : Type) : LibraryThreadHandler T :=
  { scanRequests := [], currentRequestId := -1, requestId := 0, scanner := [] }

/-! ## Sorting model (`src/gui/settings/library/sortingmodel.cpp`) -/

/-- The struct `SortScript`, declared in `sortingregistry.h`, which is not at hand: the
members that the model reads or writes. -/
structure SortScript where
  id : Int
  index : Int
  name : String
  script : String
deriving DecidableEq

/-- The enum `ItemStatus` of `TreeStatusItem`, by the values that the model names. -/
inductive ItemStatus where
  | None
  | Added
  | Removed
  | Changed
deriving DecidableEq

/-- The class `SortingItem`: its sort script and the status that it has from
`TreeStatusItem` (`treestatusitem.h` is not at hand).  A new item has the status `None`;
the children that the base class holds are kept in the model, see `SortingModel`. -/
structure SortingItem where
  m_sortScript : SortScript
  status : ItemStatus
deriving DecidableEq

/-- The constructor `SortingItem(SortScript, SortingItem* parent)`. -/
def SortingItem.create (sortScript : SortScript) : SortingItem :=
  { m_sortScript := sortScript, status := ItemStatus.None }

/-- The function `SortingItem::sortScript`. -/
def SortingItem.sortScript (item : SortingItem) : SortScript :=
  item.m_sortScript

/-- The function `SortingItem::changeSort`. -/
def SortingItem.changeSort (item : SortingItem) (sortScript : SortScript) : SortingItem :=
  { item with m_sortScript := sortScript }

/-- The function `TreeStatusItem::setStatus`. -/
def SortingItem.setStatus (item : SortingItem) (status : ItemStatus) : SortingItem :=
  { item with status := status }

/-- The type `std::map<int, SortingItem>`: the entries in the order of their keys, every
key once. -/
abbrev NodeMap := List (Int × SortingItem)

/-- The member `std::map::emplace`: the entry is added at the place of its key, unless
the key is in the map, and then the map stays as it is. -/
def NodeMap.emplace (nodes : NodeMap) (key : Int) (item : SortingItem) : NodeMap :=
  match nodes with
  | [] => [(key, item)]
  | (k, v) :: rest =>
    if key < k then (key, item) :: (k, v) :: rest
    else if key = k then (k, v) :: rest
    else (k, v) :: NodeMap.emplace rest key item

/-- The member `std::map::erase` with a key. -/
def NodeMap.erase (nodes : NodeMap) (key : Int) : NodeMap :=
  nodes.filter (fun entry => !(entry.1 == key))

/-- The entry of a key, when the key is in the map. -/
def NodeMap.node (nodes : NodeMap) (key : Int) : Option SortingItem :=
  nodes.lookup key

/-- A write through a pointer to the entry of `key`: the entry is replaced by what `f`
makes of it. -/
def NodeMap.update (nodes : NodeMap) (key : Int) (f : SortingItem → SortingItem) : NodeMap :=
  nodes.map (fun entry => if entry.1 = key then (entry.1, f entry.2) else entry)

/-- The keys of the map, in their order. -/
def NodeMap.keys (nodes : NodeMap) : List Int :=
  nodes.map Prod.fst

/-- What the model uses of the class `SortingRegistry`, whose declaration is not at hand,
taken as parameters on a state `R` of the registry: `items()`, `SortScript::isValid`,
`addItem`, `removeByIndex`, `changeItem` (each with the registry that it leaves),
`itemById`, and the default-constructed `SortScript`. -/
structure SortingRegistry (R : Type) where
  items : R → List (Int × SortScript)
  isValid : SortScript → Bool
  addItem : R → SortScript → SortScript × R
  removeByIndex : R → Int → Bool × R
  changeItem : R → SortScript → Bool × R
  itemById : R → Int → SortScript
  blank : SortScript

/-- The signals of the model and the notifications of `QAbstractItemModel` that the
functions below send. -/
inductive ModelSignal where
  | modelReset
  | dataChanged
  | rowsInserted (row : Nat)
  | rowsRemoved (row : Nat)
  | newPendingRow
deriving DecidableEq

/-- The data of `SortingModel::Private`, and `emitted`, the signals sent so far, the oldest
first.  `root` is the list of the children of the root item: the items are entries of
`nodes`, whose addresses do not change while they are in the map, so that a pointer to
an item is given by the key of its entry. -/
structure SortingModel (R : Type) where
  sortRegistry : R
  root : List Int
  nodes : NodeMap
  emitted : List ModelSignal

/-- The sending of a signal. -/
def SortingModel.emit {R : Type} (p : SortingModel R) (signal : ModelSignal) : SortingModel R :=
  { p with emitted := p.emitted ++ [signal] }

/-- The body of the loop of `populate` for one entry of `items()`. -/
def SortingModel.populateItem {R : Type} (registry : SortingRegistry R) (p : SortingModel R)
    (entry : Int × SortScript) : SortingModel R :=
  if !registry.isValid entry.2 then p
  else
    { p with
      nodes := NodeMap.emplace p.nodes entry.1 (SortingItem.create entry.2),
      root := p.root ++ [entry.1] }

/-- The function `SortingModel::populate`. -/
def SortingModel.populate {R : Type} (registry : SortingRegistry R) (p : SortingModel R) :
    SortingModel R :=
  let cleared : SortingModel R := { p with root := [], nodes := [] }
  ((registry.items p.sortRegistry).foldl (SortingModel.populateItem registry) cleared).emit
    ModelSignal.modelReset

/-- The function `TreeItem::row` of the item with the key `key`: its place among the
children of the root. -/
def SortingModel.row {R : Type} (p : SortingModel R) (key : Int) : Nat :=
  p.root.indexOf key

/-- The body of the loop of `processQueue` for the entry of `key`, with the items
gathered in `sortScriptsToRemove`. -/
def SortingModel.processNode {R : Type} (registry : SortingRegistry R)
    (state : SortingModel R × List SortingItem) (key : Int) :
    SortingModel R × List SortingItem :=
  let p := state.1
  match NodeMap.node p.nodes key with
  | none => state
  | some item =>
    let sortScript := item.sortScript
    match item.status with
    | ItemStatus.Added =>
      if sortScript.script.isEmpty then state
      else
        let added := registry.addItem p.sortRegistry sortScript
        let p1 : SortingModel R := { p with sortRegistry := added.2 }
        if registry.isValid added.1 then
          (({ p1 with
              nodes := NodeMap.update p1.nodes key
                (fun n => (n.changeSort added.1).setStatus ItemStatus.None) }).emit
            ModelSignal.dataChanged, state.2)
        else (p1, state.2)
    | ItemStatus.Removed =>
      let removed := registry.removeByIndex p.sortRegistry sortScript.index
      let p1 : SortingModel R := { p with sortRegistry := removed.2 }
      if removed.1 then
        (({ p1 with root := p1.root.eraseIdx (p1.row key) }).emit
          (ModelSignal.rowsRemoved (p1.row key)), state.2 ++ [item])
      else (p1, state.2)
    | ItemStatus.Changed =>
      let changed := registry.changeItem p.sortRegistry sortScript
      let p1 : SortingModel R := { p with sortRegistry := changed.2 }
      if changed.1 then
        (({ p1 with
            nodes := NodeMap.update p1.nodes key
              (fun n => (n.changeSort (registry.itemById p1.sortRegistry sortScript.id)).setStatus
                ItemStatus.None) }).emit
          ModelSignal.dataChanged, state.2)
      else (p1, state.2)
    | ItemStatus.None => state

/-- The function `SortingModel::processQueue`: the loop over the entries of `nodes` in the
order of their keys, then the loop that erases, for every gathered item, the entry whose
key is the index of its sort script. -/
def SortingModel.processQueue {R : Type} (registry : SortingRegistry R) (p : SortingModel R) :
    SortingModel R :=
  let looped := (NodeMap.keys p.nodes).foldl (SortingModel.processNode registry) (p, [])
  looped.2.foldl
    (fun (q : SortingModel R) item =>
      { q with nodes := NodeMap.erase q.nodes item.sortScript.index })
    looped.1

/-- The function `SortingModel::rowCount`. -/
def SortingModel.rowCount {R : Type} (p : SortingModel R) : Nat :=
  p.root.length

/-- The body of the loop of `removeRows` for the row `i`: `none` is the `return false` on
a row that the model does not have.  A child of the root whose entry is not in the map any
more is a pointer to an erased item in the code; the row is then left as it is. -/
def SortingModel.removeRow {R : Type} (p : SortingModel R) (i : Int) : Option (SortingModel R) :=
  if i < 0 ∨ (p.rowCount : Int) ≤ i then none
  else
    match p.root.get? i.toNat with
    | none => none
    | some key =>
      match NodeMap.node p.nodes key with
      | none => some p
      | some item =>
        if item.status = ItemStatus.Added then
          let p1 : SortingModel R :=
            ({ p with root := p.root.eraseIdx i.toNat }).emit (ModelSignal.rowsRemoved i.toNat)
          some { p1 with nodes := NodeMap.erase p1.nodes item.sortScript.index }
        else
          let p1 : SortingModel R :=
            { p with nodes := NodeMap.update p.nodes key (fun n => n.setStatus ItemStatus.Removed) }
          some (p1.emit ModelSignal.dataChanged)

/-- The loop of `removeRows` from the row `i` on, for `count` rows. -/
def SortingModel.removeRowsFrom {R : Type} (p : SortingModel R) (i : Int) (count : Nat) :
    Bool × SortingModel R :=
  match count with
  | 0 => (true, p)
  | rest + 1 =>
    match p.removeRow i with
    | none => (false, p)
    | some p1 => p1.removeRowsFrom (i + 1) rest

/-- The function `SortingModel::removeRows`, with the value that it returns. -/
def SortingModel.removeRows {R : Type} (p : SortingModel R) (row count : Int) :
    Bool × SortingModel R :=
  p.removeRowsFrom row count.toNat

/-- The function `SortingModel::addPendingRow`.  `emplace(index, ...).first->second` is
the entry of the key `index`, the new one or the one that the map had. -/
def SortingModel.addPendingRow {R : Type} (registry : SortingRegistry R) (p : SortingModel R) :
    SortingModel R :=
  let index : Int := p.nodes.length
  let sortScript : SortScript := { registry.blank with index := index }
  let p1 : SortingModel R :=
    { p with nodes := NodeMap.emplace p.nodes index (SortingItem.create sortScript) }
  let p2 : SortingModel R :=
    { p1 with nodes := NodeMap.update p1.nodes index (fun n => n.setStatus ItemStatus.Added) }
  let row := p2.root.length
  (({ p2 with root := p2.root ++ [index] }).emit (ModelSignal.rowsInserted row)).emit
    ModelSignal.newPendingRow

/-! ## Sample values for the identifiers, the thread handler and the sorting model -/

/-- A hash of a text for the examples: the characters are folded into a number, as
string hashes do. -/
def sampleHash (s : String) : Nat :=
  s.toList.foldl (fun h c => h * 31 + c.toNat) 7

/-- A handler, of tracks that are numbers, on which a scan of the library 1 was asked for
(it is at the front and being scanned) and then a scan of the directory `/music/new` of
the same library, as the watcher of the library asks for when the directory changes. -/
def sampleHandler : LibraryThreadHandler Nat :=
  ((LibraryThreadHandler.initial Nat).addLibraryScanRequest { id := 1 }).addDirectoryScanRequest
    { id := 1 } "/music/new"

/-- A registry that is the list of its sort scripts; a sort script is valid when it has a
name and a script, a new one gets the next free number as its id and index, and one is
removed or changed when it is in the list. -/
def sampleSortingRegistry : SortingRegistry (List SortScript) :=
  { items := fun r => r.map (fun s => (s.index, s)),
    isValid := fun s => !s.name.isEmpty && !s.script.isEmpty,
    addItem := fun r s =>
      let added : SortScript := { s with id := r.length, index := r.length }
      (added, r ++ [added]),
    removeByIndex := fun r index =>
      (r.any (fun s => s.index == index), r.filter (fun s => !(s.index == index))),
    changeItem := fun r s =>
      (r.any (fun t => t.id == s.id), r.map (fun t => if t.id = s.id then s else t)),
    itemById := fun r id =>
      (r.find? (fun s => s.id == id)).getD { id := -1, index := -1, name := "", script := "" },
    blank := { id := -1, index := -1, name := "", script := "" } }

/-- A model on the registry `r`, before `populate`. -/
def sampleSortingModel (r : List SortScript) : SortingModel (List SortScript) :=
  { sortRegistry := r, root := [], nodes := [], emitted := [] }

/-- Three sort scripts, with the indexes 0, 1 and 2. -/
def threeSorts : List SortScript :=
  [{ id := 0, index := 0, name := "Artist", script := "%artist%" },
   { id := 1, index := 1, name := "Album", script := "%album%" },
   { id := 2, index := 2, name := "Title", script := "%title%" }]

/-- Three sort scripts of which the first one, without name and script, is not valid. -/
def sortsWithInvalid : List SortScript :=
  [{ id := 0, index := 0, name := "", script := "" },
   { id := 1, index := 1, name := "Album", script := "%album%" },
   { id := 2, index := 2, name := "Title", script := "%title%" }]

/-- The sorting model after `populate` on `sortsWithInvalid`: the entries 1 and 2. -/
def modelAfterSkip : SortingModel (List SortScript) :=
  (sampleSortingModel sortsWithInvalid).populate sampleSortingRegistry

/-- The sorting model after `populate` on `threeSorts`, the removal of the row 0 and
`processQueue`: the entries 1 and 2. -/
def modelAfterRemoval : SortingModel (List SortScript) :=
  (((sampleSortingModel threeSorts).populate sampleSortingRegistry).removeRows 0 1).2.processQueue
    sampleSortingRegistry

/-- The sorting model after two pending rows were added to the empty model and the row 0
was removed again: the entry 1. -/
def modelAfterCancel : SortingModel (List SortScript) :=
  (((((sampleSortingModel []).populate sampleSortingRegistry).addPendingRow
    sampleSortingRegistry).addPendingRow sampleSortingRegistry).removeRows 0 1).2

/-! ## Lemmas on the cursor -/

theorem length_dropWhile_le_self (p : Char → Bool) (l : List Char) :
    (l.dropWhile p).length ≤ l.length := by
  induction l with
  | nil => simp
  | cons a l ih =>
    by_cases h : p a = true
    · simp only [List.dropWhile_cons_of_pos h, List.length_cons]; omega
    · simp [List.dropWhile_cons_of_neg h]

theorem Cursor.advance_rest_le (cur : Cursor) : cur.advance.rest.length ≤ cur.rest.length := by
  simp [Cursor.advance]

theorem Cursor.advance_rest_lt (cur : Cursor) (c : Char) (cs : List Char) (h : cur.rest = c :: cs) :
    cur.advance.rest.length < cur.rest.length := by
  simp [Cursor.advance, h]

theorem Cursor.consumeUntil_rest_le (stop : Char → Bool) (cur : Cursor) :
    (cur.consumeUntil stop).2.rest.length ≤ cur.rest.length := by
  simp only [Cursor.consumeUntil]
  exact length_dropWhile_le_self _ _

theorem Cursor.peek_eq_some (cur : Cursor) (c : Char) (h : cur.peek = some c) :
    ∃ cs, cur.rest = c :: cs := by
  cases hr : cur.rest with
  | nil => simp [Cursor.peek, hr] at h
  | cons a l => simp [Cursor.peek, hr] at h; exact ⟨l, by rw [h]⟩

theorem literal_cursor_lt (ctx : Context) (cur : Cursor) (c : Char) (cs : List Char)
    (h : cur.rest = c :: cs) (hc : ctx.stops c = false) :
    (literal ctx cur).cursor.rest.length < cur.rest.length := by
  simp only [literal, Cursor.consumeUntil, h]
  rw [List.dropWhile_cons_of_pos (by simp [hc])]
  have := length_dropWhile_le_self (fun c => !ctx.stops c) cs
  simp only [List.length_cons]; omega

theorem unexpected_cursor_lt (cur : Cursor) (c : Char) (cs : List Char) (h : cur.rest = c :: cs) :
    (unexpected cur c).cursor.rest.length < cur.rest.length := by
  simp [unexpected, Cursor.advance, h]

theorem quote_cursor_lt (cur : Cursor) (c : Char) (cs : List Char) (h : cur.rest = c :: cs) :
    (quote cur).cursor.rest.length < cur.rest.length := by
  have h1 := Cursor.consumeUntil_rest_le (fun c => c == '"') cur.advance
  have h2 := Cursor.advance_rest_lt cur c cs h
  have h3 := Cursor.advance_rest_le (cur.advance.consumeUntil (fun c => c == '"')).2
  simp only [quote]
  split <;> simp only <;> omega

theorem variableExpr_cursor_lt (cur : Cursor) (c : Char) (cs : List Char) (h : cur.rest = c :: cs) :
    (variableExpr cur).cursor.rest.length < cur.rest.length := by
  have h1 := Cursor.consumeUntil_rest_le isDelimiter cur.advance
  have h2 := Cursor.advance_rest_lt cur c cs h
  have h3 := Cursor.advance_rest_le (cur.advance.consumeUntil isDelimiter).2
  simp only [variableExpr]
  split
  · split <;> simp only <;> omega
  · simp only; omega

theorem functionFallback_cursor_lt (cur : Cursor) (c : Char) (cs : List Char)
    (h : cur.rest = c :: cs) :
    (functionFallback cur).cursor.rest.length < cur.rest.length := by
  have h1 := Cursor.consumeUntil_rest_le isDelimiter cur.advance
  have h2 := Cursor.advance_rest_lt cur c cs h
  simp only [functionFallback]; omega

theorem conditional_cursor_le (cur : Cursor) (body : Sequence) :
    (conditional cur body).cursor.rest.length ≤ body.cursor.rest.length := by
  simp only [conditional]
  split <;> simp [Cursor.consumeAll]

theorem function_cursor (cur : Cursor) (name : String) (args : Arguments) :
    (function cur name args).cursor = args.cursor := by
  simp only [function]
  split <;> rfl

theorem expression_total (fuel : Nat) :
    (∀ ctx cur, cur.rest.length < fuel →
      ∃ s, expression fuel ctx cur = some s ∧ s.cursor.rest.length ≤ cur.rest.length ∧
        (s.stop ≠ Stop.EndOfInput → s.cursor.rest.length < cur.rest.length)) ∧
    (∀ cur, cur.rest.length + 1 < fuel →
      ∃ a, functionArgs fuel cur = some a ∧ a.cursor.rest.length ≤ cur.rest.length) := by
  induction fuel with
  | zero =>
    exact ⟨fun _ _ h => absurd h (Nat.not_lt_zero _), fun _ h => absurd h (Nat.not_lt_zero _)⟩
  | succ fuel ih =>
    obtain ⟨ihE, ihA⟩ := ih
    constructor
    · intro ctx cur hlen
      have cont : ∀ n : Node, n.cursor.rest.length < cur.rest.length →
          ∃ s, (expression fuel ctx n.cursor).map (Sequence.push n) = some s ∧
            s.cursor.rest.length ≤ cur.rest.length ∧
            (s.stop ≠ Stop.EndOfInput → s.cursor.rest.length < cur.rest.length) := by
        intro n hn
        obtain ⟨s, hs, hle, _⟩ := ihE ctx n.cursor (by omega)
        refine ⟨Sequence.push n s, by simp [hs], ?_, ?_⟩
        · simp only [Sequence.push]; omega
        · intro _; simp only [Sequence.push]; omega
      rw [expression]
      split
      · exact ⟨_, rfl, Nat.le_refl _, fun h => absurd rfl h⟩
      · rename_i c cs hrest
        have hadv := Cursor.advance_rest_lt cur c cs hrest
        split_ifs with h1 h2 h3 h4 h5 h6 h7 h8
        · exact ⟨_, rfl, Nat.le_of_lt hadv, fun _ => hadv⟩
        · exact cont _ (unexpected_cursor_lt cur c cs hrest)
        · exact ⟨_, rfl, Nat.le_of_lt hadv, fun _ => hadv⟩
        · exact ⟨_, rfl, Nat.le_of_lt hadv, fun _ => hadv⟩
        · exact cont _ (variableExpr_cursor_lt cur c cs hrest)
        · exact cont _ (quote_cursor_lt cur c cs hrest)
        · obtain ⟨body, hb, hble, _⟩ := ihE Context.Group cur.advance (by omega)
          rw [hb]
          exact cont _ (by have := conditional_cursor_le cur body; omega)
        · simp only []
          split_ifs with h9
          · have hh := Cursor.consumeUntil_rest_le isDelimiter cur.advance
            obtain ⟨tl, htl⟩ := Cursor.peek_eq_some _ _
              (eq_of_beq (Bool.and_eq_true_iff.1 h9).2)
            have hh2 := Cursor.advance_rest_lt _ _ _ htl
            obtain ⟨args, ha, hale⟩ :=
              ihA (cur.advance.consumeUntil isDelimiter).2.advance (by omega)
            rw [ha]
            exact cont _ (by rw [function_cursor]; omega)
          · exact cont _ (functionFallback_cursor_lt cur c cs hrest)
        · refine cont _ (literal_cursor_lt ctx cur c cs hrest ?_)
          simp only [Context.stops, isMarker]
          simp_all
    · intro cur hlen
      rw [functionArgs]
      obtain ⟨arg, ha, hale, halt⟩ := ihE Context.Args cur (by omega)
      rw [ha]
      simp only
      split_ifs with h
      · have hlt := halt (by rw [eq_of_beq h]; decide)
        obtain ⟨more, hm, hmle⟩ := ihA arg.cursor (by omega)
        exact ⟨_, by rw [hm]; rfl, by simp only; omega⟩
      · exact ⟨_, rfl, hale⟩

theorem expression_mono (fuel : Nat) :
    (∀ ctx cur s, expression fuel ctx cur = some s → expression (fuel + 1) ctx cur = some s) ∧
    (∀ cur a, functionArgs fuel cur = some a → functionArgs (fuel + 1) cur = some a) := by
  induction fuel with
  | zero =>
    constructor
    · intro ctx cur s h; rw [expression] at h; exact absurd h (by simp)
    · intro cur a h; rw [functionArgs] at h; exact absurd h (by simp)
  | succ fuel ih =>
    obtain ⟨ihE, ihA⟩ := ih
    have cont : ∀ (ctx : Context) (n : Node) (s : Sequence),
        (expression fuel ctx n.cursor).map (Sequence.push n) = some s →
        (expression (fuel + 1) ctx n.cursor).map (Sequence.push n) = some s := by
      intro ctx n s h
      obtain ⟨t, ht, hts⟩ := Option.map_eq_some'.1 h
      rw [ihE ctx n.cursor t ht]; simpa using hts
    constructor
    · intro ctx cur s h
      rw [expression] at h
      rw [expression]
      split
      · rename_i hrest; simpa [hrest] using h
      · rename_i c cs hrest
        simp only [hrest] at h
        simp only []
        split_ifs at h ⊢ with h1 h2 h3 h4 h5 h6 h7 h8 h9
        · exact h
        · exact cont _ _ _ h
        · exact h
        · exact h
        · exact cont _ _ _ h
        · exact cont _ _ _ h
        · cases hb : expression fuel Context.Group cur.advance with
          | none => simp [hb] at h
          | some body =>
            rw [hb] at h
            rw [ihE _ _ _ hb]
            exact cont _ _ _ h
        · cases ha : functionArgs fuel (cur.advance.consumeUntil isDelimiter).2.advance with
          | none => simp [ha] at h
          | some args =>
            rw [ha] at h
            rw [ihA _ _ ha]
            exact cont _ _ _ h
        · exact cont _ _ _ h
        · exact cont _ _ _ h
    · intro cur a h
      rw [functionArgs] at h
      rw [functionArgs]
      cases he : expression fuel Context.Args cur with
      | none => simp [he] at h
      | some arg =>
        rw [he] at h
        rw [ihE _ _ _ he]
        simp only [] at h ⊢
        split_ifs at h ⊢ with h1
        · obtain ⟨t, ht, hts⟩ := Option.map_eq_some'.1 h
          rw [ihA _ _ ht]; simpa using hts
        · exact h

theorem expression_mono_le (fuel fuel2 : Nat) (hle : fuel ≤ fuel2) (ctx : Context) (cur : Cursor)
    (s : Sequence) (h : expression fuel ctx cur = some s) : expression fuel2 ctx cur = some s := by
  induction hle with
  | refl => exact h
  | step _ ih => exact (expression_mono _).1 ctx cur s ih

theorem expression_fuel_irrelevant (fuel fuel2 : Nat) (ctx : Context) (cur : Cursor) (s : Sequence)
    (h : expression fuel ctx cur = some s) (h2 : cur.rest.length < fuel2) :
    expression fuel2 ctx cur = some s := by
  obtain ⟨t, ht, _⟩ := (expression_total fuel2).1 ctx cur h2
  have h3 := expression_mono_le fuel (max fuel fuel2) (Nat.le_max_left _ _) ctx cur s h
  have h4 := expression_mono_le fuel2 (max fuel fuel2) (Nat.le_max_right _ _) ctx cur t ht
  rw [h3] at h4
  rw [ht, Option.some.inj h4]

/-! ## One step of the parser on a known first character -/

theorem span_run (p : Char → Bool) (run rest : List Char) (hrun : ∀ x ∈ run, p x = true)
    (hrest : ∀ m ∈ rest.head?, p m = false) :
    (run ++ rest).takeWhile p = run ∧ (run ++ rest).dropWhile p = rest := by
  induction run with
  | nil =>
    cases rest with
    | nil => simp
    | cons m tl =>
      have hm : p m = false := hrest m (by simp)
      simp [List.takeWhile_cons, List.dropWhile_cons, hm]
  | cons a run ih =>
    have ha : p a = true := hrun a (by simp)
    obtain ⟨h1, h2⟩ := ih (fun x hx => hrun x (by simp [hx]))
    simp [List.takeWhile_cons, List.dropWhile_cons, ha, h1, h2]

theorem consumeUntil_run (stop : Char → Bool) (pos : Nat) (run rest : List Char)
    (hrun : ∀ x ∈ run, stop x = false) (hrest : ∀ m ∈ rest.head?, stop m = true) :
    Cursor.consumeUntil stop { pos := pos, rest := run ++ rest } =
      (String.mk run, { pos := pos + run.length, rest := rest }) := by
  obtain ⟨h1, h2⟩ := span_run (fun c => !stop c) run rest (fun x hx => by simp [hrun x hx])
    (fun m hm => by simp [hrest m hm])
  simp only [Cursor.consumeUntil, h1, h2]

theorem expression_nil (fuel : Nat) (ctx : Context) (pos : Nat) :
    expression (fuel + 1) ctx { pos := pos, rest := [] } =
      some { exprs := [], errors := [], stop := Stop.EndOfInput, cursor := { pos := pos, rest := [] } } := by
  rw [expression]

theorem expression_literal (fuel : Nat) (ctx : Context) (pos : Nat) (c : Char) (cs : List Char)
    (hc : ctx.stops c = false) :
    expression (fuel + 1) ctx { pos := pos, rest := c :: cs } =
      (expression fuel ctx (literal ctx { pos := pos, rest := c :: cs }).cursor).map
        (Sequence.push (literal ctx { pos := pos, rest := c :: cs })) := by
  rw [expression]
  simp only [Context.stops, isMarker, Bool.or_eq_false_iff, Bool.and_eq_false_imp,
    beq_eq_false_iff_ne, ne_eq, beq_iff_eq] at hc
  obtain ⟨⟨⟨⟨⟨h1, h2⟩, h3⟩, h4⟩, h5⟩, h6⟩ := hc
  have h7 : ¬ (ctx = Context.Args ∧ c = ',') := fun h => (h6 h.1).1 h.2
  have h8 : ¬ (ctx = Context.Args ∧ c = ')') := fun h => (h6 h.1).2 h.2
  simp [h1, h2, h3, h4, h5, h7, h8]

theorem expression_quote (fuel : Nat) (ctx : Context) (pos : Nat) (cs : List Char) :
    expression (fuel + 1) ctx { pos := pos, rest := '"' :: cs } =
      (expression fuel ctx (quote { pos := pos, rest := '"' :: cs }).cursor).map
        (Sequence.push (quote { pos := pos, rest := '"' :: cs })) := by
  rw [expression]
  simp

theorem expression_variable (fuel : Nat) (ctx : Context) (pos : Nat) (cs : List Char) :
    expression (fuel + 1) ctx { pos := pos, rest := '%' :: cs } =
      (expression fuel ctx (variableExpr { pos := pos, rest := '%' :: cs }).cursor).map
        (Sequence.push (variableExpr { pos := pos, rest := '%' :: cs })) := by
  rw [expression]
  simp

theorem expression_run (fuel : Nat) (ctx : Context) (pos : Nat) (c : Char) (cs rest : List Char)
    (hrun : ∀ x ∈ c :: cs, ctx.stops x = false) (hrest : ∀ m ∈ rest.head?, ctx.stops m = true) :
    expression (fuel + 1) ctx { pos := pos, rest := c :: cs ++ rest } =
      (expression fuel ctx { pos := pos + (c :: cs).length, rest := rest }).map
        (Sequence.push { expr := Expression.Literal pos (String.mk (c :: cs)), errors := [],
                         cursor := { pos := pos + (c :: cs).length, rest := rest } }) := by
  have h := expression_literal fuel ctx pos c (cs ++ rest) (hrun c (by simp))
  have h2 := consumeUntil_run ctx.stops pos (c :: cs) rest hrun hrest
  simp only [List.cons_append] at h2 ⊢
  rw [h]
  simp only [literal, h2]

/-! ## Evaluation of the simplest scripts -/

theorem format_single (self : ScriptParser) (v : String) (isEmpty success : Bool) :
    self.format { values := [v], isEmpty := isEmpty, success := success } = v := by
  simp [ScriptParser.format, String.intercalate, String.intercalate.go]

theorem evaluateScript_nil (self : ScriptParser) (input : String) (errors : ErrorList)
    (track : Track) :
    self.evaluateScript { input := input, expressions := [], errors := errors } track = "" := by
  simp only [ScriptParser.evaluateScript, ScriptParser.evalFunctionArg, ScriptResult.nothing]
  exact format_single _ _ _ _

theorem evaluateScript_literal (self : ScriptParser) (input : String) (errors : ErrorList)
    (pos : Nat) (text : String) (track : Track) :
    self.evaluateScript
      { input := input, expressions := [Expression.Literal pos text], errors := errors } track
      = text := by
  simp only [ScriptParser.evaluateScript, ScriptParser.evalFunctionArg,
    ScriptParser.evalExpression, ScriptParser.evalLiteral, ScriptResult.nothing,
    ScriptResult.append, cross, List.map, List.append_nil, String.append_empty]
  exact format_single _ _ _ _

theorem parseInput_plain (input : String) (c : Char) (cs : List Char)
    (hin : input.toList = c :: cs) (h : ∀ x ∈ input.toList, isMarker x = false) :
    parseInput input =
      { input := input, expressions := [Expression.Literal 0 input], errors := [] } := by
  have hlen : parseFuel input = cs.length + 2 := by
    show input.toList.length + 1 = cs.length + 2
    rw [hin]; rfl
  have hrun : ∀ x ∈ c :: cs, Context.Top.stops x = false := by
    intro x hx
    have := h x (by rw [hin]; exact hx)
    simp [Context.stops, this]
  have hstep := expression_run (cs.length + 1) Context.Top 0 c cs [] hrun (by simp)
  rw [expression_nil, List.append_nil] at hstep
  have hmk : String.mk (c :: cs) = input := by rw [← hin]; exact rfl
  simp only [parseInput, hlen, ← hin]
  rw [hin, hstep]
  simp [Sequence.push, hmk]

/-! ## The top-level sequence reads the whole text -/

theorem expression_stop (fuel : Nat) :
    ∀ ctx cur s, expression fuel ctx cur = some s →
      (s.stop = Stop.EndOfInput → s.cursor.rest = []) ∧
      (ctx = Context.Top → s.stop = Stop.EndOfInput) := by
  induction fuel with
  | zero => intro ctx cur s h; rw [expression] at h; exact absurd h (by simp)
  | succ fuel ih =>
    intro ctx cur s h
    have cont : ∀ (n : Node), (expression fuel ctx n.cursor).map (Sequence.push n) = some s →
        (s.stop = Stop.EndOfInput → s.cursor.rest = []) ∧
        (ctx = Context.Top → s.stop = Stop.EndOfInput) := by
      intro n hn
      obtain ⟨t, ht, hts⟩ := Option.map_eq_some'.1 hn
      have := ih ctx n.cursor t ht
      rw [← hts]
      exact this
    rw [expression] at h
    split at h
    · rename_i hrest
      rw [← Option.some.inj h]
      exact ⟨fun _ => hrest, fun _ => rfl⟩
    · rename_i c cs hrest
      simp only [] at h
      split_ifs at h with h1 h2 h3 h4 h5 h6 h7 h8 h9
      · rw [← Option.some.inj h]
        refine ⟨fun hs => by simp at hs, fun ht => ?_⟩
        rw [ht] at h2; exact absurd h2 (by decide)
      · exact cont _ h
      · rw [← Option.some.inj h]
        refine ⟨fun hs => by simp at hs, fun ht => ?_⟩
        rw [ht] at h3; simp at h3
      · rw [← Option.some.inj h]
        refine ⟨fun hs => by simp at hs, fun ht => ?_⟩
        rw [ht] at h4; simp at h4
      · exact cont _ h
      · exact cont _ h
      · cases hb : expression fuel Context.Group cur.advance with
        | none => simp [hb] at h
        | some body => rw [hb] at h; exact cont _ h
      · cases ha : functionArgs fuel (cur.advance.consumeUntil isDelimiter).2.advance with
        | none => simp [ha] at h
        | some args => rw [ha] at h; exact cont _ h
      · exact cont _ h
      · exact cont _ h

/-! ## Unknown names -/

theorem evalVariable_unknown (self : ScriptParser) (name : String)
    (h : self.registry.classify name = NameKind.Unknown) :
    self.evalVariable name = ScriptResult.failure ∧
      self.evalVariableList name = ScriptResult.failure := by
  simp [ScriptParser.evalVariable, ScriptParser.evalVariableList, h]

mutual
theorem unresolved_of_mentions (self : ScriptParser) (name : String)
    (h : self.registry.classify name = NameKind.Unknown) :
    ∀ e : Expression, mentions name e = true → self.unresolved e = true
  | Expression.Literal _ _, hm => by simp [mentions] at hm
  | Expression.QuotedLiteral _ _, hm => by simp [mentions] at hm
  | Expression.Variable _ n, hm => by
    have hn : n = name := by simpa [mentions] using hm
    subst hn
    simp [ScriptParser.unresolved, (evalVariable_unknown self n h).1, ScriptResult.failure]
  | Expression.VariableList _ n, hm => by
    have hn : n = name := by simpa [mentions] using hm
    subst hn
    simp [ScriptParser.unresolved, (evalVariable_unknown self n h).2, ScriptResult.failure]
  | Expression.Function _ _ args, hm => by
    rw [ScriptParser.unresolved]
    exact unresolvedArgs_of_mentions self name h args (by simpa [mentions] using hm)
  | Expression.Conditional _ branches, hm => by
    rw [ScriptParser.unresolved]
    exact unresolvedArgs_of_mentions self name h branches (by simpa [mentions] using hm)
theorem unresolvedSequence_of_mentions (self : ScriptParser) (name : String)
    (h : self.registry.classify name = NameKind.Unknown) :
    ∀ es : List Expression, mentionsSequence name es = true →
      self.unresolvedSequence es = true
  | [], hm => by simp [mentionsSequence] at hm
  | e :: es, hm => by
    rw [ScriptParser.unresolvedSequence]
    rw [mentionsSequence, Bool.or_eq_true] at hm
    rcases hm with hm | hm
    · rw [unresolved_of_mentions self name h e hm]; rfl
    · rw [unresolvedSequence_of_mentions self name h es hm]; simp
theorem unresolvedArgs_of_mentions (self : ScriptParser) (name : String)
    (h : self.registry.classify name = NameKind.Unknown) :
    ∀ args : List (List Expression), mentionsArgs name args = true →
      self.unresolvedArgs args = true
  | [], hm => by simp [mentionsArgs] at hm
  | a :: as, hm => by
    rw [ScriptParser.unresolvedArgs]
    rw [mentionsArgs, Bool.or_eq_true] at hm
    rcases hm with hm | hm
    · rw [unresolvedSequence_of_mentions self name h a hm]; rfl
    · rw [unresolvedArgs_of_mentions self name h as hm]; simp
end

theorem expression_optional_run (fuel : Nat) (ctx : Context) (pos : Nat) (run rest : List Char)
    (exprs : ExpressionList) (errors : ErrorList) (stop : Stop) (cursor : Cursor)
    (hrun : ∀ x ∈ run, ctx.stops x = false) (hrest : ∀ m ∈ rest.head?, ctx.stops m = true)
    (h : expression fuel ctx { pos := pos + run.length, rest := rest } =
      some { exprs := exprs, errors := errors, stop := stop, cursor := cursor }) :
    ∃ fuel2, expression fuel2 ctx { pos := pos, rest := run ++ rest } =
      some { exprs := literalRun pos run ++ exprs, errors := errors, stop := stop,
             cursor := cursor } := by
  cases run with
  | nil => exact ⟨fuel, by simpa [literalRun] using h⟩
  | cons c cs =>
    refine ⟨fuel + 1, ?_⟩
    rw [expression_run fuel ctx pos c cs rest hrun hrest, h]
    simp [Sequence.push, literalRun]

theorem quote_closed (pos : Nat) (text rest : List Char) (ht : ∀ c ∈ text, c ≠ '"') :
    quote { pos := pos, rest := '"' :: (text ++ '"' :: rest) } =
      { expr := Expression.QuotedLiteral pos (String.mk text), errors := [],
        cursor := { pos := pos + 1 + text.length + 1, rest := rest } } := by
  have h := consumeUntil_run (fun c => c == '"') (pos + 1) text ('"' :: rest)
    (fun x hx => by simpa using ht x hx) (by simp)
  simp only [quote, Cursor.advance, List.tail_cons, h, Cursor.peek, List.head?_cons]
  simp

theorem expression_quoted (fuel : Nat) (ctx : Context) (pos : Nat) (text rest : List Char)
    (exprs : ExpressionList) (errors : ErrorList) (stop : Stop) (cursor : Cursor)
    (ht : ∀ c ∈ text, c ≠ '"')
    (h : expression fuel ctx { pos := pos + 1 + text.length + 1, rest := rest } =
      some { exprs := exprs, errors := errors, stop := stop, cursor := cursor }) :
    expression (fuel + 1) ctx { pos := pos, rest := '"' :: (text ++ '"' :: rest) } =
      some { exprs := Expression.QuotedLiteral pos (String.mk text) :: exprs, errors := errors,
             stop := stop, cursor := cursor } := by
  rw [expression_quote, quote_closed pos text rest ht]
  simp only [h]
  simp [Sequence.push]

theorem parseInput_quoted (before text after : String)
    (hb : ∀ c ∈ before.toList, isMarker c = false) (ht : ∀ c ∈ text.toList, c ≠ '"')
    (ha : ∀ c ∈ after.toList, isMarker c = false) :
    parseInput (before ++ "\"" ++ text ++ "\"" ++ after) =
      { input := before ++ "\"" ++ text ++ "\"" ++ after,
        expressions := literalRun 0 before.toList ++
          Expression.QuotedLiteral before.length text ::
            literalRun (before.length + 1 + text.length + 1) after.toList,
        errors := [] } := by
  have hstops : ∀ l : List Char, (∀ c ∈ l, isMarker c = false) →
      ∀ x ∈ l, Context.Top.stops x = false := by
    intro l hl x hx
    simp [Context.stops, hl x hx]
  have hchars : (before ++ "\"" ++ text ++ "\"" ++ after).toList =
      before.toList ++ '"' :: (text.toList ++ '"' :: after.toList) := by
    simp [String.toList, String.data_append]
  obtain ⟨f1, h1⟩ := expression_optional_run 1 Context.Top
    (0 + before.toList.length + 1 + text.toList.length + 1) after.toList []
    _ _ _ _ (hstops _ ha) (by simp) (expression_nil 0 Context.Top _)
  rw [List.append_nil] at h1
  have h2 := expression_quoted f1 Context.Top (0 + before.toList.length) text.toList after.toList
    _ _ _ _ ht h1
  obtain ⟨f3, h3⟩ := expression_optional_run (f1 + 1) Context.Top 0 before.toList
    ('"' :: (text.toList ++ '"' :: after.toList)) _ _ _ _ (hstops _ hb)
    (by simp [Context.stops, isMarker]) h2
  have h4 := expression_fuel_irrelevant f3 (parseFuel (before ++ "\"" ++ text ++ "\"" ++ after))
    Context.Top _ _ h3 (by
      show _ < (before ++ "\"" ++ text ++ "\"" ++ after).toList.length + 1
      rw [hchars]; exact Nat.lt_succ_self _)
  rw [parseInput, hchars, h4]
  simp only [String.length, Nat.zero_add, List.append_nil]
  rfl

theorem evalFunctionArg_literalRun (self : ScriptParser) (pos : Nat) (run : List Char)
    (es : ExpressionList) :
    (self.evalFunctionArg (literalRun pos run ++ es)).values =
      cross [String.mk run] (self.evalFunctionArg es).values := by
  cases run with
  | nil =>
    have : String.mk [] = "" := rfl
    simp [literalRun, this, cross]
  | cons c cs =>
    simp [literalRun, ScriptParser.evalFunctionArg, ScriptParser.evalExpression,
      ScriptParser.evalLiteral, ScriptResult.append]

theorem mk_ne_empty (c : Char) (cs : List Char) : String.mk (c :: cs) ≠ "" := by
  intro h
  have := congrArg String.data h
  simp at this

theorem variableExpr_closed (pos : Nat) (c : Char) (cs rest : List Char)
    (hplain : ∀ x ∈ c :: cs, isDelimiter x = false) :
    variableExpr { pos := pos, rest := '%' :: (c :: cs ++ '%' :: rest) } =
      { expr := Expression.Variable pos (String.mk (c :: cs)), errors := [],
        cursor := { pos := pos + 1 + (c :: cs).length + 1, rest := rest } } := by
  have h := consumeUntil_run isDelimiter (pos + 1) (c :: cs) ('%' :: rest) hplain
    (by simp [isDelimiter, isMarker])
  simp only [variableExpr, Cursor.advance, List.tail_cons, h, Cursor.peek, List.head?_cons]
  simp [mk_ne_empty]

theorem parseInput_variable (name : String) (hname : name ≠ "")
    (hplain : ∀ c ∈ name.toList, isDelimiter c = false) :
    parseInput ("%" ++ name ++ "%") =
      { input := "%" ++ name ++ "%", expressions := [Expression.Variable 0 name],
        errors := [] } := by
  cases hn : name.toList with
  | nil => exact absurd (show name = "" from by
      have : String.mk name.toList = "" := by rw [hn]
      exact this) hname
  | cons c cs =>
    have hchars : ("%" ++ name ++ "%").toList = '%' :: (c :: cs ++ '%' :: []) := by
      simp [String.toList, String.data_append, ← hn]
    have hfuel : parseFuel ("%" ++ name ++ "%") = cs.length + 2 + 2 := by
      show ("%" ++ name ++ "%").toList.length + 1 = _
      rw [hchars]; simp
    have hmk : String.mk (c :: cs) = name := by rw [← hn]; exact rfl
    rw [parseInput, hchars, hfuel, expression_variable,
      variableExpr_closed 0 c cs [] (by rw [← hn]; exact hplain)]
    simp only [expression_nil, hmk]
    rfl

theorem expression_call (fuel : Nat) (ctx : Context) (pos : Nat) (c : Char)
    (cs rest : List Char) (args : Arguments)
    (hplain : ∀ x ∈ c :: cs, isDelimiter x = false)
    (ha : functionArgs fuel { pos := pos + 1 + (c :: cs).length + 1, rest := rest } = some args) :
    expression (fuel + 1) ctx { pos := pos, rest := '$' :: (c :: cs ++ '(' :: rest) } =
      (expression fuel ctx
        (function { pos := pos, rest := '$' :: (c :: cs ++ '(' :: rest) }
          (String.mk (c :: cs)) args).cursor).map
        (Sequence.push (function { pos := pos, rest := '$' :: (c :: cs ++ '(' :: rest) }
          (String.mk (c :: cs)) args)) := by
  have h := consumeUntil_run isDelimiter (pos + 1) (c :: cs) ('(' :: rest) hplain
    (by simp [isDelimiter, isMarker])
  rw [expression]
  simp only [Cursor.advance, List.tail_cons, h, Cursor.peek, List.head?_cons, ha]
  simp [mk_ne_empty]

theorem functionArgs_empty (fuel : Nat) (pos : Nat) (rest : List Char) :
    functionArgs (fuel + 2) { pos := pos, rest := ')' :: rest } =
      some { args := [[]], errors := [], closed := true,
             cursor := { pos := pos + 1, rest := rest } } := by
  rw [functionArgs, expression]
  simp [Cursor.advance]

theorem parseInput_call (name : String) (hname : name ≠ "")
    (hplain : ∀ c ∈ name.toList, isDelimiter c = false) :
    parseInput ("$" ++ name ++ "()") =
      { input := "$" ++ name ++ "()", expressions := [Expression.Function 0 name [[]]],
        errors := [] } := by
  cases hn : name.toList with
  | nil => exact absurd (show name = "" from by
      have : String.mk name.toList = "" := by rw [hn]
      exact this) hname
  | cons c cs =>
    have hchars : ("$" ++ name ++ "()").toList = '$' :: (c :: cs ++ '(' :: ')' :: []) := by
      simp [String.toList, String.data_append, ← hn]
    have hfuel : parseFuel ("$" ++ name ++ "()") = cs.length + 2 + 2 + 1 := by
      show ("$" ++ name ++ "()").toList.length + 1 = _
      rw [hchars]; simp
    have hmk : String.mk (c :: cs) = name := by rw [← hn]; exact rfl
    rw [parseInput, hchars, hfuel,
      expression_call (cs.length + 2 + 2) Context.Top 0 c cs (')' :: []) _
        (by rw [← hn]; exact hplain) (functionArgs_empty (cs.length + 2) _ _)]
    simp only [function, if_true, expression_nil, hmk]
    rfl

/-! ## The scripts of the examples -/

theorem parseInput_disc :
    parseInput "[Disc %disc%]" =
      { input := "[Disc %disc%]",
        expressions := [Expression.Conditional 0
          [[Expression.Literal 1 "Disc ", Expression.Variable 6 "disc"]]],
        errors := [] } := by
  rfl

theorem parseInput_title_genre :
    parseInput "%title% (%genre%)" =
      { input := "%title% (%genre%)",
        expressions := [Expression.Variable 0 "title", Expression.Literal 7 " (",
          Expression.Variable 9 "genre", Expression.Literal 16 ")"],
        errors := [] } := by
  rfl

theorem parseInput_unterminated_left :
    parseInput "$left(title,3" =
      { input := "$left(title,3",
        expressions := [Expression.Literal 0 "$left(title,3"],
        errors := [{ position := 0, value := "$left",
                     message := "Expected closing parenthesis after function call" }] } := by
  rfl

/-! ## Further text after the cursor -/

theorem span_append (p : Char → Bool) (a more : List Char)
    (h : a.dropWhile p ≠ [] ∨ ∀ m ∈ more.head?, p m = false) :
    (a ++ more).takeWhile p = a.takeWhile p ∧
      (a ++ more).dropWhile p = a.dropWhile p ++ more := by
  induction a with
  | nil =>
    rcases h with h | h
    · exact absurd rfl h
    · cases more with
      | nil => simp
      | cons m tl =>
        have hm : p m = false := h m (by simp)
        simp [List.takeWhile_cons, List.dropWhile_cons, hm]
  | cons x a ih =>
    by_cases hx : p x = true
    · have h2 : a.dropWhile p ≠ [] ∨ ∀ m ∈ more.head?, p m = false := by
        rcases h with h | h
        · left; simpa [List.dropWhile_cons, hx] using h
        · right; exact h
      obtain ⟨h3, h4⟩ := ih h2
      simp [List.takeWhile_cons, List.dropWhile_cons, hx, h3, h4]
    · simp [List.takeWhile_cons, List.dropWhile_cons, hx]

theorem consumeUntil_extend (stop : Char → Bool) (cur : Cursor) (more : List Char)
    (h : (cur.consumeUntil stop).2.rest ≠ [] ∨ ∀ m ∈ more.head?, stop m = true) :
    (cur.extend more).consumeUntil stop =
      ((cur.consumeUntil stop).1, (cur.consumeUntil stop).2.extend more) := by
  obtain ⟨h1, h2⟩ := span_append (fun c => !stop c) cur.rest more (by
    rcases h with h | h
    · left; exact h
    · right; intro m hm; simp [h m hm])
  simp only [Cursor.consumeUntil, Cursor.extend, h1, h2]

theorem advance_extend (cur : Cursor) (more : List Char) (h : cur.rest ≠ []) :
    (cur.extend more).advance = cur.advance.extend more := by
  cases hr : cur.rest with
  | nil => exact absurd hr h
  | cons c cs => simp [Cursor.advance, Cursor.extend, hr]

theorem peek_extend (cur : Cursor) (more : List Char) (c : Char) (h : cur.peek = some c) :
    (cur.extend more).peek = some c := by
  obtain ⟨cs, hcs⟩ := Cursor.peek_eq_some cur c h
  simp [Cursor.peek, Cursor.extend, hcs]

theorem literal_extend (ctx : Context) (cur : Cursor) (more : List Char)
    (h : (literal ctx cur).cursor.rest ≠ [] ∨ ∀ m ∈ more.head?, ctx.stops m = true) :
    literal ctx (cur.extend more) = (literal ctx cur).extend more := by
  have := consumeUntil_extend ctx.stops cur more h
  simp only [literal, Node.extend, this]
  rfl

theorem quote_extend (cur : Cursor) (more : List Char) (hr : cur.rest ≠ [])
    (h : (quote cur).errors = []) : quote (cur.extend more) = (quote cur).extend more := by
  have hp : (cur.advance.consumeUntil (fun c => c == '"')).2.peek = some '"' := by
    by_contra hne
    simp [quote, hne] at h
  obtain ⟨tl, htl⟩ := Cursor.peek_eq_some _ _ hp
  have h1 := consumeUntil_extend (fun c => c == '"') cur.advance more
    (Or.inl (by rw [htl]; simp))
  have h2 := peek_extend _ more _ hp
  have h3 := advance_extend (cur.advance.consumeUntil (fun c => c == '"')).2 more
    (by rw [htl]; simp)
  simp only [quote, advance_extend cur more hr, h1, h2, hp, h3, Node.extend]
  simp [Cursor.extend]

theorem variableExpr_extend (cur : Cursor) (more : List Char) (hr : cur.rest ≠ [])
    (h : (variableExpr cur).errors = []) :
    variableExpr (cur.extend more) = (variableExpr cur).extend more := by
  have hp : (cur.advance.consumeUntil isDelimiter).2.peek = some '%' := by
    by_contra hne
    simp [variableExpr, hne] at h
  have hn : ((cur.advance.consumeUntil isDelimiter).1 == "") = false := by
    by_contra hne
    simp only [Bool.not_eq_false] at hne
    simp [variableExpr, hp, hne] at h
  obtain ⟨tl, htl⟩ := Cursor.peek_eq_some _ _ hp
  have h1 := consumeUntil_extend isDelimiter cur.advance more (Or.inl (by rw [htl]; simp))
  have h2 := peek_extend _ more _ hp
  have h3 := advance_extend (cur.advance.consumeUntil isDelimiter).2 more (by rw [htl]; simp)
  simp only [variableExpr, advance_extend cur more hr, h1, h2, hp, h3, hn, Node.extend]
  simp [Cursor.extend]

theorem conditional_extend (cur : Cursor) (body : Sequence) (more : List Char)
    (h : body.stop = Stop.GroupClose) :
    conditional (cur.extend more) (body.extend more) = (conditional cur body).extend more := by
  simp [conditional, Sequence.extend, Node.extend, Cursor.extend, h]

theorem function_extend (cur : Cursor) (name : String) (args : Arguments) (more : List Char)
    (h : args.closed = true) :
    function (cur.extend more) name (args.extend more) = (function cur name args).extend more := by
  simp [function, Arguments.extend, Node.extend, Cursor.extend, h]

theorem push_extend (n : Node) (s : Sequence) (more : List Char) :
    Sequence.push (n.extend more) (s.extend more) = (Sequence.push n s).extend more := by
  simp [Sequence.push, Sequence.extend, Node.extend]

theorem expression_at_end (fuel : Nat) (ctx : Context) (cur : Cursor) (t : Sequence)
    (hr : cur.rest = []) (h : expression fuel ctx cur = some t) :
    t = { exprs := [], errors := [], stop := Stop.EndOfInput, cursor := cur } := by
  cases fuel with
  | zero => rw [expression] at h; exact absurd h (by simp)
  | succ fuel =>
    rw [expression] at h
    simp only [hr] at h
    exact (Option.some.inj h).symm

theorem push_errors (n : Node) (t : Sequence) (h : (Sequence.push n t).errors = []) :
    n.errors = [] ∧ t.errors = [] := by
  simpa [Sequence.push] using h

theorem continue_extend (fuel : Nat) (ctx : Context) (more : List Char)
    (ih : ∀ cur s, expression fuel ctx cur = some s → s.errors = [] →
      s.stop ≠ Stop.EndOfInput → expression fuel ctx (cur.extend more) = some (s.extend more))
    (n n2 : Node) (s : Sequence)
    (h : (expression fuel ctx n.cursor).map (Sequence.push n) = some s)
    (he : s.errors = []) (hs : s.stop ≠ Stop.EndOfInput)
    (hn : n.errors = [] → n.cursor.rest ≠ [] → n2 = n.extend more) :
    (expression fuel ctx n2.cursor).map (Sequence.push n2) = some (s.extend more) := by
  obtain ⟨t, ht, hts⟩ := Option.map_eq_some'.1 h
  subst hts
  obtain ⟨hne, hte⟩ := push_errors n t he
  have hrest : n.cursor.rest ≠ [] := by
    intro hr
    have := expression_at_end fuel ctx n.cursor t hr ht
    exact hs (by rw [this]; rfl)
  have hn2 := hn hne hrest
  subst hn2
  have := ih n.cursor t ht hte hs
  simp only [Node.extend] at this ⊢
  rw [this]
  simp [Sequence.push, Sequence.extend]

theorem function_errors (cur : Cursor) (name : String) (args : Arguments)
    (h : (function cur name args).errors = []) : args.closed = true ∧ args.errors = [] := by
  by_cases hc : args.closed = true
  · simpa [function, hc] using h
  · simp [function, hc] at h

theorem conditional_errors (cur : Cursor) (body : Sequence)
    (h : (conditional cur body).errors = []) :
    body.stop = Stop.GroupClose ∧ body.errors = [] := by
  by_cases hc : body.stop = Stop.GroupClose
  · simpa [conditional, hc] using h
  · simp [conditional, hc] at h

theorem expression_group_close (fuel : Nat) (pos : Nat) (cs : List Char) :
    expression (fuel + 1) Context.Group { pos := pos, rest := ']' :: cs } =
      some { exprs := [], errors := [], stop := Stop.GroupClose,
             cursor := { pos := pos + 1, rest := cs } } := by
  rw [expression]; simp [Cursor.advance]

theorem expression_unexpected (fuel : Nat) (ctx : Context) (pos : Nat) (cs : List Char)
    (h : ctx ≠ Context.Group) :
    expression (fuel + 1) ctx { pos := pos, rest := ']' :: cs } =
      (expression fuel ctx (unexpected { pos := pos, rest := ']' :: cs } ']').cursor).map
        (Sequence.push (unexpected { pos := pos, rest := ']' :: cs } ']')) := by
  rw [expression]; simp [h, Cursor.advance, unexpected]

theorem expression_separator (fuel : Nat) (pos : Nat) (cs : List Char) :
    expression (fuel + 1) Context.Args { pos := pos, rest := ',' :: cs } =
      some { exprs := [], errors := [], stop := Stop.ArgSeparator,
             cursor := { pos := pos + 1, rest := cs } } := by
  rw [expression]; simp [Cursor.advance]

theorem expression_args_close (fuel : Nat) (pos : Nat) (cs : List Char) :
    expression (fuel + 1) Context.Args { pos := pos, rest := ')' :: cs } =
      some { exprs := [], errors := [], stop := Stop.ArgsClose,
             cursor := { pos := pos + 1, rest := cs } } := by
  rw [expression]; simp [Cursor.advance]

theorem expression_group (fuel : Nat) (ctx : Context) (pos : Nat) (cs : List Char) :
    expression (fuel + 1) ctx { pos := pos, rest := '[' :: cs } =
      (expression fuel Context.Group { pos := pos + 1, rest := cs }).bind (fun body =>
        (expression fuel ctx (conditional { pos := pos, rest := '[' :: cs } body).cursor).map
          (Sequence.push (conditional { pos := pos, rest := '[' :: cs } body))) := by
  rw [expression]
  simp only [Cursor.advance, List.tail_cons]
  cases expression fuel Context.Group { pos := pos + 1, rest := cs } <;> simp

theorem expression_dollar (fuel : Nat) (ctx : Context) (pos : Nat) (cs : List Char) :
    expression (fuel + 1) ctx { pos := pos, rest := '$' :: cs } =
      if ((Cursor.consumeUntil isDelimiter { pos := pos + 1, rest := cs }).1 != "" &&
          (Cursor.consumeUntil isDelimiter { pos := pos + 1, rest := cs }).2.peek == some '(')
          = true then
        (functionArgs fuel
            (Cursor.consumeUntil isDelimiter { pos := pos + 1, rest := cs }).2.advance).bind
          (fun args =>
            (expression fuel ctx (function { pos := pos, rest := '$' :: cs }
              (Cursor.consumeUntil isDelimiter { pos := pos + 1, rest := cs }).1 args).cursor).map
              (Sequence.push (function { pos := pos, rest := '$' :: cs }
                (Cursor.consumeUntil isDelimiter { pos := pos + 1, rest := cs }).1 args)))
      else
        (expression fuel ctx (functionFallback { pos := pos, rest := '$' :: cs }).cursor).map
          (Sequence.push (functionFallback { pos := pos, rest := '$' :: cs })) := by
  have e1 : ('$' == ']') = false := by decide
  have e2 : ('$' == ',') = false := by decide
  have e3 : ('$' == ')') = false := by decide
  have e4 : ('$' == '%') = false := by decide
  have e5 : ('$' == '"') = false := by decide
  have e6 : ('$' == '[') = false := by decide
  rw [expression]
  simp only [Cursor.advance, List.tail_cons, e1, e2, e3, e4, e5, e6, Bool.and_false,
    Bool.false_eq_true, if_false, beq_self_eq_true, if_true]
  split_ifs with h1
  · cases functionArgs fuel
      { pos := (Cursor.consumeUntil isDelimiter { pos := pos + 1, rest := cs }).2.pos + 1,
        rest := (Cursor.consumeUntil isDelimiter { pos := pos + 1, rest := cs }).2.rest.tail }
      <;> rfl
  · rfl

theorem stops_of_not (ctx : Context) (c : Char) (h1 : c ≠ ']')
    (h2 : ¬ (ctx = Context.Args ∧ c = ',')) (h3 : ¬ (ctx = Context.Args ∧ c = ')'))
    (h4 : c ≠ '%') (h5 : c ≠ '"') (h6 : c ≠ '[') (h7 : c ≠ '$') : ctx.stops c = false := by
  simp only [Context.stops, isMarker, Bool.or_eq_false_iff, Bool.and_eq_false_imp,
    beq_eq_false_iff_ne, ne_eq, beq_iff_eq]
  refine ⟨⟨⟨⟨⟨h4, h7⟩, h5⟩, h6⟩, h1⟩, fun hc => ⟨fun h => h2 ⟨hc, h⟩, fun h => h3 ⟨hc, h⟩⟩⟩

theorem expression_extend (fuel : Nat) :
    (∀ ctx cur s more, expression fuel ctx cur = some s → s.errors = [] →
      s.stop ≠ Stop.EndOfInput → expression fuel ctx (cur.extend more) = some (s.extend more)) ∧
    (∀ cur r more, functionArgs fuel cur = some r → r.errors = [] → r.closed = true →
      functionArgs fuel (cur.extend more) = some (r.extend more)) := by
  induction fuel with
  | zero =>
    constructor
    · intro ctx cur s more h; rw [expression] at h; exact absurd h (by simp)
    · intro cur r more h; rw [functionArgs] at h; exact absurd h (by simp)
  | succ fuel ih =>
    obtain ⟨ihE, ihA⟩ := ih
    constructor
    · intro ctx cur s more h he hs
      have cont := continue_extend fuel ctx more (fun cur s => ihE ctx cur s more)
      obtain ⟨pos, rest⟩ := cur
      cases rest with
      | nil =>
        have := expression_at_end _ ctx _ s rfl h
        exact absurd (by rw [this]) hs
      | cons c cs =>
        have hx : Cursor.extend { pos := pos, rest := c :: cs } more =
            { pos := pos, rest := c :: (cs ++ more) } := rfl
        have hne : ({ pos := pos, rest := c :: cs } : Cursor).rest ≠ [] := by simp
        rw [hx]
        by_cases h1 : c = ']'
        · subst h1
          by_cases hg : ctx = Context.Group
          · subst hg
            rw [expression_group_close] at h ⊢
            rw [← Option.some.inj h]; rfl
          · rw [expression_unexpected _ _ _ _ hg] at h
            obtain ⟨t, _, hts⟩ := Option.map_eq_some'.1 h
            subst hts
            exact absurd (push_errors _ _ he).1 (by simp [unexpected])
        by_cases h2 : ctx = Context.Args ∧ c = ','
        · obtain ⟨hc, hcc⟩ := h2
          subst hc; subst hcc
          rw [expression_separator] at h ⊢
          rw [← Option.some.inj h]; rfl
        by_cases h3 : ctx = Context.Args ∧ c = ')'
        · obtain ⟨hc, hcc⟩ := h3
          subst hc; subst hcc
          rw [expression_args_close] at h ⊢
          rw [← Option.some.inj h]; rfl
        by_cases h4 : c = '%'
        · subst h4
          rw [expression_variable] at h ⊢
          exact cont _ _ _ h he hs (fun hn _ => by
            rw [← hx]; exact variableExpr_extend _ more hne hn)
        by_cases h5 : c = '"'
        · subst h5
          rw [expression_quote] at h ⊢
          exact cont _ _ _ h he hs (fun hn _ => by
            rw [← hx]; exact quote_extend _ more hne hn)
        by_cases h6 : c = '['
        · subst h6
          rw [expression_group] at h ⊢
          obtain ⟨body, hb, h'⟩ := Option.bind_eq_some.1 h
          obtain ⟨t, _, hts⟩ := Option.map_eq_some'.1 h'
          have hce := conditional_errors _ body (by
            have := he; rw [← hts] at this; exact (push_errors _ _ this).1)
          have hb2 := ihE Context.Group _ body more hb hce.2 (by rw [hce.1]; decide)
          have hb3 : expression fuel Context.Group { pos := pos + 1, rest := cs ++ more } =
              some (body.extend more) := hb2
          rw [hb3]
          simp only [Option.some_bind]
          exact cont _ _ _ h' he hs (fun _ _ => by
            rw [← hx]; exact conditional_extend _ body more hce.1)
        by_cases h7 : c = '$'
        · subst h7
          rw [expression_dollar] at h ⊢
          split_ifs at h with hcond
          · obtain ⟨hname, hpeek⟩ := Bool.and_eq_true_iff.1 hcond
            have hpeek2 := eq_of_beq hpeek
            obtain ⟨tl, htl⟩ := Cursor.peek_eq_some _ _ hpeek2
            have hscan := consumeUntil_extend isDelimiter { pos := pos + 1, rest := cs } more
              (Or.inl (by rw [htl]; simp))
            have hscan2 : Cursor.consumeUntil isDelimiter { pos := pos + 1, rest := cs ++ more } =
                ((Cursor.consumeUntil isDelimiter { pos := pos + 1, rest := cs }).1,
                 (Cursor.consumeUntil isDelimiter { pos := pos + 1, rest := cs }).2.extend more) :=
              hscan
            obtain ⟨args, ha, h'⟩ := Option.bind_eq_some.1 h
            obtain ⟨t, _, hts⟩ := Option.map_eq_some'.1 h'
            have hfe := function_errors _ _ args (by
              have := he; rw [← hts] at this; exact (push_errors _ _ this).1)
            have ha2 := ihA _ args more ha hfe.2 hfe.1
            rw [← advance_extend _ more (by rw [htl]; simp)] at ha2
            rw [hscan2]
            simp only [peek_extend _ more _ hpeek2, hname, beq_self_eq_true, Bool.and_self,
              if_true, ha2, Option.some_bind]
            exact cont _ _ _ h' he hs (fun _ _ => by
              rw [← hx]; exact function_extend _ _ args more hfe.1)
          · obtain ⟨t, _, hts⟩ := Option.map_eq_some'.1 h
            subst hts
            exact absurd (push_errors _ _ he).1 (by simp [functionFallback])
        · have hstop := stops_of_not ctx c h1 h2 h3 h4 h5 h6 h7
          rw [expression_literal _ _ _ _ _ hstop] at h ⊢
          exact cont _ _ _ h he hs (fun _ hr => by
            rw [← hx]; exact literal_extend ctx _ more (Or.inl hr))
    · intro cur r more h he hc
      rw [functionArgs] at h ⊢
      cases harg : expression fuel Context.Args cur with
      | none => simp [harg] at h
      | some arg =>
        rw [harg] at h
        simp only [] at h
        split_ifs at h with hsep
        · obtain ⟨m, hm, hmr⟩ := Option.map_eq_some'.1 h
          subst hmr
          simp only [List.append_eq_nil] at he
          have h1 := ihE Context.Args cur arg more harg he.1 (by rw [eq_of_beq hsep]; decide)
          have h2 := ihA arg.cursor m more hm he.2 hc
          rw [h1]
          simp only [Sequence.extend, hsep, if_true]
          simp only [Sequence.extend] at h2
          rw [h2]
          rfl
        · rw [← Option.some.inj h] at he hc
          simp only [beq_iff_eq] at hc
          have h1 := ihE Context.Args cur arg more harg he (by rw [hc]; decide)
          rw [h1, ← Option.some.inj h]
          simp only [Sequence.extend, hsep]
          rfl

theorem closes_stops (ctx : Context) (c : Char) (k : Stop) (h : ctx.closes c = some k) :
    ctx.stops c = true := by
  cases ctx with
  | Top => simp [Context.closes] at h
  | Group =>
    by_cases hc : c = ']'
    · subst hc; decide
    · simp [Context.closes, hc] at h
  | Args =>
    by_cases hc : c = ','
    · subst hc; decide
    · by_cases hc2 : c = ')'
      · subst hc2; decide
      · simp [Context.closes, hc, hc2] at h

theorem expression_closer (fuel : Nat) (ctx : Context) (pos : Nat) (c : Char) (k : Stop)
    (rest : List Char) (h : ctx.closes c = some k) :
    expression (fuel + 1) ctx { pos := pos, rest := c :: rest } =
      some { exprs := [], errors := [], stop := k, cursor := { pos := pos + 1, rest := rest } } := by
  cases ctx with
  | Top => simp [Context.closes] at h
  | Group =>
    by_cases hc : c = ']'
    · subst hc
      simp only [Context.closes, beq_self_eq_true, if_true, Option.some.injEq] at h
      subst h
      exact expression_group_close _ _ _
    · simp [Context.closes, hc] at h
  | Args =>
    by_cases hc : c = ','
    · subst hc
      simp only [Context.closes, beq_self_eq_true, if_true, Option.some.injEq] at h
      subst h
      exact expression_separator _ _ _
    · by_cases hc2 : c = ')'
      · subst hc2
        have : (')' == ',') = false := by decide
        simp only [Context.closes, this, Bool.false_eq_true, if_false, beq_self_eq_true, if_true,
          Option.some.injEq] at h
        subst h
        exact expression_args_close _ _ _
      · simp [Context.closes, hc, hc2] at h

theorem continue_closed (fuel : Nat) (ctx : Context) (c : Char) (k : Stop) (rest : List Char)
    (ih : ∀ cur s, expression fuel ctx cur = some s → s.errors = [] →
      s.stop = Stop.EndOfInput →
      expression fuel ctx (cur.extend (c :: rest)) =
        some { exprs := s.exprs, errors := [], stop := k,
               cursor := { pos := s.cursor.pos + 1, rest := rest } })
    (n n2 : Node) (s : Sequence)
    (h : (expression fuel ctx n.cursor).map (Sequence.push n) = some s)
    (he : s.errors = []) (hs : s.stop = Stop.EndOfInput)
    (hn : n.errors = [] → n2 = n.extend (c :: rest)) :
    (expression fuel ctx n2.cursor).map (Sequence.push n2) =
      some { exprs := s.exprs, errors := [], stop := k,
             cursor := { pos := s.cursor.pos + 1, rest := rest } } := by
  obtain ⟨t, ht, hts⟩ := Option.map_eq_some'.1 h
  subst hts
  obtain ⟨hne, hte⟩ := push_errors n t he
  have hn2 := hn hne
  subst hn2
  have := ih n.cursor t ht hte hs
  simp only [Node.extend] at this ⊢
  rw [this]
  simp [Sequence.push, hne]

theorem expression_closed (fuel : Nat) :
    ∀ ctx cur s c k rest, expression fuel ctx cur = some s → s.errors = [] →
      s.stop = Stop.EndOfInput → ctx.closes c = some k →
      expression fuel ctx (cur.extend (c :: rest)) =
        some { exprs := s.exprs, errors := [], stop := k,
               cursor := { pos := s.cursor.pos + 1, rest := rest } } := by
  induction fuel with
  | zero => intro ctx cur s c k rest h; rw [expression] at h; exact absurd h (by simp)
  | succ fuel ih =>
    intro ctx cur s c k rest h he hs hk
    obtain ⟨ihE, ihA⟩ := expression_extend fuel
    have cont := continue_closed fuel ctx c k rest
      (fun cur s h1 h2 h3 => ih ctx cur s c k rest h1 h2 h3 hk)
    obtain ⟨pos, text⟩ := cur
    cases text with
    | nil =>
      have := expression_at_end _ ctx _ s rfl h
      subst this
      exact expression_closer fuel ctx pos c k rest hk
    | cons x xs =>
      have hx : Cursor.extend { pos := pos, rest := x :: xs } (c :: rest) =
          { pos := pos, rest := x :: (xs ++ c :: rest) } := rfl
      have hne : ({ pos := pos, rest := x :: xs } : Cursor).rest ≠ [] := by simp
      rw [hx]
      by_cases h1 : x = ']'
      · subst h1
        by_cases hg : ctx = Context.Group
        · subst hg
          rw [expression_group_close] at h
          rw [← Option.some.inj h] at hs
          simp at hs
        · rw [expression_unexpected _ _ _ _ hg] at h
          obtain ⟨t, _, hts⟩ := Option.map_eq_some'.1 h
          subst hts
          exact absurd (push_errors _ _ he).1 (by simp [unexpected])
      by_cases h2 : ctx = Context.Args ∧ x = ','
      · obtain ⟨hc, hcc⟩ := h2
        subst hc; subst hcc
        rw [expression_separator] at h
        rw [← Option.some.inj h] at hs
        simp at hs
      by_cases h3 : ctx = Context.Args ∧ x = ')'
      · obtain ⟨hc, hcc⟩ := h3
        subst hc; subst hcc
        rw [expression_args_close] at h
        rw [← Option.some.inj h] at hs
        simp at hs
      by_cases h4 : x = '%'
      · subst h4
        rw [expression_variable] at h ⊢
        exact cont _ _ _ h he hs (fun hn => by
          rw [← hx]; exact variableExpr_extend _ _ hne hn)
      by_cases h5 : x = '"'
      · subst h5
        rw [expression_quote] at h ⊢
        exact cont _ _ _ h he hs (fun hn => by
          rw [← hx]; exact quote_extend _ _ hne hn)
      by_cases h6 : x = '['
      · subst h6
        rw [expression_group] at h ⊢
        obtain ⟨body, hb, h'⟩ := Option.bind_eq_some.1 h
        obtain ⟨t, _, hts⟩ := Option.map_eq_some'.1 h'
        have hce := conditional_errors _ body (by
          have := he; rw [← hts] at this; exact (push_errors _ _ this).1)
        have hb2 := ihE Context.Group _ body (c :: rest) hb hce.2 (by rw [hce.1]; decide)
        have hb3 : expression fuel Context.Group { pos := pos + 1, rest := xs ++ c :: rest } =
            some (body.extend (c :: rest)) := hb2
        rw [hb3]
        simp only [Option.some_bind]
        exact cont _ _ _ h' he hs (fun _ => by
          rw [← hx]; exact conditional_extend _ body _ hce.1)
      by_cases h7 : x = '$'
      · subst h7
        rw [expression_dollar] at h ⊢
        split_ifs at h with hcond
        · obtain ⟨hname, hpeek⟩ := Bool.and_eq_true_iff.1 hcond
          have hpeek2 := eq_of_beq hpeek
          obtain ⟨tl, htl⟩ := Cursor.peek_eq_some _ _ hpeek2
          have hscan := consumeUntil_extend isDelimiter { pos := pos + 1, rest := xs } (c :: rest)
            (Or.inl (by rw [htl]; simp))
          have hscan2 : Cursor.consumeUntil isDelimiter
                { pos := pos + 1, rest := xs ++ c :: rest } =
              ((Cursor.consumeUntil isDelimiter { pos := pos + 1, rest := xs }).1,
               (Cursor.consumeUntil isDelimiter { pos := pos + 1, rest := xs }).2.extend
                 (c :: rest)) :=
            hscan
          obtain ⟨args, ha, h'⟩ := Option.bind_eq_some.1 h
          obtain ⟨t, _, hts⟩ := Option.map_eq_some'.1 h'
          have hfe := function_errors _ _ args (by
            have := he; rw [← hts] at this; exact (push_errors _ _ this).1)
          have ha2 := ihA _ args (c :: rest) ha hfe.2 hfe.1
          rw [← advance_extend _ _ (by rw [htl]; simp)] at ha2
          rw [hscan2]
          simp only [peek_extend _ _ _ hpeek2, hname, beq_self_eq_true, Bool.and_self,
            if_true, ha2, Option.some_bind]
          exact cont _ _ _ h' he hs (fun _ => by
            rw [← hx]; exact function_extend _ _ args _ hfe.1)
        · obtain ⟨t, _, hts⟩ := Option.map_eq_some'.1 h
          subst hts
          exact absurd (push_errors _ _ he).1 (by simp [functionFallback])
      · have hstop := stops_of_not ctx x h1 h2 h3 h4 h5 h6 h7
        rw [expression_literal _ _ _ _ _ hstop] at h ⊢
        exact cont _ _ _ h he hs (fun _ => by
          rw [← hx]
          exact literal_extend ctx _ _ (Or.inr (by
            intro m hm
            simp only [List.head?_cons, Option.mem_def, Option.some.injEq] at hm
            subst hm
            exact closes_stops ctx _ k hk)))

theorem advance_finish (cur : Cursor) (h : cur.rest ≠ []) : cur.advance.finish = cur.finish := by
  cases hr : cur.rest with
  | nil => exact absurd hr h
  | cons c cs => simp [Cursor.advance, Cursor.finish, hr]; omega

theorem consumeUntil_finish (stop : Char → Bool) (cur : Cursor) :
    (cur.consumeUntil stop).2.finish = cur.finish := by
  have h := congrArg List.length (List.takeWhile_append_dropWhile (fun c => !stop c) cur.rest)
  simp only [List.length_append] at h
  simp only [Cursor.consumeUntil, Cursor.finish]
  omega

theorem literal_finish (ctx : Context) (cur : Cursor) :
    (literal ctx cur).cursor.finish = cur.finish := by
  simp only [literal]; exact consumeUntil_finish _ _

theorem unexpected_finish (cur : Cursor) (c : Char) (h : cur.rest ≠ []) :
    (unexpected cur c).cursor.finish = cur.finish := by
  simp only [unexpected]; exact advance_finish cur h

theorem quote_finish (cur : Cursor) (h : cur.rest ≠ []) :
    (quote cur).cursor.finish = cur.finish := by
  have h1 := consumeUntil_finish (fun c => c == '"') cur.advance
  have h2 := advance_finish cur h
  simp only [quote]
  split
  · rename_i hp
    obtain ⟨tl, htl⟩ := Cursor.peek_eq_some _ _ (eq_of_beq hp)
    simp only
    rw [advance_finish _ (by rw [htl]; simp), h1, h2]
  · simp only; rw [h1, h2]

theorem variableExpr_finish (cur : Cursor) (h : cur.rest ≠ []) :
    (variableExpr cur).cursor.finish = cur.finish := by
  have h1 := consumeUntil_finish isDelimiter cur.advance
  have h2 := advance_finish cur h
  simp only [variableExpr]
  split
  · rename_i hp
    obtain ⟨tl, htl⟩ := Cursor.peek_eq_some _ _ (eq_of_beq hp)
    have h3 := advance_finish (cur.advance.consumeUntil isDelimiter).2 (by rw [htl]; simp)
    split <;> simp only <;> rw [h3, h1, h2]
  · simp only; rw [h1, h2]

theorem functionFallback_finish (cur : Cursor) (h : cur.rest ≠ []) :
    (functionFallback cur).cursor.finish = cur.finish := by
  simp only [functionFallback]
  rw [consumeUntil_finish, advance_finish cur h]

theorem conditional_finish (cur : Cursor) (body : Sequence) (h : cur.rest ≠ [])
    (hb : body.cursor.finish = cur.advance.finish) :
    (conditional cur body).cursor.finish = cur.finish := by
  simp only [conditional]
  split
  · simp only; rw [hb, advance_finish cur h]
  · simp only [Cursor.consumeAll, Cursor.finish, List.length_nil, Nat.add_zero]
    exact advance_finish cur h

theorem expression_finish (fuel : Nat) :
    (∀ ctx cur s, expression fuel ctx cur = some s → s.cursor.finish = cur.finish) ∧
    (∀ cur r, functionArgs fuel cur = some r → r.cursor.finish = cur.finish) := by
  induction fuel with
  | zero =>
    constructor
    · intro ctx cur s h; rw [expression] at h; exact absurd h (by simp)
    · intro cur r h; rw [functionArgs] at h; exact absurd h (by simp)
  | succ fuel ih =>
    obtain ⟨ihE, ihA⟩ := ih
    constructor
    · intro ctx cur s h
      have cont : ∀ (n : Node), n.cursor.finish = cur.finish →
          (expression fuel ctx n.cursor).map (Sequence.push n) = some s →
          s.cursor.finish = cur.finish := by
        intro n hf hn
        obtain ⟨t, ht, hts⟩ := Option.map_eq_some'.1 hn
        have := ihE ctx n.cursor t ht
        rw [← hts, ← hf, ← this]
        rfl
      rw [expression] at h
      split at h
      · rw [← Option.some.inj h]
      · rename_i c cs hrest
        have hne : cur.rest ≠ [] := by rw [hrest]; simp
        have hadv := advance_finish cur hne
        simp only [] at h
        split_ifs at h with h1 h2 h3 h4 h5 h6 h7 h8 h9
        · rw [← Option.some.inj h]; exact hadv
        · exact cont _ (unexpected_finish cur c hne) h
        · rw [← Option.some.inj h]; exact hadv
        · rw [← Option.some.inj h]; exact hadv
        · exact cont _ (variableExpr_finish cur hne) h
        · exact cont _ (quote_finish cur hne) h
        · cases hb : expression fuel Context.Group cur.advance with
          | none => simp [hb] at h
          | some body =>
            rw [hb] at h
            exact cont _ (conditional_finish cur body hne (ihE _ _ _ hb)) h
        · cases ha : functionArgs fuel (cur.advance.consumeUntil isDelimiter).2.advance with
          | none => simp [ha] at h
          | some args =>
            rw [ha] at h
            obtain ⟨tl, htl⟩ := Cursor.peek_eq_some _ _ (eq_of_beq (Bool.and_eq_true_iff.1 h9).2)
            refine cont _ ?_ h
            rw [function_cursor, ihA _ _ ha, advance_finish _ (by rw [htl]; simp),
              consumeUntil_finish, hadv]
        · exact cont _ (functionFallback_finish cur hne) h
        · exact cont _ (literal_finish ctx cur) h
    · intro cur r h
      rw [functionArgs] at h
      cases harg : expression fuel Context.Args cur with
      | none => simp [harg] at h
      | some arg =>
        rw [harg] at h
        simp only [] at h
        have h1 := ihE _ _ _ harg
        split_ifs at h with hsep
        · obtain ⟨m, hm, hmr⟩ := Option.map_eq_some'.1 h
          rw [← hmr]
          exact (ihA _ _ hm).trans h1
        · rw [← Option.some.inj h]; exact h1

theorem functionArgs_alone (rest : List Char) :
    ∀ (arguments : List (List Char)) (a : List Char) (pos fuel : Nat)
      (parsed : List ExpressionList),
      argumentsAlone pos (a :: arguments) = some parsed →
      (joinArguments (a :: arguments)).length + rest.length + 2 < fuel →
      functionArgs fuel { pos := pos, rest := joinArguments (a :: arguments) ++ ')' :: rest } =
        some { args := parsed, errors := [], closed := true,
               cursor := { pos := pos + (joinArguments (a :: arguments)).length + 1,
                           rest := rest } } := by
  intro arguments
  induction arguments with
  | nil =>
    intro a pos fuel parsed h hf
    obtain ⟨fuel, rfl⟩ : ∃ f, fuel = f + 1 := ⟨fuel - 1, by omega⟩
    simp only [argumentsAlone] at h
    cases he : expression (a.length + 1) Context.Args { pos := pos, rest := a } with
    | none => simp [he] at h
    | some s =>
      simp only [he] at h
      split_ifs at h with hc
      simp only [Bool.and_eq_true, beq_iff_eq, List.isEmpty_iff] at hc
      simp only [Option.map_some', Option.some.injEq] at h
      subst h
      have hclosed := expression_closed _ Context.Args _ s ')' Stop.ArgsClose rest he hc.2 hc.1
        (by decide)
      have hrest := (expression_stop _ _ _ _ he).1 hc.1
      have hfin := (expression_finish _).1 _ _ _ he
      simp only [Cursor.finish, hrest, List.length_nil, Nat.add_zero] at hfin
      have hfuel := expression_fuel_irrelevant _ fuel _ _ _ hclosed (by
        simp only [Cursor.extend, List.length_append, List.length_cons, joinArguments] at hf ⊢
        omega)
      rw [functionArgs]
      simp only [joinArguments]
      rw [show ({ pos := pos, rest := a ++ ')' :: rest } : Cursor) =
        Cursor.extend { pos := pos, rest := a } (')' :: rest) from rfl, hfuel]
      simp [hfin]
  | cons b arguments ih =>
    intro a pos fuel parsed h hf
    obtain ⟨fuel, rfl⟩ : ∃ f, fuel = f + 1 := ⟨fuel - 1, by omega⟩
    rw [argumentsAlone] at h
    cases he : expression (a.length + 1) Context.Args { pos := pos, rest := a } with
    | none => simp [he] at h
    | some s =>
      simp only [he] at h
      split_ifs at h with hc
      simp only [Bool.and_eq_true, beq_iff_eq, List.isEmpty_iff] at hc
      obtain ⟨more, hmore, hp⟩ := Option.map_eq_some'.1 h
      subst hp
      have hclosed := expression_closed _ Context.Args _ s ',' Stop.ArgSeparator
        (joinArguments (b :: arguments) ++ ')' :: rest) he hc.2 hc.1 (by decide)
      have hrest := (expression_stop _ _ _ _ he).1 hc.1
      have hfin := (expression_finish _).1 _ _ _ he
      simp only [Cursor.finish, hrest, List.length_nil, Nat.add_zero] at hfin
      have hlen : (joinArguments (a :: b :: arguments)).length =
          a.length + 1 + (joinArguments (b :: arguments)).length := by
        simp [joinArguments]; omega
      have hfuel := expression_fuel_irrelevant _ fuel _ _ _ hclosed (by
        simp only [Cursor.extend, List.length_append, List.length_cons] at hf ⊢
        omega)
      have hnext := ih b (pos + a.length + 1) fuel more hmore (by omega)
      rw [functionArgs]
      rw [show ({ pos := pos, rest := joinArguments (a :: b :: arguments) ++ ')' :: rest }
          : Cursor) = Cursor.extend { pos := pos, rest := a }
            (',' :: (joinArguments (b :: arguments) ++ ')' :: rest)) from by
        simp [Cursor.extend, joinArguments], hfuel]
      simp only [beq_self_eq_true, if_true, hfin, hnext, Option.map_some', List.nil_append]
      simp only [hlen]
      congr 3
      omega

theorem argumentsAlone_length (arguments : List (List Char)) :
    ∀ (pos : Nat) (parsed : List ExpressionList),
      argumentsAlone pos arguments = some parsed → parsed.length = arguments.length := by
  induction arguments with
  | nil => intro pos parsed h; simp [argumentsAlone] at h; subst h; rfl
  | cons a arguments ih =>
    intro pos parsed h
    rw [argumentsAlone] at h
    cases he : expression (a.length + 1) Context.Args { pos := pos, rest := a } with
    | none => simp [he] at h
    | some s =>
      simp only [he] at h
      split_ifs at h with hc
      obtain ⟨more, hmore, hp⟩ := Option.map_eq_some'.1 h
      subst hp
      simp [ih _ _ hmore]

theorem parseInput_callText (name first : String) (others : List String)
    (parsed : List ExpressionList) (hname : name ≠ "")
    (hplain : ∀ c ∈ name.toList, isDelimiter c = false)
    (h : argumentsAlone (name.length + 2) ((first :: others).map String.toList) = some parsed) :
    parseInput (callText name (first :: others)) =
      { input := callText name (first :: others),
        expressions := [Expression.Function 0 name parsed], errors := [] } := by
  cases hn : name.toList with
  | nil => exact absurd (show name = "" from by
      have : String.mk name.toList = "" := by rw [hn]
      exact this) hname
  | cons c cs =>
    have hmk : String.mk (c :: cs) = name := by rw [← hn]; exact rfl
    have hlen : name.length = (c :: cs).length := by
      show name.toList.length = _
      rw [hn]
    have hchars : (callText name (first :: others)).toList =
        '$' :: (c :: cs ++ '(' ::
          (joinArguments (first.toList :: others.map String.toList) ++ ')' :: [])) := by
      show '$' :: (name.toList ++ _) = _
      rw [hn]; rfl
    have hfuel : parseFuel (callText name (first :: others)) =
        ((c :: cs).length +
          (joinArguments (first.toList :: others.map String.toList)).length + 2) + 1 + 1 := by
      show (callText name (first :: others)).toList.length + 1 = _
      rw [hchars]
      simp only [List.length_cons, List.length_append, List.length_nil]
      omega
    have hargs := functionArgs_alone [] (others.map String.toList) first.toList
      (0 + 1 + (c :: cs).length + 1)
      ((c :: cs).length + (joinArguments (first.toList :: others.map String.toList)).length
        + 2 + 1)
      parsed (by
        rw [← h, hlen]
        have : 0 + 1 + (c :: cs).length + 1 = (c :: cs).length + 2 := by omega
        rw [this]; rfl) (by
        simp only [List.map_cons, List.length_nil, List.length_cons]
        omega)
    rw [parseInput, hchars, hfuel, expression_call _ Context.Top 0 c cs _ _
      (by rw [← hn]; exact hplain) hargs]
    simp only [function, if_true, expression_nil, hmk]
    rfl

/-! ## Evaluation: results are never empty -/

theorem cross_ne_nil (xs ys : List String) (hx : xs ≠ []) (hy : ys ≠ []) : cross xs ys ≠ [] := by
  cases xs with
  | nil => exact absurd rfl hx
  | cons x xs =>
    cases ys with
    | nil => exact absurd rfl hy
    | cons y ys => simp [cross]

theorem combinations_ne_nil (l : List (List String)) (h : ∀ vs ∈ l, vs ≠ []) :
    combinations l ≠ [] := by
  induction l with
  | nil => simp [combinations]
  | cons vs rest ih =>
    have hrest := ih (fun v hv => h v (by simp [hv]))
    have hvs := h vs (by simp)
    cases vs with
    | nil => exact absurd rfl hvs
    | cons v vs =>
      cases hc : combinations rest with
      | nil => exact absurd hc hrest
      | cons c cs => simp [combinations, hc]

theorem evalVariableList_values (self : ScriptParser) (name : String) :
    (self.evalVariableList name).values ≠ [] := by
  simp only [ScriptParser.evalVariableList]
  split
  · split <;> simp
  · split <;> simp
  · simp [ScriptResult.failure]

theorem evalVariable_values (self : ScriptParser) (name : String) :
    (self.evalVariable name).values ≠ [] := by
  simp only [ScriptParser.evalVariable]
  split
  · split <;> simp
  · exact evalVariableList_values self name
  · simp [ScriptResult.failure]

theorem evalFunction_values (self : ScriptParser) (name : String) (args : List ScriptResult)
    (h : ∀ r ∈ args, r.values ≠ []) : (self.evalFunction name args).values ≠ [] := by
  simp only [ScriptParser.evalFunction]
  split
  · split
    · have := combinations_ne_nil (args.map (·.values)) (by
        intro vs hvs
        obtain ⟨r, hr, hrv⟩ := List.mem_map.1 hvs
        rw [← hrv]; exact h r hr)
      simpa using this
    · simp [ScriptResult.failure]
  · simp [ScriptResult.failure]

mutual
theorem evalExpression_values (self : ScriptParser) :
    ∀ e : Expression, (self.evalExpression e).values ≠ []
  | Expression.Literal _ _ => by simp [ScriptParser.evalExpression, ScriptParser.evalLiteral]
  | Expression.QuotedLiteral _ _ => by
    simp [ScriptParser.evalExpression, ScriptParser.evalLiteral]
  | Expression.Variable _ name => by
    rw [ScriptParser.evalExpression]; exact evalVariable_values self name
  | Expression.VariableList _ name => by
    rw [ScriptParser.evalExpression]; exact evalVariableList_values self name
  | Expression.Function _ name args => by
    rw [ScriptParser.evalExpression]
    exact evalFunction_values self name _ (evalFunctionArgs_values self args)
  | Expression.Conditional _ branches => by
    rw [ScriptParser.evalExpression, ScriptParser.evalConditional]
    split
    · simp [ScriptResult.nothing]
    · exact evalBranches_values self branches
theorem evalFunctionArg_values (self : ScriptParser) :
    ∀ es : List Expression, (self.evalFunctionArg es).values ≠ []
  | [] => by simp [ScriptParser.evalFunctionArg, ScriptResult.nothing]
  | e :: es => by
    rw [ScriptParser.evalFunctionArg]
    exact cross_ne_nil _ _ (evalExpression_values self e) (evalFunctionArg_values self es)
theorem evalFunctionArgs_values (self : ScriptParser) :
    ∀ args : List (List Expression), ∀ r ∈ self.evalFunctionArgs args, r.values ≠ []
  | [] => by simp [ScriptParser.evalFunctionArgs]
  | a :: as => by
    intro r hr
    rw [ScriptParser.evalFunctionArgs] at hr
    rcases List.mem_cons.1 hr with h | h
    · rw [h]; exact evalFunctionArg_values self a
    · exact evalFunctionArgs_values self as r h
theorem evalBranches_values (self : ScriptParser) :
    ∀ branches : List (List Expression), (self.evalBranches branches).values ≠ []
  | [] => by simp [ScriptParser.evalBranches, ScriptResult.nothing]
  | b :: bs => by
    rw [ScriptParser.evalBranches]
    exact cross_ne_nil _ _ (evalFunctionArg_values self b) (evalBranches_values self bs)
end

/-! ## Well-formed scripts are read without an error -/

/-- A sequence that was read to the end of its text without an error. -/
theorem clean_push (n : Node) (s t : Sequence) (hn : n.errors = [])
    (hs : s.stop = Stop.EndOfInput ∧ s.errors = []) (ht : t = Sequence.push n s) :
    t.stop = Stop.EndOfInput ∧ t.errors = [] := by
  subst ht
  simp [Sequence.push, hn, hs.1, hs.2]

theorem argumentsAlone_of_clean (arguments : List (List Char))
    (h : ∀ a ∈ arguments, ∀ pos : Nat, ∃ s,
      expression (a.length + 1) Context.Args { pos := pos, rest := a } = some s ∧
        s.stop = Stop.EndOfInput ∧ s.errors = []) :
    ∀ pos : Nat, ∃ parsed, argumentsAlone pos arguments = some parsed := by
  induction arguments with
  | nil => intro pos; exact ⟨[], rfl⟩
  | cons a rest ih =>
    intro pos
    obtain ⟨s, hs, hstop, herr⟩ := h a (List.mem_cons_self _ _) pos
    obtain ⟨more, hmore⟩ := ih (fun b hb => h b (List.mem_cons_of_mem _ hb)) (pos + a.length + 1)
    refine ⟨s.exprs :: more, ?_⟩
    rw [argumentsAlone, hs]
    simp [hstop, herr, hmore]

theorem script_reads (ctx : Context) (t : List Char) (h : Script ctx t) :
    ∀ pos : Nat, ∃ s, expression (t.length + 1) ctx { pos := pos, rest := t } = some s ∧
      s.stop = Stop.EndOfInput ∧ s.errors = [] := by
  induction h with
  | done ctx => intro pos; exact ⟨_, expression_nil 0 ctx pos, rfl, rfl⟩
  | text ctx c cs rest hrun hrest _ ih =>
    intro pos
    obtain ⟨s, hs, hclean⟩ := ih (pos + (c :: cs).length)
    have hs2 := expression_fuel_irrelevant _ (c :: cs ++ rest).length _ _ _ hs (by simp; omega)
    rw [expression_run _ ctx pos c cs rest hrun hrest, hs2]
    exact ⟨_, rfl, clean_push _ s _ rfl hclean rfl⟩
  | quoted ctx text rest ht _ ih =>
    intro pos
    obtain ⟨s, hs, hclean⟩ := ih (pos + 1 + text.length + 1)
    have hs2 := expression_fuel_irrelevant _ ('"' :: (text ++ '"' :: rest)).length _ _ _ hs
      (by simp; omega)
    rw [expression_quote, quote_closed pos text rest ht, hs2]
    exact ⟨_, rfl, clean_push _ s _ rfl hclean rfl⟩
  | reference ctx c cs rest hplain _ ih =>
    intro pos
    obtain ⟨s, hs, hclean⟩ := ih (pos + 1 + (c :: cs).length + 1)
    have hs2 := expression_fuel_irrelevant _ ('%' :: (c :: cs ++ '%' :: rest)).length _ _ _ hs
      (by simp; omega)
    rw [expression_variable, variableExpr_closed pos c cs rest hplain, hs2]
    exact ⟨_, rfl, clean_push _ s _ rfl hclean rfl⟩
  | group ctx body rest _ _ ihb ih =>
    intro pos
    obtain ⟨sb, hsb, hbstop, hberr⟩ := ihb (pos + 1)
    have hclosed := expression_closed _ Context.Group _ sb ']' Stop.GroupClose rest hsb hberr
      hbstop (by decide)
    have hb2 := expression_fuel_irrelevant _ ('[' :: (body ++ ']' :: rest)).length _ _ _ hclosed
      (by simp [Cursor.extend])
    obtain ⟨s, hs, hclean⟩ := ih (sb.cursor.pos + 1)
    have hs2 := expression_fuel_irrelevant _ ('[' :: (body ++ ']' :: rest)).length _ _ _ hs
      (by simp; omega)
    rw [expression_group]
    rw [show ({ pos := pos + 1, rest := body ++ ']' :: rest } : Cursor) =
      Cursor.extend { pos := pos + 1, rest := body } (']' :: rest) from rfl, hb2]
    simp only [Option.some_bind, conditional, beq_self_eq_true, if_true, hs2, Option.map_some']
    exact ⟨_, rfl, clean_push _ s _ rfl hclean rfl⟩
  | call ctx c cs first others rest hplain _ _ iha ih =>
    intro pos
    obtain ⟨parsed, hparsed⟩ := argumentsAlone_of_clean (first :: others) iha
      (pos + 1 + (c :: cs).length + 1)
    have hargs := functionArgs_alone rest others first (pos + 1 + (c :: cs).length + 1)
      ('$' :: (c :: cs ++ '(' :: (joinArguments (first :: others) ++ ')' :: rest))).length
      parsed hparsed (by simp; omega)
    obtain ⟨s, hs, hclean⟩ := ih
      (pos + 1 + (c :: cs).length + 1 + (joinArguments (first :: others)).length + 1)
    have hs2 := expression_fuel_irrelevant _
      ('$' :: (c :: cs ++ '(' :: (joinArguments (first :: others) ++ ')' :: rest))).length
      _ _ _ hs (by simp; omega)
    rw [expression_call _ ctx pos c cs _ _ hplain hargs]
    simp only [function, if_true, hs2, Option.map_some']
    exact ⟨_, rfl, clean_push _ s _ rfl hclean rfl⟩

/-- The parse of a call whose arguments are well formed. -/
theorem parseInput_callScript (name first : String) (others : List String)
    (hname : name ≠ "") (hplain : ∀ c ∈ name.toList, isDelimiter c = false)
    (h : ∀ a ∈ first :: others, Script Context.Args a.toList) :
    ∃ parsed : List ExpressionList,
      argumentsAlone (name.length + 2) ((first :: others).map String.toList) = some parsed ∧
      parseInput (callText name (first :: others)) =
        { input := callText name (first :: others),
          expressions := [Expression.Function 0 name parsed], errors := [] } ∧
      parsed.length = others.length + 1 := by
  obtain ⟨parsed, hparsed⟩ := argumentsAlone_of_clean ((first :: others).map String.toList)
    (fun a ha pos => by
      obtain ⟨b, hb, hba⟩ := List.mem_map.1 ha
      subst hba
      exact script_reads Context.Args b.toList (h b hb) pos) (name.length + 2)
  refine ⟨parsed, hparsed, parseInput_callText name first others parsed hname hplain hparsed, ?_⟩
  simpa using argumentsAlone_length _ _ _ hparsed

/-! ## A call without its closing parenthesis -/

mutual
theorem evalExpressionWithin_size (self : ScriptParser) :
    ∀ (e : Expression) (budget : Nat), e.size ≤ budget →
      self.evalExpressionWithin budget e = some (self.evalExpression e)
  | Expression.Literal _ _, budget, h => by
    obtain ⟨b, rfl⟩ : ∃ b, budget = b + 1 := ⟨budget - 1, by rw [Expression.size] at h; omega⟩
    rfl
  | Expression.QuotedLiteral _ _, budget, h => by
    obtain ⟨b, rfl⟩ : ∃ b, budget = b + 1 := ⟨budget - 1, by rw [Expression.size] at h; omega⟩
    rfl
  | Expression.Variable _ _, budget, h => by
    obtain ⟨b, rfl⟩ : ∃ b, budget = b + 1 := ⟨budget - 1, by rw [Expression.size] at h; omega⟩
    rfl
  | Expression.VariableList _ _, budget, h => by
    obtain ⟨b, rfl⟩ : ∃ b, budget = b + 1 := ⟨budget - 1, by rw [Expression.size] at h; omega⟩
    rfl
  | Expression.Function _ name args, budget, h => by
    rw [Expression.size] at h
    obtain ⟨b, rfl⟩ : ∃ b, budget = b + 1 := ⟨budget - 1, by omega⟩
    rw [ScriptParser.evalExpressionWithin, argumentsWithin_size self args b (by omega)]
    rfl
  | Expression.Conditional _ branches, budget, h => by
    rw [Expression.size] at h
    obtain ⟨b, rfl⟩ : ∃ b, budget = b + 1 := ⟨budget - 1, by omega⟩
    rw [ScriptParser.evalExpressionWithin, branchesWithin_size self branches b (by omega)]
    rfl
theorem sequenceWithin_size (self : ScriptParser) :
    ∀ (es : List Expression) (budget : Nat), sizeOfSequence es ≤ budget →
      sequenceWithin (self.evalExpressionWithin budget) es = some (self.evalFunctionArg es)
  | [], _, _ => rfl
  | e :: es, budget, h => by
    rw [sizeOfSequence] at h
    rw [sequenceWithin, evalExpressionWithin_size self e budget (by omega),
      sequenceWithin_size self es budget (by omega)]
    rfl
theorem argumentsWithin_size (self : ScriptParser) :
    ∀ (args : List (List Expression)) (budget : Nat), sizeOfArgs args ≤ budget →
      argumentsWithin (self.evalExpressionWithin budget) args = some (self.evalFunctionArgs args)
  | [], _, _ => rfl
  | a :: as, budget, h => by
    rw [sizeOfArgs] at h
    rw [argumentsWithin, sequenceWithin_size self a budget (by omega),
      argumentsWithin_size self as budget (by omega)]
    rfl
theorem branchesWithin_size (self : ScriptParser) :
    ∀ (branches : List (List Expression)) (budget : Nat), sizeOfArgs branches ≤ budget →
      branchesWithin (self.evalExpressionWithin budget) branches =
        some (self.evalBranches branches)
  | [], _, _ => rfl
  | b :: bs, budget, h => by
    rw [sizeOfArgs] at h
    rw [branchesWithin, sequenceWithin_size self b budget (by omega),
      branchesWithin_size self bs budget (by omega)]
    rfl
end

theorem sub64_exact (a b : Nat) (ha : a < 18446744073709551616) (hb : b ≤ a) :
    sub64 a b = a - b := by
  simp only [sub64, wrap64]
  omega

theorem playedCount_append {PT : Type} (a b : List (Signal PT)) :
    playedCount (a ++ b) = playedCount a + playedCount b := by
  induction a with
  | nil => simp [playedCount]
  | cons s a ih =>
    cases s <;> simp [playedCount, ih]
    omega

theorem setCurrentPosition_played {PT Q : Type} (env : PlayerEnv PT Q) (ms : Nat)
    (p : PlayerController PT Q) :
    playedCount (p.setCurrentPosition env ms).emitted =
        playedCount p.emitted +
          (if (!p.counted && decide (ms ≥ p.totalDuration / 2) && env.isValid p.currentTrack) = true
           then 1 else 0) ∧
      (p.setCurrentPosition env ms).counted = (p.counted || decide (ms ≥ p.totalDuration / 2)) ∧
      (p.setCurrentPosition env ms).totalDuration = p.totalDuration ∧
      (p.setCurrentPosition env ms).currentTrack = p.currentTrack ∧
      (p.setCurrentPosition env ms).position = ms := by
  by_cases hc : p.counted = true <;> by_cases hm : ms ≥ p.totalDuration / 2 <;>
    by_cases hv : env.isValid p.currentTrack = true <;>
    simp [PlayerController.setCurrentPosition, PlayerController.emit, playedCount_append,
      playedCount, hc, hm, hv]

theorem setCurrentPositions_played {PT Q : Type} (env : PlayerEnv PT Q) (positions : List Nat) :
    ∀ p : PlayerController PT Q,
      playedCount (p.setCurrentPositions env positions).emitted ≤
          playedCount p.emitted + (if p.counted = true then 0 else 1) ∧
        (playedCount p.emitted < playedCount (p.setCurrentPositions env positions).emitted →
          env.isValid p.currentTrack = true ∧ ∃ ms ∈ positions, ms ≥ p.totalDuration / 2) := by
  induction positions with
  | nil =>
    intro p
    simp [PlayerController.setCurrentPositions]
  | cons ms positions ih =>
    intro p
    obtain ⟨h1, h2, h3, h4, _⟩ := setCurrentPosition_played env ms p
    obtain ⟨i1, i2⟩ := ih (p.setCurrentPosition env ms)
    have hrun : p.setCurrentPositions env (ms :: positions) =
        (p.setCurrentPosition env ms).setCurrentPositions env positions := rfl
    rw [hrun]
    rw [h1, h2] at i1
    rw [h1, h3, h4] at i2
    by_cases hc : p.counted = true
    · simp only [hc, Bool.not_true, Bool.false_and, Bool.false_eq_true, if_false, Nat.add_zero,
        Bool.true_or, if_true] at i1 i2 ⊢
      exact ⟨i1, fun h => absurd h (by omega)⟩
    · simp only [Bool.not_eq_true] at hc
      by_cases hm : ms ≥ p.totalDuration / 2
      · by_cases hv : env.isValid p.currentTrack = true
        · simp only [hc, hm, hv, decide_True, Bool.not_false, Bool.and_self, if_true,
            Bool.or_true, Nat.add_zero, Bool.false_eq_true, if_false] at i1 i2 ⊢
          exact ⟨i1, fun _ => ⟨trivial, ms, by simp, hm⟩⟩
        · simp only [Bool.not_eq_true] at hv
          simp only [hc, hm, hv, decide_True, Bool.not_false, Bool.and_false, Bool.and_true,
            Bool.false_eq_true, if_false, Bool.or_true, if_true, Nat.add_zero] at i1 i2 ⊢
          exact ⟨by omega, fun h => absurd h (by omega)⟩
      · simp only [hc, hm, decide_False, Bool.and_false, Bool.false_and, Bool.false_eq_true,
          if_false, Bool.or_false, Nat.add_zero] at i1 i2 ⊢
        refine ⟨i1, fun h => ?_⟩
        obtain ⟨hv, ms2, hmem, hge⟩ := i2 h
        exact ⟨hv, ms2, by simp [hmem], hge⟩

/-! ## Identifiers: what the constructors and `append` give -/

/-- The id of the empty text is 0, and the id of another text is its hash modulo `2 ^ 32`. -/
theorem idFromString_eq (hash : String → Nat) (str : String) :
    idFromString hash str = if str = "" then 0 else hash str % 4294967296 := by
  unfold idFromString
  by_cases h : str = ""
  · subst h; rfl
  · have h2 : str.isEmpty = false := by
      cases hb : str.isEmpty with
      | false => rfl
      | true => exact absurd ((String.isEmpty_iff str).1 hb) h
    simp [h, h2]

/-- A constructed `Id` has the id of its name. -/
theorem Util.Id.ofString_consistent (hash : String → Nat) (str : String) :
    (Util.Id.ofString hash str).consistent hash :=
  rfl

/-- The `Id` that `append` returns is the one constructed from the old name followed by
the appended text. -/
theorem Util.Id.append_returned (hash : String → Nat) (self : Util.Id) (str : String) :
    (self.append hash str).1 = Util.Id.ofString hash (self.name ++ str) :=
  rfl

/-- After `append` the receiver has the old id and the longer name. -/
theorem Util.Id.append_receiver (hash : String → Nat) (self : Util.Id) (str : String) :
    (self.append hash str).2 = { m_id := self.id, m_name := self.name ++ str } :=
  rfl

/-- After `append` the receiver is consistent exactly when its old id happens to be the
id of the longer name. -/
theorem Util.Id.append_receiver_consistent_iff (hash : String → Nat) (self : Util.Id)
    (str : String) :
    (self.append hash str).2.consistent hash ↔
      self.id = idFromString hash (self.name ++ str) :=
  Iff.rfl

/-- Appending the empty text leaves a consistent receiver consistent. -/
theorem Util.Id.append_empty_consistent (hash : String → Nat) (self : Util.Id)
    (h : self.consistent hash) : (self.append hash "").2.consistent hash := by
  rw [Util.Id.append_receiver_consistent_iff]
  have e : self.name ++ "" = self.name := by simp
  rw [e]
  exact h

/-! ## Library thread handler: what `libraryRemoved` keeps and erases -/

/-- On an empty deque `libraryRemoved` changes nothing. -/
theorem libraryRemoved_empty {T : Type} (p : LibraryThreadHandler T) (id : Int)
    (h : p.scanRequests = []) : p.libraryRemoved id = p := by
  simp [LibraryThreadHandler.libraryRemoved, h]

/-- When the front request is a library scan of the removed library, the scanner is
stopped and the deque stays as it is. -/
theorem libraryRemoved_front_scanned {T : Type} (p : LibraryThreadHandler T) (id : Int)
    (front : LibraryScanRequest T) (rest : List (LibraryScanRequest T))
    (h : p.scanRequests = front :: rest)
    (hfront : front.type = ScanType.Library ∧ front.library.id = id) :
    p.libraryRemoved id = p.call ScannerCall.stopThread := by
  simp [LibraryThreadHandler.libraryRemoved, h, hfront]

/-- When the front request is not a library scan of the removed library, the requests of
the removed library are erased from the whole deque. -/
theorem libraryRemoved_front_other {T : Type} (p : LibraryThreadHandler T) (id : Int)
    (front : LibraryScanRequest T) (rest : List (LibraryScanRequest T))
    (h : p.scanRequests = front :: rest)
    (hfront : ¬ (front.type = ScanType.Library ∧ front.library.id = id)) :
    p.libraryRemoved id =
      { p with
        scanRequests := p.scanRequests.filter (fun request => !(request.library.id == id)) } := by
  simp only [LibraryThreadHandler.libraryRemoved, h]
  rw [if_neg hfront]

/-- In that case no request of the removed library is left in the deque. -/
theorem libraryRemoved_front_other_erases {T : Type} (p : LibraryThreadHandler T) (id : Int)
    (front : LibraryScanRequest T) (rest : List (LibraryScanRequest T))
    (h : p.scanRequests = front :: rest)
    (hfront : ¬ (front.type = ScanType.Library ∧ front.library.id = id)) :
    ∀ request ∈ (p.libraryRemoved id).scanRequests, request.library.id ≠ id := by
  rw [libraryRemoved_front_other p id front rest h hfront]
  intro request hmem
  simp only [List.mem_filter] at hmem
  simpa using hmem.2

/-- The requests of the other libraries stay queued, in their order, whatever the front
request is. -/
theorem libraryRemoved_keeps_others {T : Type} (p : LibraryThreadHandler T) (id : Int) :
    (p.libraryRemoved id).scanRequests.filter (fun request => !(request.library.id == id)) =
      p.scanRequests.filter (fun request => !(request.library.id == id)) := by
  cases h : p.scanRequests with
  | nil => rw [libraryRemoved_empty p id h, h]
  | cons front rest =>
    by_cases hfront : front.type = ScanType.Library ∧ front.library.id = id
    · rw [libraryRemoved_front_scanned p id front rest h hfront]
      simp [LibraryThreadHandler.call, h]
    · rw [libraryRemoved_front_other p id front rest h hfront]
      simp [h]

/-- The requests that `addLibraryScanRequest` and `addDirectoryScanRequest` queue are
library scans of the library that they are given. -/
theorem addLibraryScanRequest_queue {T : Type} (p : LibraryThreadHandler T)
    (library : LibraryInfo) :
    (p.addLibraryScanRequest library).scanRequests =
      p.scanRequests ++
        [{ type := ScanType.Library, id := p.requestId, library := library, dir := "",
           tracks := [] }] := by
  unfold LibraryThreadHandler.addLibraryScanRequest
  simp only []
  split_ifs <;> rfl

/-- The queue after `addDirectoryScanRequest`. -/
theorem addDirectoryScanRequest_queue {T : Type} (p : LibraryThreadHandler T)
    (library : LibraryInfo) (dir : String) :
    (p.addDirectoryScanRequest library dir).scanRequests =
      p.scanRequests ++
        [{ type := ScanType.Library, id := p.requestId, library := library, dir := dir,
           tracks := [] }] := by
  unfold LibraryThreadHandler.addDirectoryScanRequest
  simp only []
  split_ifs <;> rfl

/-! ## Sorting model: `emplace` on a key that is new and on a key that the map has -/

/-- The entry of the first key of a map. -/
theorem node_cons_self (k : Int) (v : SortingItem) (rest : NodeMap) :
    NodeMap.node ((k, v) :: rest) k = some v := by
  simp [NodeMap.node, List.lookup_cons]

/-- The entry of a key that is not the first one. -/
theorem node_cons_other (k other : Int) (v : SortingItem) (rest : NodeMap) (h : other ≠ k) :
    NodeMap.node ((k, v) :: rest) other = NodeMap.node rest other := by
  have e : (other == k) = false := by simpa using h
  simp only [NodeMap.node, List.lookup_cons, e]

/-- A write to the entry of the first key. -/
theorem update_cons_self (k : Int) (v : SortingItem) (rest : NodeMap)
    (f : SortingItem → SortingItem) :
    NodeMap.update ((k, v) :: rest) k f = (k, f v) :: NodeMap.update rest k f := by
  simp only [NodeMap.update, List.map_cons, if_true]

/-- A write to the entry of a key that is not the first one. -/
theorem update_cons_other (k key : Int) (v : SortingItem) (rest : NodeMap)
    (f : SortingItem → SortingItem) (h : k ≠ key) :
    NodeMap.update ((k, v) :: rest) key f = (k, v) :: NodeMap.update rest key f := by
  simp only [NodeMap.update, List.map_cons, if_neg h]

/-- A key that is not in the map gets its entry. -/
theorem emplace_new_entry (nodes : NodeMap) (key : Int) (item : SortingItem)
    (h : key ∉ NodeMap.keys nodes) :
    NodeMap.node (NodeMap.emplace nodes key item) key = some item := by
  induction nodes with
  | nil => exact node_cons_self key item []
  | cons entry rest ih =>
    obtain ⟨k, v⟩ := entry
    have hk : key ≠ k := fun e => h (by simp [NodeMap.keys, e])
    have hrest : key ∉ NodeMap.keys rest := fun m => h (by
      simp only [NodeMap.keys, List.map_cons, List.mem_cons]
      exact Or.inr m)
    unfold NodeMap.emplace
    by_cases hlt : key < k
    · rw [if_pos hlt]
      exact node_cons_self key item _
    · rw [if_neg hlt, if_neg hk, node_cons_other _ _ _ _ hk]
      exact ih hrest

/-- The entries of the other keys are as they were, whether the key is new or not. -/
theorem emplace_other_entries (nodes : NodeMap) (key other : Int) (item : SortingItem)
    (h : other ≠ key) :
    NodeMap.node (NodeMap.emplace nodes key item) other = NodeMap.node nodes other := by
  induction nodes with
  | nil => exact node_cons_other key other item [] h
  | cons entry rest ih =>
    obtain ⟨k, v⟩ := entry
    unfold NodeMap.emplace
    by_cases hlt : key < k
    · rw [if_pos hlt]
      exact node_cons_other key other item _ h
    · rw [if_neg hlt]
      by_cases hk : key = k
      · rw [if_pos hk]
      · rw [if_neg hk]
        by_cases ho : other = k
        · subst ho
          rw [node_cons_self, node_cons_self]
        · rw [node_cons_other _ _ _ _ ho, node_cons_other _ _ _ _ ho]
          exact ih

/-- A new key makes the map one entry larger. -/
theorem emplace_new_length (nodes : NodeMap) (key : Int) (item : SortingItem)
    (h : key ∉ NodeMap.keys nodes) :
    (NodeMap.emplace nodes key item).length = nodes.length + 1 := by
  induction nodes with
  | nil => simp [NodeMap.emplace]
  | cons entry rest ih =>
    obtain ⟨k, v⟩ := entry
    have hk : key ≠ k := fun e => h (by simp [NodeMap.keys, e])
    have hrest : key ∉ NodeMap.keys rest := fun m => h (by
      simp only [NodeMap.keys, List.map_cons, List.mem_cons]
      exact Or.inr m)
    unfold NodeMap.emplace
    by_cases hlt : key < k
    · simp [hlt]
    · simp [hlt, hk, ih hrest]

/-- On a key that the map has, in a map whose keys are in increasing order, `emplace`
leaves the map as it is. -/
theorem emplace_present (nodes : NodeMap) (key : Int) (item : SortingItem)
    (hsorted : (NodeMap.keys nodes).Pairwise (· < ·)) (h : key ∈ NodeMap.keys nodes) :
    NodeMap.emplace nodes key item = nodes := by
  induction nodes with
  | nil => simp [NodeMap.keys] at h
  | cons entry rest ih =>
    obtain ⟨k, v⟩ := entry
    simp only [NodeMap.keys, List.map_cons, List.pairwise_cons] at hsorted
    simp only [NodeMap.keys, List.map_cons, List.mem_cons] at h
    unfold NodeMap.emplace
    by_cases hk : key = k
    · simp [hk]
    · have hmem : key ∈ NodeMap.keys rest := by
        rcases h with h | h
        · exact absurd h hk
        · exact h
      have hlt : ¬ key < k := by
        have := hsorted.1 key hmem
        omega
      rw [if_neg hlt, if_neg hk, ih hsorted.2 hmem]

/-- A write to the entry of a key leaves the keys of the map as they are. -/
theorem update_keys (nodes : NodeMap) (key : Int) (f : SortingItem → SortingItem) :
    NodeMap.keys (NodeMap.update nodes key f) = NodeMap.keys nodes := by
  induction nodes with
  | nil => rfl
  | cons entry rest ih =>
    obtain ⟨k, v⟩ := entry
    by_cases hk : k = key
    · subst hk
      rw [update_cons_self]
      simp only [NodeMap.keys, List.map_cons] at ih ⊢
      rw [ih]
    · rw [update_cons_other _ _ _ _ _ hk]
      simp only [NodeMap.keys, List.map_cons] at ih ⊢
      rw [ih]

/-- A write to the entry of a key changes that entry. -/
theorem update_entry (nodes : NodeMap) (key : Int) (f : SortingItem → SortingItem) :
    NodeMap.node (NodeMap.update nodes key f) key = (NodeMap.node nodes key).map f := by
  induction nodes with
  | nil => rfl
  | cons entry rest ih =>
    obtain ⟨k, v⟩ := entry
    by_cases hk : k = key
    · subst hk
      rw [update_cons_self, node_cons_self, node_cons_self]
      rfl
    · have hk2 : key ≠ k := fun e => hk e.symm
      rw [update_cons_other _ _ _ _ _ hk, node_cons_other _ _ _ _ hk2,
        node_cons_other _ _ _ _ hk2]
      exact ih

/-- A write to the entry of a key leaves the other entries as they are. -/
theorem update_other_entries (nodes : NodeMap) (key other : Int)
    (f : SortingItem → SortingItem) (h : other ≠ key) :
    NodeMap.node (NodeMap.update nodes key f) other = NodeMap.node nodes other := by
  induction nodes with
  | nil => rfl
  | cons entry rest ih =>
    obtain ⟨k, v⟩ := entry
    by_cases hk : k = key
    · subst hk
      rw [update_cons_self, node_cons_other _ _ _ _ h, node_cons_other _ _ _ _ h]
      exact ih
    · rw [update_cons_other _ _ _ _ _ hk]
      by_cases ho : other = k
      · subst ho
        rw [node_cons_self, node_cons_self]
      · rw [node_cons_other _ _ _ _ ho, node_cons_other _ _ _ _ ho]
        exact ih

/-! ## Sorting model: `addPendingRow` on a map with and without the key `nodes.size()` -/

/-- The root after `addPendingRow` has the key `nodes.size()` as its last child, whatever
the map holds. -/
theorem addPendingRow_root {R : Type} (registry : SortingRegistry R) (p : SortingModel R) :
    (p.addPendingRow registry).root = p.root ++ [(p.nodes.length : Int)] :=
  rfl

/-- When the key `nodes.size()` is not in the map, `addPendingRow` does what is expected
of it: the map gets one entry more, under that key, a default sort script with the key as
its index and the status `Added`, and the other entries are as they were. -/
theorem addPendingRow_new_key {R : Type} (registry : SortingRegistry R) (p : SortingModel R)
    (h : (p.nodes.length : Int) ∉ NodeMap.keys p.nodes) :
    (p.addPendingRow registry).nodes.length = p.nodes.length + 1 ∧
      NodeMap.node (p.addPendingRow registry).nodes p.nodes.length =
        some { m_sortScript := { registry.blank with index := p.nodes.length },
               status := ItemStatus.Added } ∧
      ∀ other : Int, other ≠ p.nodes.length →
        NodeMap.node (p.addPendingRow registry).nodes other = NodeMap.node p.nodes other := by
  refine ⟨?_, ?_, ?_⟩
  · simp only [SortingModel.addPendingRow, SortingModel.emit, NodeMap.update, List.length_map]
    exact emplace_new_length _ _ _ h
  · simp only [SortingModel.addPendingRow, SortingModel.emit]
    rw [update_entry, emplace_new_entry _ _ _ h]
    rfl
  · intro other ho
    simp only [SortingModel.addPendingRow, SortingModel.emit]
    rw [update_other_entries _ _ _ _ ho, emplace_other_entries _ _ _ _ ho]

/-- When the key `nodes.size()` is in the map, `addPendingRow` adds no entry: the map keeps
its keys, and the entry that has the key gets the status `Added` and keeps its sort
script. -/
theorem addPendingRow_present_key {R : Type} (registry : SortingRegistry R)
    (p : SortingModel R) (hsorted : (NodeMap.keys p.nodes).Pairwise (· < ·))
    (h : (p.nodes.length : Int) ∈ NodeMap.keys p.nodes) :
    NodeMap.keys (p.addPendingRow registry).nodes = NodeMap.keys p.nodes ∧
      NodeMap.node (p.addPendingRow registry).nodes p.nodes.length =
        (NodeMap.node p.nodes p.nodes.length).map (fun n => n.setStatus ItemStatus.Added) := by
  simp only [SortingModel.addPendingRow, SortingModel.emit]
  rw [emplace_present _ _ _ hsorted h]
  exact ⟨update_keys _ _ _, update_entry _ _ _⟩

/-- The key `nodes.size()` is new when every key of the map is below the size of the map,
as it is when the keys are 0, 1, 2 and so on without a gap. -/
theorem size_not_key_of_keys_below (nodes : NodeMap)
    (h : ∀ key ∈ NodeMap.keys nodes, key < (nodes.length : Int)) :
    (nodes.length : Int) ∉ NodeMap.keys nodes :=
  fun hmem => absurd (h _ hmem) (lt_irrefl _)

/-! ## The claims -/

/-- C1, as the claim states it, fails on the empty text: it contains no delimiter
character, yet its parse has no expression at all, where the claim asks for exactly one
`Literal`. -/
theorem C1_empty_input_has_no_expression :
    ("".toList.all (fun c => !isDelimiter c)) = true ∧
      (blankParser.parse "").1.expressions.length = 0 ∧
      ¬ (∃ e, (blankParser.parse "").1.expressions = [e]) := by
  refine ⟨by decide, by decide, ?_⟩
  rintro ⟨e, he⟩
  have : (blankParser.parse "").1.expressions.length = 1 := by rw [he]; rfl
  exact absurd this (by decide)

/-- C1 (amended): for every text without a variable, function, quote or conditional-bracket
marker, the parse has no error and evaluating it against any track returns the text
unchanged; when the text is not empty the parse is exactly one `Literal` whose text is
the input. -/
theorem C1_literal_roundtrip (self : ScriptParser) (input : String) (track : Track)
    (h : ∀ c ∈ input.toList, isMarker c = false) :
    (input ≠ "" → (self.parse input).1.expressions = [Expression.Literal 0 input]) ∧
      (self.parse input).1.errors = [] ∧
      self.evaluateScript (self.parse input).1 track = input := by
  cases hin : input.toList with
  | nil =>
    have he : input = "" := by
      have : String.mk input.toList = "" := by rw [hin]
      exact this
    subst he
    exact ⟨fun hne => absurd rfl hne, rfl, evaluateScript_nil _ _ _ _⟩
  | cons c cs =>
    have hp := parseInput_plain input c cs hin h
    change (_ → (parseInput input).expressions = _) ∧ (parseInput input).errors = [] ∧
      self.evaluateScript (parseInput input) track = input
    rw [hp]
    exact ⟨fun _ => rfl, rfl, evaluateScript_literal _ _ _ _ _ _⟩

/-- C1 (amended), at the text `Track 01, live (take 2)`. -/
theorem C1_literal_roundtrip_witness :
    (blankParser.parse "Track 01, live (take 2)").1.expressions
        = [Expression.Literal 0 "Track 01, live (take 2)"] ∧
      (blankParser.parse "Track 01, live (take 2)").1.errors = [] ∧
      blankParser.evaluateScript (blankParser.parse "Track 01, live (take 2)").1 sampleTrack
        = "Track 01, live (take 2)" :=
  have h := C1_literal_roundtrip blankParser "Track 01, live (take 2)" sampleTrack (by decide)
  ⟨h.1 (by decide), h.2.1, h.2.2⟩

/-- C2: a `ParsedScript` is valid exactly when its error list is empty, whatever its input
text and its expressions are. -/
theorem C2_isValid_iff_no_errors (script : ParsedScript) :
    (script.isValid = true ↔ script.errors = []) ∧
      ∀ (input : String) (expressions : ExpressionList),
        ({ script with input := input, expressions := expressions } : ParsedScript).isValid
          = script.isValid := by
  refine ⟨?_, fun _ _ => rfl⟩
  simp [ParsedScript.isValid, List.isEmpty_iff]

/-- C3: the script `[Disc %disc%]` evaluates to the empty text against every record in
which `disc` is absent or is the empty string, whatever the registry; against a record
in which `disc` resolves to `2` (the registry knows `disc` as a variable and the record
holds `2`) it evaluates to `Disc 2`. -/
theorem C3_conditional_suppression (self : ScriptParser) (track : Track) :
    ((track.resolveField "disc" = [] ∨ track.resolveField "disc" = [""]) →
        self.evaluateScript (self.parse "[Disc %disc%]").1 track = "") ∧
      ((self.registry.classify "disc" = NameKind.Variable ∨
          self.registry.classify "disc" = NameKind.VariableList) →
        track.resolveField "disc" = ["2"] →
        self.evaluateScript (self.parse "[Disc %disc%]").1 track = "Disc 2") := by
  change (_ → self.evaluateScript (parseInput "[Disc %disc%]") track = "") ∧
    (_ → _ → self.evaluateScript (parseInput "[Disc %disc%]") track = "Disc 2")
  rw [parseInput_disc]
  constructor
  · intro h
    rcases h with h | h <;>
    cases hc : self.registry.classify "disc" <;>
    simp [ScriptParser.evaluateScript, ScriptParser.evalFunctionArg, ScriptParser.evalExpression,
      ScriptParser.evalConditional, ScriptParser.unresolvedArgs, ScriptParser.unresolvedSequence,
      ScriptParser.unresolved, ScriptParser.evalVariable, ScriptParser.evalVariableList,
      ScriptParser.setMetadata, ScriptParser.evalBranches, ScriptParser.evalLiteral,
      ScriptResult.append, ScriptResult.nothing, ScriptResult.failure, cross,
      ScriptParser.format, String.intercalate, String.intercalate.go, hc, h]
  · intro hc h
    rcases hc with hc | hc <;>
    simp [ScriptParser.evaluateScript, ScriptParser.evalFunctionArg, ScriptParser.evalExpression,
      ScriptParser.evalConditional, ScriptParser.unresolvedArgs, ScriptParser.unresolvedSequence,
      ScriptParser.unresolved, ScriptParser.evalVariable, ScriptParser.evalVariableList,
      ScriptParser.setMetadata, ScriptParser.evalBranches, ScriptParser.evalLiteral,
      ScriptResult.append, ScriptResult.nothing, ScriptResult.failure, cross,
      ScriptParser.format, String.intercalate, String.intercalate.go, hc, h]

/-- C3, at a record without `disc` and at a record whose `disc` is `2`. -/
theorem C3_conditional_suppression_witness :
    (emptyTrack.resolveField "disc" = [] ∧
        sampleParser.evaluateScript (sampleParser.parse "[Disc %disc%]").1 emptyTrack = "") ∧
      (sampleParser.registry.classify "disc" = NameKind.Variable ∧
        sampleTrack.resolveField "disc" = ["2"] ∧
        sampleParser.evaluateScript (sampleParser.parse "[Disc %disc%]").1 sampleTrack
          = "Disc 2") :=
  ⟨⟨rfl, (C3_conditional_suppression sampleParser emptyTrack).1 (Or.inl rfl)⟩,
   ⟨rfl, rfl, (C3_conditional_suppression sampleParser sampleTrack).2 (Or.inl rfl) rfl⟩⟩

/-- C4: for the script `%title% (%genre%)`, a single-valued `title` that resolves to `Song`
and a multi-valued `genre` that resolves to `Rock` and `Jazz`, evaluation has exactly the
two results `Song (Rock)` and `Song (Jazz)`, in this order; `Song (RockJazz)` is not
among them; the final string is the two results joined by the separator. -/
theorem C4_multi_value_fan_out (self : ScriptParser) (track : Track)
    (htitle : self.registry.classify "title" = NameKind.Variable)
    (hgenre : self.registry.classify "genre" = NameKind.VariableList)
    (hsong : track.resolveField "title" = ["Song"])
    (hgenres : track.resolveField "genre" = ["Rock", "Jazz"]) :
    ((self.setMetadata track).evalFunctionArg (self.parse "%title% (%genre%)").1.expressions).values
        = ["Song (Rock)", "Song (Jazz)"] ∧
      "Song (RockJazz)" ∉
        ((self.setMetadata track).evalFunctionArg
          (self.parse "%title% (%genre%)").1.expressions).values ∧
      self.evaluateScript (self.parse "%title% (%genre%)").1 track
        = "Song (Rock)" ++ self.separator ++ "Song (Jazz)" := by
  have hv : ((self.setMetadata track).evalFunctionArg
      (parseInput "%title% (%genre%)").expressions).values = ["Song (Rock)", "Song (Jazz)"] := by
    rw [parseInput_title_genre]
    simp [ScriptParser.evalFunctionArg, ScriptParser.evalExpression,
      ScriptParser.evalVariable, ScriptParser.evalVariableList,
      ScriptParser.setMetadata, ScriptParser.evalLiteral,
      ScriptResult.append, ScriptResult.nothing, cross,
      String.intercalate, String.intercalate.go, htitle, hgenre, hsong, hgenres]
  change _ = _ ∧ _ ∉ _ ∧ self.format ((self.setMetadata track).evalFunctionArg
      (parseInput "%title% (%genre%)").expressions) = _
  refine ⟨hv, ?_, ?_⟩
  · change _ ∉ ((self.setMetadata track).evalFunctionArg
      (parseInput "%title% (%genre%)").expressions).values
    rw [hv]; decide
  · simp only [ScriptParser.format, hv, String.intercalate, String.intercalate.go]

/-- C4, at the sample registry and the sample record. -/
theorem C4_multi_value_fan_out_witness :
    (sampleParser.registry.classify "title" = NameKind.Variable ∧
        sampleParser.registry.classify "genre" = NameKind.VariableList ∧
        sampleTrack.resolveField "title" = ["Song"] ∧
        sampleTrack.resolveField "genre" = ["Rock", "Jazz"]) ∧
      ((sampleParser.setMetadata sampleTrack).evalFunctionArg
        (sampleParser.parse "%title% (%genre%)").1.expressions).values
        = ["Song (Rock)", "Song (Jazz)"] ∧
      sampleParser.evaluateScript (sampleParser.parse "%title% (%genre%)").1 sampleTrack
        = "Song (Rock), Song (Jazz)" :=
  have h := C4_multi_value_fan_out sampleParser sampleTrack rfl rfl rfl rfl
  ⟨⟨rfl, rfl, rfl, rfl⟩, h.1, h.2.2⟩

/-- C6: for every text, the parse completes with the recursion budget it is given: the
top-level sequence is returned, it has read the text to its end, and `parse` returns its
expressions and its errors as the `ParsedScript` of the text. -/
theorem C6_parse_total (self : ScriptParser) (input : String) :
    ∃ s : Sequence,
      expression (parseFuel input) Context.Top { pos := 0, rest := input.toList } = some s ∧
      s.stop = Stop.EndOfInput ∧ s.cursor.rest = [] ∧
      (self.parse input).1 = { input := input, expressions := s.exprs, errors := s.errors } := by
  obtain ⟨s, hs, _, _⟩ := (expression_total (parseFuel input)).1 Context.Top
    { pos := 0, rest := input.toList } (Nat.lt_succ_self _)
  obtain ⟨h1, h2⟩ := expression_stop _ _ _ _ hs
  refine ⟨s, hs, h2 rfl, h1 (h2 rfl), ?_⟩
  simp only [ScriptParser.parse, parseInput, hs]

/-- C9: a text between two quote characters that holds no quote character is read as one
`QuotedLiteral` with that text and no error, whatever characters it holds, in every
context and before every rest of the input.  So a script made of plain text, a quoted
text and plain text again has no error, has the quoted text as one node and evaluates,
against every record, to the three texts in a row. -/
theorem C9_quoting_escapes_delimiters (self : ScriptParser) (track : Track)
    (before text after : String)
    (hb : ∀ c ∈ before.toList, isMarker c = false) (ht : ∀ c ∈ text.toList, c ≠ '"')
    (ha : ∀ c ∈ after.toList, isMarker c = false) :
    (∀ (fuel : Nat) (ctx : Context) (pos : Nat) (rest : List Char),
        expression (fuel + 1) ctx { pos := pos, rest := '"' :: (text.toList ++ '"' :: rest) } =
          (expression fuel ctx { pos := pos + 1 + text.length + 1, rest := rest }).map
            (Sequence.push { expr := Expression.QuotedLiteral pos text, errors := [],
                             cursor := { pos := pos + 1 + text.length + 1, rest := rest } })) ∧
      (self.parse (before ++ "\"" ++ text ++ "\"" ++ after)).1.errors = [] ∧
      (self.parse (before ++ "\"" ++ text ++ "\"" ++ after)).1.expressions =
        literalRun 0 before.toList ++
          Expression.QuotedLiteral before.length text ::
            literalRun (before.length + 1 + text.length + 1) after.toList ∧
      self.evaluateScript (self.parse (before ++ "\"" ++ text ++ "\"" ++ after)).1 track =
        before ++ text ++ after := by
  have hp := parseInput_quoted before text after hb ht ha
  refine ⟨?_, ?_⟩
  · intro fuel ctx pos rest
    rw [expression_quote, quote_closed pos text.toList rest ht]
    rfl
  change (parseInput _).errors = [] ∧ (parseInput _).expressions = _ ∧
    self.evaluateScript (parseInput _) track = _
  rw [hp]
  refine ⟨rfl, rfl, ?_⟩
  have hv : ((self.setMetadata track).evalFunctionArg
      (literalRun 0 before.toList ++
        Expression.QuotedLiteral before.length text ::
          literalRun (before.length + 1 + text.length + 1) after.toList)).values =
      [before ++ text ++ after] := by
    have h3 := evalFunctionArg_literalRun (self.setMetadata track)
      (before.length + 1 + text.length + 1) after.toList []
    rw [List.append_nil] at h3
    rw [evalFunctionArg_literalRun, ScriptParser.evalFunctionArg, ScriptParser.evalExpression]
    simp only [ScriptResult.append, ScriptParser.evalLiteral, h3, ScriptParser.evalFunctionArg,
      ScriptResult.nothing, cross, List.map, List.append_nil, String.append_empty]
    have h1 : String.mk before.toList = before := rfl
    have h2 : String.mk after.toList = after := rfl
    rw [h1, h2, String.append_assoc]
  simp only [ScriptParser.evaluateScript, ScriptParser.format, hv, String.intercalate,
    String.intercalate.go]

/-- C9, at `100"%" done`, where only the percent sign is quoted, and at `"100% done"`,
where the whole text is. -/
theorem C9_quoting_escapes_delimiters_witness :
    (blankParser.parse "100\"%\" done").1.errors = [] ∧
      (blankParser.parse "100\"%\" done").1.expressions =
        [Expression.Literal 0 "100", Expression.QuotedLiteral 3 "%",
          Expression.Literal 6 " done"] ∧
      blankParser.evaluateScript (blankParser.parse "100\"%\" done").1 sampleTrack
        = "100% done" ∧
      (blankParser.parse "\"100% done\"").1.errors = [] ∧
      blankParser.evaluateScript (blankParser.parse "\"100% done\"").1 sampleTrack
        = "100% done" :=
  have h := C9_quoting_escapes_delimiters blankParser sampleTrack
    "100" "%" " done" (by decide) (by decide) (by decide)
  have h2 := C9_quoting_escapes_delimiters blankParser sampleTrack
    "" "100% done" "" (by decide) (by decide) (by decide)
  ⟨h.2.1, h.2.2.1, h.2.2.2, h2.2.1, h2.2.2.2⟩

/-- C11: the arguments of a call are split at the commas of its own level only.  For every
name and every list of argument texts that are well formed as arguments by the grammar
of scripts, so that a comma in them lies in a nested call, in a conditional group or in
a quoted text, the call made of these texts with a comma between each two parses,
without an error, to one `Function` node that has one argument for each text, one more
than the number of commas between the texts, and each argument is the parse of its text
read on its own. -/
theorem C11_arguments_split_on_top_level_commas (self : ScriptParser) (name first : String)
    (others : List String) (hname : name ≠ "")
    (hplain : ∀ c ∈ name.toList, isDelimiter c = false)
    (h : ∀ a ∈ first :: others, Script Context.Args a.toList) :
    ∃ parsed : List ExpressionList,
      argumentsAlone (name.length + 2) ((first :: others).map String.toList) = some parsed ∧
      (self.parse (callText name (first :: others))).1.expressions
        = [Expression.Function 0 name parsed] ∧
      (self.parse (callText name (first :: others))).1.errors = [] ∧
      parsed.length = others.length + 1 := by
  obtain ⟨parsed, hparsed, hp, hl⟩ := parseInput_callScript name first others hname hplain h
  refine ⟨parsed, hparsed, ?_, ?_, hl⟩
  · show (parseInput _).expressions = _
    rw [hp]
  · show (parseInput _).errors = _
    rw [hp]

/-- C11, at the call `$if(%a%,[x,y],$f(1,2))`: the comma in the group and the comma in the
nested call start no argument of `if`, which has three. -/
theorem C11_arguments_split_on_top_level_commas_witness :
    callText "if" ["%a%", "[x,y]", "$f(1,2)"] = "$if(%a%,[x,y],$f(1,2))" ∧
      (∀ a ∈ ["%a%", "[x,y]", "$f(1,2)"], Script Context.Args a.toList) ∧
      (blankParser.parse "$if(%a%,[x,y],$f(1,2))").1.expressions =
        [Expression.Function 0 "if"
          [[Expression.Variable 4 "a"],
           [Expression.Conditional 8 [[Expression.Literal 9 "x,y"]]],
           [Expression.Function 14 "f"
             [[Expression.Literal 17 "1"], [Expression.Literal 19 "2"]]]]] ∧
      (blankParser.parse "$if(%a%,[x,y],$f(1,2))").1.errors = [] :=
  have hs : ∀ a ∈ ["%a%", "[x,y]", "$f(1,2)"], Script Context.Args a.toList := by
    intro a ha
    simp only [List.mem_cons, List.mem_singleton, List.not_mem_nil, or_false] at ha
    rcases ha with ha | ha | ha
    · subst ha
      exact Script.reference Context.Args 'a' [] [] (by decide) (Script.done Context.Args)
    · subst ha
      exact Script.group Context.Args ['x', ',', 'y'] []
        (Script.text Context.Group 'x' [',', 'y'] [] (by decide) (by decide)
          (Script.done Context.Group))
        (Script.done Context.Args)
    · subst ha
      exact Script.call Context.Args 'f' [] ['1'] [['2']] [] (by decide)
        (fun b hb => by
          rcases List.mem_cons.1 hb with hb | hb
          · subst hb
            exact Script.text Context.Args '1' [] [] (by decide) (by decide)
              (Script.done Context.Args)
          · rw [List.mem_singleton.1 hb]
            exact Script.text Context.Args '2' [] [] (by decide) (by decide)
              (Script.done Context.Args))
        (Script.done Context.Args)
  match C11_arguments_split_on_top_level_commas blankParser "if" "%a%"
    ["[x,y]", "$f(1,2)"] (by decide) (by decide) hs with
  | ⟨_, _, _, herr, _⟩ => ⟨by decide, hs, rfl, herr⟩

/-- C15: with a total duration below `2 ^ 64`, `seek(ms)` changes nothing when the total
duration is below 100; otherwise the subtraction `totalDuration - 100` does not wrap,
and `seek(ms)` is `next()` when `ms >= totalDuration - 100`, and else writes `ms` to the
position, emits `positionMoved(ms)` when the position was another one, and changes no
other field. -/
theorem C15_seek {PT Q : Type} (env : PlayerEnv PT Q) (ms : Nat) (p : PlayerController PT Q)
    (hduration : p.totalDuration < 18446744073709551616) :
    (p.totalDuration < 100 → p.seek env ms = p) ∧
      (100 ≤ p.totalDuration → sub64 p.totalDuration 100 = p.totalDuration - 100) ∧
      (100 ≤ p.totalDuration → p.totalDuration - 100 ≤ ms → p.seek env ms = p.next env) ∧
      (100 ≤ p.totalDuration → ms < p.totalDuration - 100 →
        p.seek env ms =
          { p with position := ms,
                   emitted := p.emitted ++
                     (if p.position = ms then [] else [Signal.positionMoved ms]) }) := by
  refine ⟨?_, ?_, ?_, ?_⟩
  · intro h
    simp [PlayerController.seek, h]
  · intro h
    exact sub64_exact _ _ hduration h
  · intro h1 h2
    have hs := sub64_exact _ _ hduration h1
    have h3 : ¬ p.totalDuration < 100 := by omega
    simp [PlayerController.seek, h3, hs, h2]
  · intro h1 h2
    have hs := sub64_exact _ _ hduration h1
    have h3 : ¬ p.totalDuration < 100 := by omega
    have h4 : ¬ p.totalDuration - 100 ≤ ms := by omega
    by_cases hp : p.position = ms
    · simp [PlayerController.seek, h3, hs, h4, hp]
    · simp [PlayerController.seek, h3, hs, h4, hp, PlayerController.emit]

/-- C15, at a track of 5000 ms played at 1200 ms: a seek to 1000, a seek to 4900, which
goes to the next track, and a seek in a track of 50 ms. -/
theorem C15_seek_witness :
    (samplePlayer.seek sampleEnv 1000).position = 1000 ∧
      (samplePlayer.seek sampleEnv 1000).emitted = [Signal.positionMoved 1000] ∧
      samplePlayer.seek sampleEnv 4900 = samplePlayer.next sampleEnv ∧
      (samplePlayer.seek sampleEnv 4900).position = 1200 ∧
      ({ samplePlayer with totalDuration := 50 } : PlayerController Nat (List Nat)).seek
        sampleEnv 10 = { samplePlayer with totalDuration := 50 } :=
  have h := C15_seek sampleEnv 1000 samplePlayer (by decide)
  have h2 := C15_seek sampleEnv 4900 samplePlayer (by decide)
  have h3 := C15_seek sampleEnv 10
    ({ samplePlayer with totalDuration := 50 } : PlayerController Nat (List Nat)) (by decide)
  ⟨by rw [h.2.2.2 (by decide) (by decide)], by rw [h.2.2.2 (by decide) (by decide)]; rfl,
   h2.2.2.1 (by decide) (by decide), by decide, h3.1 (by decide)⟩

/-- C16: with a position below `2 ^ 64`, `seekBackward(delta)` is `seek(position - delta)`,
with a subtraction that does not wrap, when `delta <= position`, and `seek(0)` when
`delta > position`. -/
theorem C16_seekBackward {PT Q : Type} (env : PlayerEnv PT Q) (delta : Nat)
    (p : PlayerController PT Q) (hposition : p.position < 18446744073709551616) :
    (delta ≤ p.position → sub64 p.position delta = p.position - delta ∧
        p.seekBackward env delta = p.seek env (p.position - delta)) ∧
      (delta > p.position → p.seekBackward env delta = p.seek env 0) := by
  constructor
  · intro h
    have hs := sub64_exact _ _ hposition h
    have h2 : ¬ delta > p.position := by omega
    exact ⟨hs, by simp [PlayerController.seekBackward, h2, hs]⟩
  · intro h
    simp [PlayerController.seekBackward, h]

/-- C16, at the position 1200: back by 200 and back by 5000. -/
theorem C16_seekBackward_witness :
    (samplePlayer.seekBackward sampleEnv 200 = samplePlayer.seek sampleEnv 1000 ∧
        (samplePlayer.seekBackward sampleEnv 200).position = 1000) ∧
      (samplePlayer.seekBackward sampleEnv 5000 = samplePlayer.seek sampleEnv 0 ∧
        (samplePlayer.seekBackward sampleEnv 5000).position = 0) :=
  have h := C16_seekBackward sampleEnv 200 samplePlayer (by decide)
  have h2 := C16_seekBackward sampleEnv 5000 samplePlayer (by decide)
  ⟨⟨(h.1 (by decide)).2, by decide⟩, ⟨h2.2 (by decide), by decide⟩⟩

/-- C17: `changeCurrentTrack` clears the counted flag, sets the position to 0 and emits no
`trackPlayed`.  Every `setCurrentPosition(ms)` sets the position to `ms` and emits
`trackPlayed` once exactly when the flag was clear, `ms >= totalDuration / 2` and the
current track is valid, and never else.  So a run of `setCurrentPosition` calls after a
`changeCurrentTrack` emits `trackPlayed` at most once, and when it does the track is
valid and one of the positions is at least half of its duration. -/
theorem C17_track_played_once {PT Q : Type} (env : PlayerEnv PT Q) (track : PT)
    (positions : List Nat) (p : PlayerController PT Q) :
    ((p.changeCurrentTrack env track).counted = false ∧
        (p.changeCurrentTrack env track).position = 0 ∧
        playedCount (p.changeCurrentTrack env track).emitted = playedCount p.emitted) ∧
      (∀ (ms : Nat) (q : PlayerController PT Q),
        (q.setCurrentPosition env ms).position = ms ∧
        playedCount (q.setCurrentPosition env ms).emitted =
          playedCount q.emitted +
            (if (!q.counted && decide (ms ≥ q.totalDuration / 2) && env.isValid q.currentTrack)
                = true then 1 else 0)) ∧
      playedCount ((p.changeCurrentTrack env track).setCurrentPositions env positions).emitted
        ≤ playedCount p.emitted + 1 ∧
      (playedCount p.emitted <
          playedCount ((p.changeCurrentTrack env track).setCurrentPositions env positions).emitted →
        env.isValid track = true ∧ ∃ ms ∈ positions, ms ≥ env.duration track / 2) := by
  have hchange : (p.changeCurrentTrack env track).counted = false ∧
      (p.changeCurrentTrack env track).position = 0 ∧
      playedCount (p.changeCurrentTrack env track).emitted = playedCount p.emitted ∧
      (p.changeCurrentTrack env track).currentTrack = track ∧
      (p.changeCurrentTrack env track).totalDuration = env.duration track := by
    simp [PlayerController.changeCurrentTrack, PlayerController.emit, playedCount_append,
      playedCount]
  obtain ⟨c1, c2, c3, c4, c5⟩ := hchange
  obtain ⟨r1, r2⟩ := setCurrentPositions_played env positions (p.changeCurrentTrack env track)
  rw [c3, c1] at r1
  rw [c3, c4, c5] at r2
  refine ⟨⟨c1, c2, c3⟩, fun ms q => ?_, by simpa using r1, r2⟩
  obtain ⟨h1, _, _, _, h5⟩ := setCurrentPosition_played env ms q
  exact ⟨h5, h1⟩

/-- C17, at the track 5 of 5000 ms and the positions 100, 3000, 4000 and 2600: one
`trackPlayed`, though three positions are beyond the half. -/
theorem C17_track_played_once_witness :
    playedCount ((samplePlayer.changeCurrentTrack sampleEnv 5).setCurrentPositions sampleEnv
        [100, 3000, 4000, 2600]).emitted = 1 ∧
      sampleEnv.isValid 5 = true ∧ (∃ ms ∈ [100, 3000, 4000, 2600], ms ≥ sampleEnv.duration 5 / 2) :=
  have h := (C17_track_played_once sampleEnv 5 [100, 3000, 4000, 2600] samplePlayer).2.2.2
    (by decide)
  ⟨by decide, h.1, h.2⟩

/-- C18: after `stop()` the play state is `Stopped`.  When it was `Playing` or `Paused`,
`stop()` sets it to `Stopped`, sets the position to 0, emits `playStateChanged(Stopped)`
once and changes nothing else; when it was `Stopped`, `stop()` changes nothing and emits
nothing. -/
theorem C18_stop {PT Q : Type} (p : PlayerController PT Q) :
    p.stop.playStatus = PlayState.Stopped ∧
      (p.playStatus ≠ PlayState.Stopped →
        p.stop = { p with playStatus := PlayState.Stopped, position := 0,
                          emitted := p.emitted ++ [Signal.playStateChanged PlayState.Stopped] }) ∧
      (p.playStatus = PlayState.Stopped → p.stop = p) := by
  refine ⟨?_, ?_, ?_⟩
  · by_cases h : p.playStatus = PlayState.Stopped
    · simp [PlayerController.stop, h]
    · simp [PlayerController.stop, h, PlayerController.reset, PlayerController.emit]
  · intro h
    simp [PlayerController.stop, h, PlayerController.reset, PlayerController.emit]
  · intro h
    cases p
    simp only at h
    subst h
    simp [PlayerController.stop]

/-- C18, at a player that plays at 1200 ms, and at the same player once stopped. -/
theorem C18_stop_witness :
    (samplePlayer.stop.position = 0 ∧
        samplePlayer.stop.emitted = [Signal.playStateChanged PlayState.Stopped]) ∧
      samplePlayer.stop.stop = samplePlayer.stop :=
  have h := (C18_stop samplePlayer).2.1 (by decide)
  ⟨⟨by rw [h], by rw [h]; rfl⟩, (C18_stop samplePlayer.stop).2.2 (C18_stop samplePlayer).1⟩

/-- C19: `play()` changes nothing and emits nothing when the current track is not valid and
the queue is empty.  When the current track is valid, the play state is `Playing`
afterwards, the current track, the position and the queue are as before, and
`playStateChanged(Playing)` is emitted exactly when the state was not `Playing`.  When
`play()` leaves the state `Playing` and it was not before, the current track is valid
afterwards. -/
theorem C19_play {PT Q : Type} (env : PlayerEnv PT Q) (p : PlayerController PT Q) :
    (env.isValid p.currentTrack = false → env.queueEmpty p.queue = true → p.play env = p) ∧
      (env.isValid p.currentTrack = true →
        (p.play env).playStatus = PlayState.Playing ∧
        (p.play env).currentTrack = p.currentTrack ∧
        (p.play env).position = p.position ∧
        (p.play env).queue = p.queue ∧
        (p.play env).emitted = p.emitted ++
          (if p.playStatus = PlayState.Playing then []
           else [Signal.playStateChanged PlayState.Playing])) ∧
      ((p.play env).playStatus = PlayState.Playing →
        p.playStatus = PlayState.Playing ∨ env.isValid (p.play env).currentTrack = true) := by
  refine ⟨?_, ?_, ?_⟩
  · intro h1 h2
    simp [PlayerController.play, h1, h2]
  · intro h1
    by_cases hs : p.playStatus = PlayState.Playing
    · simp [PlayerController.play, h1, hs]
    · simp [PlayerController.play, h1, hs, PlayerController.emit]
  · intro h
    by_cases hs : p.playStatus = PlayState.Playing
    · exact Or.inl hs
    · right
      simp only [PlayerController.play] at h ⊢
      split_ifs at h ⊢ with h1 h2 h3
      · exact (Bool.and_eq_true_iff.1 h2).1
      · exact absurd h hs
      · exact (Bool.and_eq_true_iff.1 h3).1
      · exact absurd h hs

/-- C19, at a stopped player without a valid track and with an empty queue, and at a
stopped player with the valid track 5. -/
theorem C19_play_witness :
    ({ samplePlayer with currentTrack := 0, playStatus := PlayState.Stopped }
        : PlayerController Nat (List Nat)).play sampleEnv
        = { samplePlayer with currentTrack := 0, playStatus := PlayState.Stopped } ∧
      (samplePlayer.stop.play sampleEnv).playStatus = PlayState.Playing ∧
      (samplePlayer.stop.play sampleEnv).currentTrack = 5 :=
  have h := (C19_play sampleEnv
    ({ samplePlayer with currentTrack := 0, playStatus := PlayState.Stopped }
      : PlayerController Nat (List Nat))).1 (by decide) (by decide)
  have h2 := (C19_play sampleEnv samplePlayer.stop).2.1 (by decide)
  ⟨h, h2.1, h2.2.1⟩

/-- C20: `matchMissingTrack` returns the entry of `missingFiles` under the file name of the
track when that key exists and the entry has the duration of the track; else the entry of
`missingHashes` under the hash of the track when that key exists and the entry has the
duration of the track; else the default track.  So an entry found by file name wins over
one found by hash, and what is returned is the default track or has the duration of the
track. -/
theorem C20_matchMissingTrack {T : Type} (ops : TrackOps T)
    (missingFiles missingHashes : TrackFieldMap T) (track : T) :
    (∀ entry, missingFiles (ops.filename track) = some entry →
        ops.duration entry = ops.duration (ops.generateHash track).2 →
        matchMissingTrack ops missingFiles missingHashes track = entry) ∧
      (matchingEntry ops missingFiles (ops.filename track)
          (ops.duration (ops.generateHash track).2) = none →
        ∀ entry, missingHashes (ops.generateHash track).1 = some entry →
          ops.duration entry = ops.duration (ops.generateHash track).2 →
          matchMissingTrack ops missingFiles missingHashes track = entry) ∧
      (matchingEntry ops missingFiles (ops.filename track)
          (ops.duration (ops.generateHash track).2) = none →
        matchingEntry ops missingHashes (ops.generateHash track).1
          (ops.duration (ops.generateHash track).2) = none →
        matchMissingTrack ops missingFiles missingHashes track = ops.blank) ∧
      (matchMissingTrack ops missingFiles missingHashes track = ops.blank ∨
        ops.duration (matchMissingTrack ops missingFiles missingHashes track)
          = ops.duration (ops.generateHash track).2) := by
  have hentry : ∀ (map : TrackFieldMap T) (key : String) (entry : T), map key = some entry →
      ops.duration entry = ops.duration (ops.generateHash track).2 →
      matchingEntry ops map key (ops.duration (ops.generateHash track).2) = some entry := by
    intro map key entry h1 h2
    simp [matchingEntry, h1, h2, Option.filter]
  have hduration : ∀ (map : TrackFieldMap T) (key : String) (entry : T),
      matchingEntry ops map key (ops.duration (ops.generateHash track).2) = some entry →
      ops.duration entry = ops.duration (ops.generateHash track).2 := by
    intro map key entry h
    cases hm : map key with
    | none => simp [matchingEntry, hm, Option.filter] at h
    | some found =>
      by_cases hd : ops.duration found = ops.duration (ops.generateHash track).2
      · simp [matchingEntry, hm, Option.filter, hd] at h
        rw [← h]; exact hd
      · simp [matchingEntry, hm, Option.filter, hd] at h
  refine ⟨?_, ?_, ?_, ?_⟩
  · intro entry h1 h2
    simp [matchMissingTrack, hentry _ _ _ h1 h2]
  · intro h0 entry h1 h2
    simp [matchMissingTrack, h0, hentry _ _ _ h1 h2]
  · intro h0 h1
    simp [matchMissingTrack, h0, h1]
  · cases hf : matchingEntry ops missingFiles (ops.filename track)
        (ops.duration (ops.generateHash track).2) with
    | some entry =>
      right
      simp only [matchMissingTrack, hf]
      exact hduration _ _ _ hf
    | none =>
      cases hh : matchingEntry ops missingHashes (ops.generateHash track).1
          (ops.duration (ops.generateHash track).2) with
      | some entry =>
        right
        simp only [matchMissingTrack, hf, hh]
        exact hduration _ _ _ hh
      | none =>
        left
        simp [matchMissingTrack, hf, hh]

/-- C20, at a track `a.flac` of duration 300 whose file name is missing with another
duration and whose hash is missing with the same duration, and at the same track when the
file name is missing with the same duration too. -/
theorem C20_matchMissingTrack_witness :
    matchMissingTrack sampleTrackOps
        (singleEntry "a.flac" { filename := "a.flac", hash := "h1", duration := 200 })
        (singleEntry "h2" { filename := "b.flac", hash := "h2", duration := 300 })
        { filename := "a.flac", hash := "h2", duration := 300 }
        = { filename := "b.flac", hash := "h2", duration := 300 } ∧
      matchMissingTrack sampleTrackOps
        (singleEntry "a.flac" { filename := "a.flac", hash := "h1", duration := 300 })
        (singleEntry "h2" { filename := "b.flac", hash := "h2", duration := 300 })
        { filename := "a.flac", hash := "h2", duration := 300 }
        = { filename := "a.flac", hash := "h1", duration := 300 } :=
  ⟨(C20_matchMissingTrack sampleTrackOps
      (singleEntry "a.flac" { filename := "a.flac", hash := "h1", duration := 200 })
      (singleEntry "h2" { filename := "b.flac", hash := "h2", duration := 300 })
      { filename := "a.flac", hash := "h2", duration := 300 }).2.1 (by decide)
      { filename := "b.flac", hash := "h2", duration := 300 } (by decide) (by decide),
   (C20_matchMissingTrack sampleTrackOps
      (singleEntry "a.flac" { filename := "a.flac", hash := "h1", duration := 300 })
      (singleEntry "h2" { filename := "b.flac", hash := "h2", duration := 300 })
      { filename := "a.flac", hash := "h2", duration := 300 }).1
      { filename := "a.flac", hash := "h1", duration := 300 } (by decide) (by decide)⟩

/-- C21, as the code has it: an `Id` constructed from a text has the id of its name (0
for the empty text, the hash modulo `2 ^ 32` otherwise), and each `append` (text, C string,
number) returns the `Id` constructed from the old name followed by the appended text; the
receiver, however, is left with the longer name and its old id.  With the sample hash,
`Id{"a"}.append("b")` leaves the receiver with the name `ab` and the id 314 of `a`, where
the id of `ab` is 9832. -/
theorem C21_append_leaves_receiver_with_old_id (hash : String → Nat) (self : Util.Id)
    (str : String) (num : Int) :
    ((Util.Id.ofString hash str).id = idFromString hash (Util.Id.ofString hash str).name ∧
      idFromString hash str = if str = "" then 0 else hash str % 4294967296) ∧
    ((self.append hash str).1 = Util.Id.ofString hash (self.name ++ str) ∧
      (self.appendChars hash str).1 = Util.Id.ofString hash (self.name ++ str) ∧
      (self.appendNumber hash num).1 = Util.Id.ofString hash (self.name ++ number num)) ∧
    ((self.append hash str).2 = { m_id := self.id, m_name := self.name ++ str } ∧
      (self.appendChars hash str).2 = { m_id := self.id, m_name := self.name ++ str } ∧
      (self.appendNumber hash num).2 =
        { m_id := self.id, m_name := self.name ++ number num }) ∧
    (((Util.Id.ofString sampleHash "a").append sampleHash "b").2.name = "ab" ∧
      ((Util.Id.ofString sampleHash "a").append sampleHash "b").2.id = 314 ∧
      idFromString sampleHash "a" = 314 ∧
      idFromString sampleHash "ab" = 9832 ∧
      ((Util.Id.ofString sampleHash "a").appendNumber sampleHash 7).2 =
        { m_id := 314, m_name := "a7" } ∧
      idFromString sampleHash "a7" = 9789) :=
  ⟨⟨rfl, idFromString_eq hash str⟩, ⟨rfl, rfl, rfl⟩, ⟨rfl, rfl, rfl⟩, by decide⟩

/-- C22, as the code has it: when the front request is a library scan of the removed
library, `libraryRemoved` stops the scanner and leaves the deque as it is, whatever is
queued behind the front.  On the handler on which a scan of the library 1 and then a scan
of a directory of the library 1 were asked for, `libraryRemoved(1)` leaves both requests
queued, so that a request of the removed library remains behind the front. -/
theorem C22_libraryRemoved_leaves_requests_behind_scanned_front {T : Type}
    (p : LibraryThreadHandler T) (front : LibraryScanRequest T)
    (rest : List (LibraryScanRequest T)) (id : Int) :
    (LibraryThreadHandler.libraryRemoved
        { p with
          scanRequests :=
            { front with type := ScanType.Library, library := { id := id } } :: rest } id
      = LibraryThreadHandler.call
        { p with
          scanRequests :=
            { front with type := ScanType.Library, library := { id := id } } :: rest }
        ScannerCall.stopThread) ∧
    (sampleHandler.scanRequests =
        [{ type := ScanType.Library, id := 0, library := { id := 1 }, dir := "", tracks := [] },
         { type := ScanType.Library, id := 1, library := { id := 1 }, dir := "/music/new",
           tracks := [] }] ∧
      (sampleHandler.libraryRemoved 1).scanRequests = sampleHandler.scanRequests ∧
      (sampleHandler.libraryRemoved 1).scanner =
        [ScannerCall.scanLibrary { id := 1 }, ScannerCall.stopThread] ∧
      ∃ request ∈ (sampleHandler.libraryRemoved 1).scanRequests.tail,
        request.library.id = 1) := by
  refine ⟨?_, ?_, ?_, ?_, ?_⟩
  · simp [LibraryThreadHandler.libraryRemoved]
  · decide
  · decide
  · decide
  · exact ⟨{ type := ScanType.Library, id := 1, library := { id := 1 }, dir := "/music/new",
             tracks := [] }, by decide, rfl⟩

/-- C23, as the code has it, on three maps with a gap in their keys: the map with the keys
1 and 2 that `populate` leaves when the sort script of index 0 is not valid, the same map
after `populate` on three valid sort scripts, the removal of the row 0 and `processQueue`,
and the map with the key 1 after two pending rows were added and the first one removed.
On each of them `addPendingRow` finds the key `nodes.size()` in the map: no entry is added,
the entry that has the key gets the status `Added` (on the first two maps it had the
status `None`), and the root gets this entry as a child a second time. -/
theorem C23_addPendingRow_takes_existing_key :
    (NodeMap.keys modelAfterSkip.nodes = [1, 2] ∧
      modelAfterSkip.root = [1, 2] ∧
      NodeMap.node modelAfterSkip.nodes 2 =
        some { m_sortScript := { id := 2, index := 2, name := "Title", script := "%title%" },
               status := ItemStatus.None } ∧
      NodeMap.keys (modelAfterSkip.addPendingRow sampleSortingRegistry).nodes = [1, 2] ∧
      NodeMap.node (modelAfterSkip.addPendingRow sampleSortingRegistry).nodes 2 =
        some { m_sortScript := { id := 2, index := 2, name := "Title", script := "%title%" },
               status := ItemStatus.Added } ∧
      (modelAfterSkip.addPendingRow sampleSortingRegistry).root = [1, 2, 2]) ∧
    (NodeMap.keys modelAfterRemoval.nodes = [1, 2] ∧
      modelAfterRemoval.root = [1, 2] ∧
      NodeMap.node modelAfterRemoval.nodes 2 =
        some { m_sortScript := { id := 2, index := 2, name := "Title", script := "%title%" },
               status := ItemStatus.None } ∧
      NodeMap.keys (modelAfterRemoval.addPendingRow sampleSortingRegistry).nodes = [1, 2] ∧
      NodeMap.node (modelAfterRemoval.addPendingRow sampleSortingRegistry).nodes 2 =
        some { m_sortScript := { id := 2, index := 2, name := "Title", script := "%title%" },
               status := ItemStatus.Added } ∧
      (modelAfterRemoval.addPendingRow sampleSortingRegistry).root = [1, 2, 2]) ∧
    (NodeMap.keys modelAfterCancel.nodes = [1] ∧
      modelAfterCancel.root = [1] ∧
      (modelAfterCancel.addPendingRow sampleSortingRegistry).nodes = modelAfterCancel.nodes ∧
      (modelAfterCancel.addPendingRow sampleSortingRegistry).root = [1, 1]) := by
  decide

end Fooyin
